import Mathlib

/-!
# Pushdown-automaton processor: ordered admission of tokens

A shallow embedding of `src/PDAProcessor.go` (the execution engine of the
repository), of the methods `presentToken`, `currentState`, `stackLength` and the
function `validatePDADetails` of `src/PDAService.go`, and theorems about them.

Modelling conventions.

* The Go receiver `*PDAProcessor` is mutated in place; here every function takes
  the record and returns the updated record together with its Go return value.
* Go `int` values (positions, the clock) are mathematical integers.  The only
  arithmetic the engine performs on them is `+ 1` and `- 1`, so the model agrees
  with the 64-bit code on every position of magnitude below `2^63 - 1`.
* A transition row is the five-entry array
  `[current_state, current_input, current_stack_top, next_state, to_be_stack_top]`
  (the comment in `put`); it is modelled as a record with these five fields.
* Console output (`fmt.Println`, `printLog`) is not modelled.
* A Go run-time panic (index out of range) is the result `Result.panic`, with the
  record as it was when the panic was raised.
* The constant `PDA_PENDING_QUEUE_LENGTH` is declared outside the available
  sources; it is a parameter of `reset`.
* The service keeps its processors in the globals `sessionMap` and `availablePDAs`.
  A method of the service takes the entry of `sessionMap` for its session id as an
  `Option PDAProcessor` (`none` when the id is unknown) and returns the entry after
  the call; `availablePDAs` is a parameter of `validatePDADetails`.
-/

namespace PDA

/-- One row of `Transitions`:
`[current_state, current_input, current_stack_top, next_state, to_be_stack_top]`. -/
structure Transition where
  state : String
  input : String
  stackTop : String
  nextState : String
  elementToPush : String
deriving DecidableEq, Repr

/-- The Go struct `PDAProcessor`: the transition table (the JSON fields) and the
execution state (the fields tagged `json:"-"`). -/
structure PDAProcessor where
  ID : Int
  Name : String
  States : List String
  InputAlphabet : List String
  StackAlphabet : List String
  AcceptingStates : List String
  StartState : String
  Transitions : List Transition
  Eos : String
  Stack : List String
  CurrentState : String
  TransitionsTaken : List String
  CurrentStackTop : String
  PdaClock : Int
  PendingTokenQueue : List String
  LastConsumedPosition : Int
  PDAFailedInLastEvaluation : Bool
  EOSPresentedAtPosition : Int
deriving DecidableEq, Repr

/-- The errors built with `errors.New` in `PDAProcessor.go`, one constructor per
message. -/
inductive PDAError where
  /-- "PDA Evaluation failed while consuming last valid token, Please reset PDA
  before using it" (`pushToQueue`, `presentEOS`). -/
  | failedInLastEvaluation
  /-- "EOS is already presented before this position so PDA can not accept more
  tokens" (`pushToQueue`). -/
  | eosAlreadyPresented
  /-- "PDA already consumed all the tokens up to position " followed by
  `LastConsumedPosition-1` (`pushToQueue`). -/
  | alreadyConsumed (upTo : Int)
  /-- "PDA failed to make transition for input %q at position: %d"
  (`consumeToken`). -/
  | noTransition (token : String) (position : Int)
  /-- "PDA reached presented EOS at position %d but stack is not empty so PDA
  failed to make final transition" (`reachedEOS`). -/
  | stackNotEmpty (eosPosition : Int)
  /-- "PDA failed to make final transition on EOS" (`reachedEOS`). -/
  | noFinalTransition
  /-- "PDA already consumed all the tokens up to position this position"
  (`presentEOS`). -/
  | eosBehindConsumed
deriving DecidableEq, Repr

/-- What a Go call hands back: `ok v` is `(v, nil)`, `fail v e` is `(v, e)` with a
non-nil error, `panic` is a run-time panic. -/
inductive Result (α : Type) where
  | ok (value : α)
  | fail (value : α) (err : PDAError)
  | panic
deriving DecidableEq, Repr

/-- Go `findInArray`. -/
def findInArray : List String → String → Bool
  | [], _ => false
  | a :: arr, value => if a = value then true else findInArray arr value

/-- Go `addTransitionIfRequired`. -/
def addTransitionIfRequired (p : PDAProcessor) (state : String) : PDAProcessor :=
  if state ≠ "" then
    { p with TransitionsTaken := p.TransitionsTaken ++ [state], PdaClock := p.PdaClock + 1 }
  else p

/-- Go `reset`; `queueLength` is the constant `PDA_PENDING_QUEUE_LENGTH`. The flag
only selects console output. -/
def reset (queueLength : Nat) (p : PDAProcessor) (_isReset : Bool) : PDAProcessor :=
  addTransitionIfRequired
    { p with
      CurrentState := p.StartState
      CurrentStackTop := ""
      Stack := []
      TransitionsTaken := []
      PendingTokenQueue := List.replicate queueLength ""
      EOSPresentedAtPosition := -1
      LastConsumedPosition := -1
      PDAFailedInLastEvaluation := false }
    p.StartState

/-- Go `pushToStack`. -/
def pushToStack (p : PDAProcessor) (token : String) : PDAProcessor :=
  { p with Stack := p.Stack ++ [token], PdaClock := p.PdaClock + 1 }

/-- Go `popFromStack`: the record after the call and the popped symbol (`""` when
the stack is empty, in which case nothing changes). -/
def popFromStack (p : PDAProcessor) : PDAProcessor × String :=
  match p.Stack.getLast? with
  | some s => ({ p with Stack := p.Stack.dropLast, PdaClock := p.PdaClock + 1 }, s)
  | none => (p, "")

/-- Go `pushOrPopIfRequired` (its boolean result is always `true` and is discarded by
`put`; `nextState` and `currentStackTop` are only printed). -/
def pushOrPopIfRequired (p : PDAProcessor) (elementToPush : String) : PDAProcessor :=
  if elementToPush = "" then (popFromStack p).1 else pushToStack p elementToPush

/-- The four statements shared by the three matching branches of `put`:
push or pop, tick the clock, move to `nextState`, record the position. -/
def takeTransition (p : PDAProcessor) (position : Int) (t : Transition) : PDAProcessor :=
  let p1 := pushOrPopIfRequired p t.elementToPush
  { p1 with
    PdaClock := p1.PdaClock + 1
    CurrentState := t.nextState
    LastConsumedPosition := position }

/-- The `for _, transition := range pdaProcessor.Transitions` loop of `put`, over the
rows still to be scanned; returns the record and `transitionTaken`. -/
def putLoop (p : PDAProcessor) (position : Int) (token : String) :
    List Transition → PDAProcessor × String
  | [] => (p, "")
  | t :: rest =>
    if t.state = p.CurrentState then
      if t.input = token then
        if p.CurrentStackTop = t.stackTop then
          (takeTransition p position t, t.nextState)
        else if t.stackTop = "" then
          (takeTransition p position t, t.nextState)
        else putLoop p position token rest
      else if token = "" ∧ p.CurrentStackTop = p.Eos ∧ t.stackTop = p.Eos then
        (takeTransition p position t, t.nextState)
      else putLoop p position token rest
    else putLoop p position token rest

/-- The first statement of `put`: `CurrentStackTop` is refreshed from the stack only
when the stack is not empty. -/
def refreshStackTop (p : PDAProcessor) : PDAProcessor :=
  match p.Stack.getLast? with
  | some s => { p with CurrentStackTop := s, PdaClock := p.PdaClock + 1 }
  | none => p

/-- Go `put`. -/
def put (p : PDAProcessor) (position : Int) (token : String) : PDAProcessor × String :=
  putLoop (refreshStackTop p) position token (refreshStackTop p).Transitions

/-- Go `eos`: `Stack[len(Stack)-1] == "$"`; `none` is the index panic on an empty
stack. -/
def eos (p : PDAProcessor) : Option Bool :=
  match p.Stack.getLast? with
  | some s => some (decide (s = "$"))
  | none => none

/-- Go `reachedEOS`. -/
def reachedEOS (p : PDAProcessor) : PDAProcessor × Result String :=
  match eos p with
  | none => (p, Result.panic)
  | some false =>
    ({ p with PDAFailedInLastEvaluation := true },
      Result.fail "" (PDAError.stackNotEmpty p.EOSPresentedAtPosition))
  | some true =>
    let r := put p (p.LastConsumedPosition + 1) ""
    if r.2 = "" then
      ({ r.1 with PDAFailedInLastEvaluation := true }, Result.fail "" PDAError.noFinalTransition)
    else (addTransitionIfRequired r.1 r.2, Result.ok r.2)

/-- The part of `consumeToken` that every call runs: the `put`, the failure branch,
the log entry and the EOS branch; `onward` is what follows (the `else if
!processingPendingQueue` branch and the final `return transitionTaken, nil`). -/
def consumeTokenWith (onward : PDAProcessor → String → PDAProcessor × Result String)
    (p : PDAProcessor) (position : Int) (token : String) : PDAProcessor × Result String :=
  let r := put p (position + 1) token
  if r.2 = "" then
    ({ r.1 with PDAFailedInLastEvaluation := true },
      Result.fail "" (PDAError.noTransition token position))
  else
    let p2 := addTransitionIfRequired r.1 r.2
    if p2.EOSPresentedAtPosition ≠ -1 ∧ p2.EOSPresentedAtPosition = position then
      match reachedEOS p2 with
      | (p3, Result.ok _) => (p3, Result.ok r.2)
      | (p3, Result.fail s e) => (p3, Result.fail s e)
      | (p3, Result.panic) => (p3, Result.panic)
    else onward p2 r.2

/-- Go `consumeToken(p, position, token, true)`: the call made from inside the
pending-queue loop, which does not itself scan the queue. -/
def consumeQueued (p : PDAProcessor) (position : Int) (token : String) :
    PDAProcessor × Result String :=
  consumeTokenWith (fun p2 tt => (p2, Result.ok tt)) p position token

/-- The loop `for index, t := range pdaProcessor.PendingTokenQueue` of `consumeToken`;
`remaining` counts the iterations left and `index` is the loop index. `t` is read
from the queue at each iteration; `transitionTaken` is the value of the enclosing
call. -/
def drainLoop (position : Int) (transitionTaken : String) :
    Nat → Nat → PDAProcessor → PDAProcessor × Result String
  | 0, _, p => (p, Result.ok transitionTaken)
  | remaining + 1, index, p =>
    if (index : Int) > position then
      let t := p.PendingTokenQueue.getD index ""
      if t ≠ "" then
        match consumeQueued p index t with
        | (p1, Result.ok _) =>
          drainLoop position transitionTaken remaining (index + 1)
            { p1 with PendingTokenQueue := p1.PendingTokenQueue.set index "" }
        | (p1, Result.fail _ e) => (p1, Result.fail transitionTaken e)
        | (p1, Result.panic) => (p1, Result.panic)
      else (p, Result.ok transitionTaken)
    else drainLoop position transitionTaken remaining (index + 1) p

/-- Go `consumeToken`. -/
def consumeToken (p : PDAProcessor) (position : Int) (token : String)
    (processingPendingQueue : Bool) : PDAProcessor × Result String :=
  consumeTokenWith
    (fun p2 tt =>
      if !processingPendingQueue then
        drainLoop position tt p2.PendingTokenQueue.length 0 p2
      else (p2, Result.ok tt))
    p position token

/-- Go `pushToQueue`. -/
def pushToQueue (p : PDAProcessor) (position : Int) (token : String) :
    PDAProcessor × Result String :=
  if p.PDAFailedInLastEvaluation then
    (p, Result.fail "" PDAError.failedInLastEvaluation)
  else if p.EOSPresentedAtPosition ≠ -1 ∧ p.EOSPresentedAtPosition < position then
    (p, Result.fail "" PDAError.eosAlreadyPresented)
  else if position < p.LastConsumedPosition then
    (p, Result.fail "" (PDAError.alreadyConsumed (p.LastConsumedPosition - 1)))
  else
    let p1 := if position = 0 ∧ p.LastConsumedPosition = -1 then (put p 0 "").1 else p
    if position = 0 ∨ position = p1.LastConsumedPosition then
      consumeToken p1 position token false
    else if 0 ≤ position ∧ position < p1.PendingTokenQueue.length then
      if p1.PendingTokenQueue.getD position.toNat "" = "" then
        ({ p1 with PendingTokenQueue := p1.PendingTokenQueue.set position.toNat token },
          Result.ok "")
      else (p1, Result.ok "")
    else (p1, Result.panic)

/-- Go `presentEOS`. -/
def presentEOS (p : PDAProcessor) (position : Int) : PDAProcessor × Result Unit :=
  if p.PDAFailedInLastEvaluation then
    (p, Result.fail () PDAError.failedInLastEvaluation)
  else if position < p.LastConsumedPosition - 1 then
    (p, Result.fail () PDAError.eosBehindConsumed)
  else
    let p1 := { p with EOSPresentedAtPosition := position }
    if position = p1.LastConsumedPosition - 1 then
      match reachedEOS p1 with
      | (p2, Result.ok _) => (p2, Result.ok ())
      | (p2, Result.fail _ e) => (p2, Result.fail () e)
      | (p2, Result.panic) => (p2, Result.panic)
    else (p1, Result.ok ())

/-- Go `is_accepted`: the clock ticks once; the answer is `found && stackLength == 0`
where `stackLength` counts the stack entries different from `Eos`. -/
def is_accepted (p : PDAProcessor) : PDAProcessor × Bool :=
  let found := findInArray p.AcceptingStates p.CurrentState
  let stackLength := (p.Stack.filter (fun a => decide (a ≠ p.Eos))).length
  ({ p with PdaClock := p.PdaClock + 1 }, found && decide (stackLength = 0))

/-- The match predicate of the specification (component "Transition Step"), written
from its words: a rule matches iff its fromState is the current state and either its
inputSymbol is the token and its requiredStackTop is the wildcard `""` or the stack
top, or the token is `""`, the stack top is the EOS symbol and the rule requires the
EOS symbol. -/
def ruleMatches (currentState top eosSymbol token : String) (r : Transition) : Bool :=
  decide (r.state = currentState) &&
    ((decide (r.input = token) && (decide (r.stackTop = "") || decide (r.stackTop = top))) ||
      (decide (token = "") && decide (top = eosSymbol) && decide (r.stackTop = eosSymbol)))

/-- The stack-top symbol `put` compares the rows with: the value of `CurrentStackTop`
after the first statement of `put`. -/
def examinedTop (p : PDAProcessor) : String := (refreshStackTop p).CurrentStackTop

/-- A call made by a client of the engine: `pushToQueue(position, tok)` or
`presentEOS(position)`. -/
inductive Call where
  | token (position : Int) (tok : String)
  | endOfStream (position : Int)
deriving DecidableEq, Repr

/-- The record after one client call. -/
def applyCall (p : PDAProcessor) : Call → PDAProcessor
  | Call.token position tok => (pushToQueue p position tok).1
  | Call.endOfStream position => (presentEOS p position).1

/-- The record after a sequence of client calls, made one after the other. -/
def runCalls (p : PDAProcessor) (calls : List Call) : PDAProcessor :=
  calls.foldl applyCall p

/-- The transition table of Scenario A (the language `a^n b^n`), as loaded from JSON:
the execution fields hold arbitrary values until `reset`. -/
def scenarioTable : PDAProcessor :=
  { ID := 1, Name := "anbn", States := ["q0", "q1"], InputAlphabet := ["a", "b"],
    StackAlphabet := ["a", "$"], AcceptingStates := ["q1"], StartState := "q0",
    Transitions := [⟨"q0", "a", "", "q0", "a"⟩, ⟨"q0", "b", "a", "q1", ""⟩,
      ⟨"q1", "b", "a", "q1", ""⟩, ⟨"q1", "", "$", "q1", ""⟩],
    Eos := "$", Stack := [], CurrentState := "", TransitionsTaken := [], CurrentStackTop := "",
    PdaClock := 0, PendingTokenQueue := [], LastConsumedPosition := 0,
    PDAFailedInLastEvaluation := false, EOSPresentedAtPosition := 0 }

/-- The record with its pending queue replaced (the other fields kept). -/
def setQueue (p : PDAProcessor) (queue : List String) : PDAProcessor :=
  { p with PendingTokenQueue := queue }

/-- A position is consumed by the call `pushToQueue(position, token)` made in state `q`
when it is `position` itself and the call hands back a transition (what
`PDAService.presentToken` reports as consumed), or when its queue slot held a token
before the call and is empty after it (the pending-queue loop cleared it). -/
def consumedByCall (q : PDAProcessor) (position : Int) (token : String) (j : Int) : Prop :=
  (j = position ∧ ∃ v, v ≠ "" ∧ (pushToQueue q position token).2 = Result.ok v) ∨
    (0 ≤ j ∧ q.PendingTokenQueue.getD j.toNat "" ≠ "" ∧
      (pushToQueue q position token).1.PendingTokenQueue.getD j.toNat "" = "")

/-- The calls `pushToQueue(0, t_0)`, `pushToQueue(1, t_1)`, ... for a list of tokens, in
the order of their positions. -/
def inOrderCalls (tokens : List String) : List Call :=
  tokens.enum.map (fun c => Call.token (c.1 : Int) c.2)

/-- What `pushToQueue(j, t)` does to a token it consumes at once, the pending-queue loop
left out: the initial `put(0, "")` when `j` is `0` and nothing was consumed, then
`consumeToken(j, t, true)`. -/
def pushStep (p : PDAProcessor) (j : Nat) (t : String) : PDAProcessor :=
  (consumeQueued
    (if (j : Int) = 0 ∧ p.LastConsumedPosition = -1 then (put p 0 "").1 else p) j t).1

/-- The tokens of a list consumed one after the other at the positions `j`, `j + 1`,
..., stopping once the failure flag is set. -/
def feed : PDAProcessor → Nat → List String → PDAProcessor
  | p, _, [] => p
  | p, j, t :: ts => if p.PDAFailedInLastEvaluation then p else feed (pushStep p j t) (j + 1) ts

/-- In a state `p` with no end of stream declared, position `j` is the next to be
consumed. -/
def Aligned (j : Nat) (p : PDAProcessor) : Prop :=
  p.EOSPresentedAtPosition = -1 ∧
    (p.PDAFailedInLastEvaluation = false →
      (j = 0 ∧ p.LastConsumedPosition = -1) ∨ (1 ≤ j ∧ p.LastConsumedPosition = (j : Int)))

/-- The state of an engine started in `fresh` after the tokens at the positions in
`done` have been presented, in any order: some prefix `tokens.take m` has been consumed
(the record agrees, the queue apart, with the one reached by consuming that prefix in
order), and either the failure flag is set, or `m` is the first position not yet
presented and the queue holds exactly the presented tokens beyond `m`. -/
def Presented (fresh : PDAProcessor) (tokens : List String) (done : List Nat)
    (p : PDAProcessor) : Prop :=
  ∃ m, m ≤ tokens.length ∧
    setQueue p [] = setQueue (feed fresh 0 (tokens.take m)) [] ∧
    (p.PDAFailedInLastEvaluation = true ∨
      ((∀ i, i < m → i ∈ done) ∧ m ∉ done ∧
        p.PendingTokenQueue.length = fresh.PendingTokenQueue.length ∧
        ∀ i, p.PendingTokenQueue.getD i "" =
          if i ∈ done ∧ m < i then tokens.getD i "" else ""))

/-- Whether a client call made in state `p` returns without error and without panic. -/
def callSucceeds (p : PDAProcessor) : Call → Bool
  | Call.token position tok =>
    match (pushToQueue p position tok).2 with
    | Result.ok _ => true
    | _ => false
  | Call.endOfStream position =>
    match (presentEOS p position).2 with
    | Result.ok _ => true
    | _ => false

/-- Whether every call of a sequence, made one after the other from state `p`,
returns without error and without panic. -/
def allCallsSucceed : PDAProcessor → List Call → Bool
  | _, [] => true
  | p, c :: cs => callSucceeds p c && allCallsSucceed (applyCall p c) cs

/-- The calls `pushToQueue(j, t_0)`, `pushToQueue(j + 1, t_1)`, ... -/
def callsFrom (j : Nat) (tokens : List String) : List Call :=
  (tokens.enumFrom j).map (fun c => Call.token (c.1 : Int) c.2)

/-- The part of a state that the Scenario A run never changes: the table of Scenario A,
no end of stream declared, no failure, an empty pending queue. -/
def ScenarioBase (p : PDAProcessor) : Prop :=
  p.Transitions = scenarioTable.Transitions ∧ p.Eos = "$" ∧ p.AcceptingStates = ["q1"] ∧
    p.EOSPresentedAtPosition = -1 ∧ p.PDAFailedInLastEvaluation = false ∧
    ∀ i, p.PendingTokenQueue.getD i "" = ""

/-- Scenario A after `k` tokens `a`: state `q0`, `k` symbols `a` on the stack. -/
def PhaseA (k : Nat) (p : PDAProcessor) : Prop :=
  ScenarioBase p ∧ p.CurrentState = "q0" ∧ p.Stack = List.replicate k "a" ∧
    (k = 0 → p.CurrentStackTop = "" ∧ p.LastConsumedPosition = -1) ∧
    (1 ≤ k → p.LastConsumedPosition = (k : Int))

/-- Scenario A after `n` tokens `a` and `j` tokens `b`, `1 ≤ j ≤ n`: state `q1`,
`n - j` symbols `a` on the stack. -/
def PhaseB (n j : Nat) (p : PDAProcessor) : Prop :=
  ScenarioBase p ∧ p.CurrentState = "q1" ∧ p.Stack = List.replicate (n - j) "a" ∧
    p.LastConsumedPosition = ((n + j : Nat) : Int)

/-- A freshly reset engine on the Scenario A table, with a pending queue of 8 slots. -/
def scenarioFresh : PDAProcessor := reset 8 scenarioTable true

/-- The Scenario A engine after `a@0`: one `a` on the stack. -/
def scenarioAfterA : PDAProcessor := (pushToQueue scenarioFresh 0 "a").1

/-- The Scenario A engine after `a@0, b@1`: the stack is empty again. -/
def scenarioAfterAB : PDAProcessor := (pushToQueue scenarioAfterA 1 "b").1

/-- The Scenario A engine after `b@0`, which has no transition: the failure flag is
set. -/
def scenarioFailed : PDAProcessor := (pushToQueue scenarioFresh 0 "b").1

/-- The Scenario A engine after `presentEOS(4)` on the fresh engine. -/
def scenarioEosDeclared : PDAProcessor := (presentEOS scenarioFresh 4).1

/-- A table in which the EOS symbol `$` is pushed by the token `b`, so that it can lie on
top of other symbols: `(q0, a, wildcard, q0, push a)`, `(q0, b, wildcard, q0, push $)`,
`(q0, epsilon, $, q0, pop)`; as loaded from JSON, the execution fields hold arbitrary
values until `reset`. -/
def markerTable : PDAProcessor :=
  { ID := 2, Name := "marker", States := ["q0"], InputAlphabet := ["a", "b"],
    StackAlphabet := ["a", "$"], AcceptingStates := ["q0"], StartState := "q0",
    Transitions := [⟨"q0", "a", "", "q0", "a"⟩, ⟨"q0", "b", "", "q0", "$"⟩,
      ⟨"q0", "", "$", "q0", ""⟩],
    Eos := "$", Stack := [], CurrentState := "", TransitionsTaken := [], CurrentStackTop := "",
    PdaClock := 0, PendingTokenQueue := [], LastConsumedPosition := 0,
    PDAFailedInLastEvaluation := false, EOSPresentedAtPosition := 0 }

/-- A freshly reset engine on `markerTable`, with a pending queue of 8 slots. -/
def markerFresh : PDAProcessor := reset 8 markerTable true

/-- The `markerTable` engine after `a@0, b@1`: the stack is `[a, $]`, `$` on top. -/
def markerAfterAB : PDAProcessor :=
  runCalls markerFresh [Call.token 0 "a", Call.token 1 "b"]

/-- The `markerTable` engine after `b@0, b@1` and a first `presentEOS(1)`, which popped
one `$`: the stack is `[$]` and the end of stream is declared at 1. -/
def markerAfterFirstEos : PDAProcessor :=
  runCalls markerFresh [Call.token 0 "b", Call.token 1 "b", Call.endOfStream 1]

/-- The `markerTable` engine after `a@3` (stored), `b@0`, `b@1`, `presentEOS(1)` and
`presentEOS(7)`: slot 3 holds `a` and `LastConsumedPosition` is 3. -/
def markerSlotAtFrontier : PDAProcessor :=
  runCalls markerFresh [Call.token 3 "a", Call.token 0 "b", Call.token 1 "b",
    Call.endOfStream 1, Call.endOfStream 7]

/-- The Scenario A engine after `a@1` (stored) and `b@0`, which has no transition: the
failure flag is set and slot 1 still holds `a`. -/
def scenarioFailedWithSlot : PDAProcessor :=
  runCalls scenarioFresh [Call.token 1 "a", Call.token 0 "b"]

/-- The Scenario A engine after `a@0, a@1`. -/
def scenarioAfterAA : PDAProcessor :=
  runCalls scenarioFresh [Call.token 0 "a", Call.token 1 "a"]

/-- The Scenario A engine after `a@0, a@1, b@2, b@3`: the stack is empty. -/
def scenarioAfterAABB : PDAProcessor :=
  runCalls scenarioFresh
    [Call.token 0 "a", Call.token 1 "a", Call.token 2 "b", Call.token 3 "b"]

/-- The statement `if position == 0 && LastConsumedPosition == -1 { put(0, "") }` of
`pushToQueue`: the record after it. -/
def bootstrap (p : PDAProcessor) (position : Int) : PDAProcessor :=
  if position = 0 ∧ p.LastConsumedPosition = -1 then (put p 0 "").1 else p

/-- The tokens of a list consumed one after the other by `consumeToken(·, ·, true)` at
the positions `j`, `j + 1`, ...: the record reached when every call returns without
error, `none` as soon as one does not. -/
def consumeAll : PDAProcessor → Nat → List String → Option PDAProcessor
  | p, _, [] => some p
  | p, j, t :: ts =>
    match consumeQueued p j t with
    | (p1, Result.ok _) => consumeAll p1 (j + 1) ts
    | _ => none

/-- The queue with the `k` slots from `index` on emptied, as the pending-queue loop does
one slot at a time with `PendingTokenQueue[index] = ""`. -/
def clearSlots : List String → Nat → Nat → List String
  | queue, _, 0 => queue
  | queue, index, k + 1 => clearSlots (queue.set index "") (index + 1) k

/-- The Scenario A engine of Scenario B with one more token beyond a gap: `b@5`, `b@3`,
`b@2`, `a@1` are stored (slot 4 is empty) and position 0 is still awaited. -/
def scenarioStoredWithGap : PDAProcessor :=
  runCalls scenarioFresh
    [Call.token 5 "b", Call.token 3 "b", Call.token 2 "b", Call.token 1 "a"]

/-- The Scenario A engine with `b@3`, `a@2`, `b@1` stored and position 0 still awaited:
after `a@0, b@1` the token `a@2` has no transition. -/
def scenarioStoredMismatch : PDAProcessor :=
  runCalls scenarioFresh [Call.token 3 "b", Call.token 2 "a", Call.token 1 "b"]

/-- Go `peek`: `k <= 0` is replaced by 1, the clock ticks once, and the answer is the
whole stack when it has at most `k` entries, the slice `Stack[len(Stack)-k:]`
otherwise. -/
def peek (p : PDAProcessor) (k : Int) : PDAProcessor × List String :=
  let k1 := if k ≤ 0 then 1 else k
  let p1 := { p with PdaClock := p.PdaClock + 1 }
  if (p.Stack.length : Int) ≤ k1 then (p1, p.Stack)
  else (p1, p.Stack.drop ((p.Stack.length : Int) - k1).toNat)

/-- Go `current_state` (the console output apart, it only reads the field). -/
def current_state (p : PDAProcessor) : PDAProcessor × String := (p, p.CurrentState)

/-- Go `truncateEmptyTokens`: the non-empty entries are appended one by one to an
empty slice. -/
def truncateEmptyTokens (tokensArray : List String) : List String :=
  tokensArray.foldl (fun a t => if t ≠ "" then a ++ [t] else a) []

/-- Go `queued_tokens`. -/
def queued_tokens (p : PDAProcessor) : PDAProcessor × List String :=
  (p, truncateEmptyTokens p.PendingTokenQueue)

/-- The errors built with `errors.New` in `PDAService.go` by the methods modelled here;
`engine` is an error of `PDAProcessor.go` handed on unchanged. -/
inductive ServiceError where
  /-- "invalid session". -/
  | invalidSession
  /-- "invalid pda id for given session". -/
  | invalidPdaId
  /-- "input token is not supported by PDA" (`presentToken`). -/
  | unsupportedToken
  | engine (e : PDAError)
deriving DecidableEq, Repr

/-- What a method of `PDAService` hands back: `ok v` is `(v, nil)`, `fail v e` is
`(v, e)` with a non-nil error, `panic` is a run-time panic. -/
inductive ServiceResult (α : Type) where
  | ok (value : α)
  | fail (value : α) (err : ServiceError)
  | panic
deriving DecidableEq, Repr

/-- The loop of `PDAService.stackLength`: the number of stack entries different from
`Eos`. -/
def stackLengthLoop (p : PDAProcessor) : Int :=
  p.Stack.foldl (fun length s => if s ≠ p.Eos then length + 1 else length) 0

/-- Go `PDAService.stackLength`. The argument `session` is the entry of `sessionMap` for
the session id (`none` when there is none); the entry after the call is returned with
the result. -/
def stackLength (session : Option PDAProcessor) (pdaId : Int) :
    Option PDAProcessor × ServiceResult Int :=
  match session with
  | none => (none, ServiceResult.fail 0 ServiceError.invalidSession)
  | some p =>
    if pdaId ≠ p.ID then (some p, ServiceResult.fail 0 ServiceError.invalidPdaId)
    else (some p, ServiceResult.ok (stackLengthLoop p))

/-- Go `PDAService.currentState`. -/
def currentState (session : Option PDAProcessor) (pdaId : Int) :
    Option PDAProcessor × ServiceResult String :=
  match session with
  | none => (none, ServiceResult.fail "" ServiceError.invalidSession)
  | some p =>
    if pdaId ≠ p.ID then (some p, ServiceResult.fail "" ServiceError.invalidPdaId)
    else (some p, ServiceResult.ok p.CurrentState)

/-- The loop of `presentToken` that looks the token up in the input alphabet. -/
def tokenSupported : List String → String → Bool
  | [], _ => false
  | inputAlphabet :: rest, token =>
    if inputAlphabet = token then true else tokenSupported rest token

/-- Go `PDAService.presentToken`. -/
def presentToken (session : Option PDAProcessor) (pdaId : Int) (token : String)
    (position : Int) : Option PDAProcessor × ServiceResult Bool :=
  match session with
  | none => (none, ServiceResult.fail false ServiceError.invalidSession)
  | some p =>
    if pdaId ≠ p.ID then (some p, ServiceResult.fail false ServiceError.invalidPdaId)
    else if tokenSupported p.InputAlphabet token = false then
      (some p, ServiceResult.fail false ServiceError.unsupportedToken)
    else
      match pushToQueue p position token with
      | (p1, Result.ok transitionTaken) =>
        (some p1, ServiceResult.ok (decide (transitionTaken ≠ "")))
      | (p1, Result.fail _ e) => (some p1, ServiceResult.fail false (ServiceError.engine e))
      | (p1, Result.panic) => (some p1, ServiceResult.panic)

/-- The errors of `validatePDADetails`, one constructor per message. -/
inductive ValidationError where
  /-- "ID should be a positive integer". -/
  | idNotPositive
  /-- "ID already used". -/
  | idAlreadyUsed
  /-- "PDA Name field cannot be empty". -/
  | nameEmpty
  /-- "PDA start state cannot be empty". -/
  | startStateEmpty
  /-- "PDA end of stream field cannot be empty". -/
  | eosEmpty
  /-- "PDA states cannot be empty". -/
  | statesEmpty
  /-- "PDA input alphabets field cannot be empty". -/
  | inputAlphabetEmpty
  /-- "PDA stack alphabets field cannot be empty". -/
  | stackAlphabetEmpty
  /-- "PDA accepting states field cannot be empty". -/
  | acceptingStatesEmpty
deriving DecidableEq, Repr

/-- The loop of `validatePDADetails` over `availablePDAs`: some record has the id. -/
def idInUse : List PDAProcessor → Int → Bool
  | [], _ => false
  | pda :: rest, id => if pda.ID = id then true else idInUse rest id

/-- Go `validatePDADetails`; `availablePDAs` is the global list of that name. The result
is the pair `(bool, error)`, `none` being the nil error. -/
def validatePDADetails (availablePDAs : List PDAProcessor) (id : Int) (p : PDAProcessor) :
    Bool × Option ValidationError :=
  if id ≤ 0 then (false, some ValidationError.idNotPositive)
  else if idInUse availablePDAs id then (false, some ValidationError.idAlreadyUsed)
  else if p.Name = "" then (false, some ValidationError.nameEmpty)
  else if p.StartState = "" then (false, some ValidationError.startStateEmpty)
  else if p.Eos = "" then (false, some ValidationError.eosEmpty)
  else if p.States.length = 0 then (false, some ValidationError.statesEmpty)
  else if p.InputAlphabet.length = 0 then (false, some ValidationError.inputAlphabetEmpty)
  else if p.StackAlphabet.length = 0 then (false, some ValidationError.stackAlphabetEmpty)
  else if p.AcceptingStates.length = 0 then
    (false, some ValidationError.acceptingStatesEmpty)
  else (true, none)

/-- The Scenario A engine after `a@0, b@1, a@2`: the third token has no transition, so
the failure flag is set while the engine stays in `q1` with an empty stack. -/
def scenarioFailedInAccepting : PDAProcessor :=
  runCalls scenarioFresh [Call.token 0 "a", Call.token 1 "b", Call.token 2 "a"]

/-- The Scenario A table with a start state that is not one of its states. -/
def undeclaredStartTable : PDAProcessor := { scenarioTable with StartState := "q9" }

/-- The Scenario A table with one more row in front, `(q0, epsilon, wildcard, q0,
push $)`: the initial `put(0, "")` of `pushToQueue` takes it and pushes `$`. -/
def bottomMarkerTable : PDAProcessor :=
  { scenarioTable with
    Transitions := ⟨"q0", "", "", "q0", "$"⟩ :: scenarioTable.Transitions }

/-- The engine of `bottomMarkerTable` after `reset`, with a queue of 8 slots. -/
def bottomMarkerFresh : PDAProcessor := reset 8 bottomMarkerTable true

/-- The states `put` returns while the tokens of a list are consumed one after the other
at the positions `j`, `j + 1`, ... (each by `consumeToken(_, _, _, true)`). -/
def loggedTargets : PDAProcessor → Nat → List String → List String
  | _, _, [] => []
  | p, j, t :: ts =>
    (put p ((j : Int) + 1) t).2 :: loggedTargets (consumeQueued p j t).1 (j + 1) ts

/-- A table whose EOS symbol is `sym`: the token `a` pushes `sym` and the row
`(q0, epsilon, sym, q1, pop)` makes the final transition. -/
def eosTable (sym : String) : PDAProcessor :=
  { scenarioTable with
    Name := "eos", StackAlphabet := [sym], Eos := sym,
    Transitions := [⟨"q0", "a", "", "q0", sym⟩, ⟨"q0", "", sym, "q1", ""⟩] }

/-- The engine of `eosTable sym` after `reset` (queue of 8 slots) and `a@0`: the stack is
`[sym]`. -/
def eosAfterA (sym : String) : PDAProcessor :=
  (pushToQueue (reset 8 (eosTable sym) true) 0 "a").1

/-- A table with the single state `q0`, accepting: `(q0, epsilon, $, q0, pop)`,
`(q0, epsilon, wildcard, q0, push $)`, `(q0, a, wildcard, q0, push a)`,
`(q0, b, a, q0, pop)`. The initial `put(0, "")` pushes `$`, and the final transition
pops it. -/
def loopTable : PDAProcessor :=
  { scenarioTable with
    Name := "loop", States := ["q0"], AcceptingStates := ["q0"],
    Transitions := [⟨"q0", "", "$", "q0", ""⟩, ⟨"q0", "", "", "q0", "$"⟩,
      ⟨"q0", "a", "", "q0", "a"⟩, ⟨"q0", "b", "a", "q0", ""⟩] }

/-- The engine of `loopTable` after `reset`, with a queue of 8 slots. -/
def loopFresh : PDAProcessor := reset 8 loopTable true

/-- The `loopTable` engine after `a@2` and `b@1` were stored, the end of stream was
declared at 1 and `a@0` arrived. -/
def loopPastEos : PDAProcessor :=
  runCalls loopFresh
    [Call.token 2 "a", Call.token 1 "b", Call.endOfStream 1, Call.token 0 "a"]

/-- The `markerTable` engine after `a@1` was stored, the end of stream was declared at 0
and `b@0` arrived. -/
def markerSlotBehind : PDAProcessor :=
  runCalls markerFresh [Call.token 1 "a", Call.endOfStream 0, Call.token 0 "b"]

/-- A property of the record that the elementary updates made by the engine keep: a
`put`, an entry added to the log, the failure flag being set, a change of the pending
queue, a change of the declared EOS position. -/
structure Kept (I : PDAProcessor → Prop) : Prop where
  ofPut : ∀ (p : PDAProcessor) (position : Int) (token : String),
    I p → I (put p position token).1
  ofLog : ∀ (p : PDAProcessor) (s : String), I p → I (addTransitionIfRequired p s)
  ofFail : ∀ p : PDAProcessor, I p → I { p with PDAFailedInLastEvaluation := true }
  ofQueue : ∀ (p : PDAProcessor) (q : List String), I p → I { p with PendingTokenQueue := q }
  ofEos : ∀ (p : PDAProcessor) (e : Int), I p → I { p with EOSPresentedAtPosition := e }

/-- A table whose initial transition changes the state: `(q0, epsilon, wildcard, q1,
push $)` and `(q1, a, wildcard, q2, push a)`. -/
def pathTable : PDAProcessor :=
  { scenarioTable with
    Name := "path", States := ["q0", "q1", "q2"], AcceptingStates := ["q2"],
    Transitions := [⟨"q0", "", "", "q1", "$"⟩, ⟨"q1", "a", "", "q2", "a"⟩] }

/-- The engine of `pathTable` after `reset`, with a queue of 8 slots. -/
def pathFresh : PDAProcessor := reset 8 pathTable true

/-- The Scenario A table with the single row `(q0, a, wildcard, q7, push a)`, whose
target `q7` is not one of the states. -/
def undeclaredTargetTable : PDAProcessor :=
  { scenarioTable with Transitions := [⟨"q0", "a", "", "q7", "a"⟩] }

/-! ## The transition step -/

theorem putLoop_eq_find (p : PDAProcessor) (position : Int) (token : String)
    (rows : List Transition) :
    putLoop p position token rows =
      match rows.find? (ruleMatches p.CurrentState p.CurrentStackTop p.Eos token) with
      | some r => (takeTransition p position r, r.nextState)
      | none => (p, "") := by
  induction rows with
  | nil => rfl
  | cons t rest ih =>
    rw [putLoop, List.find?_cons]
    by_cases h1 : t.state = p.CurrentState
    · by_cases h2 : t.input = token
      · by_cases h3 : p.CurrentStackTop = t.stackTop
        · simp [ruleMatches, h1, h2, h3]
        · by_cases h4 : t.stackTop = ""
          · simp [ruleMatches, h1, h2, h4]
          · have h3' : ¬ t.stackTop = p.CurrentStackTop := fun h => h3 h.symm
            by_cases h5 : token = "" ∧ p.CurrentStackTop = p.Eos ∧ t.stackTop = p.Eos
            · exact absurd (h5.2.2.trans h5.2.1.symm) h3'
            · have : ruleMatches p.CurrentState p.CurrentStackTop p.Eos token t = false := by
                simp only [ruleMatches, h1, h2, h4, h3', decide_True, decide_False, Bool.true_and,
                  Bool.or_false, Bool.false_or]
                simpa using h5
              simp [this, h1, h2, h3, h4, ih]
      · by_cases h5 : token = "" ∧ p.CurrentStackTop = p.Eos ∧ t.stackTop = p.Eos
        · simp [ruleMatches, h1, h2, h5]
        · have : ruleMatches p.CurrentState p.CurrentStackTop p.Eos token t = false := by
            simp only [ruleMatches, h1, h2, decide_True, decide_False, Bool.true_and,
              Bool.false_and, Bool.false_or]
            simpa using h5
          simp [this, h1, h2, h5, ih]
    · simp [ruleMatches, h1, ih]

@[simp] theorem refreshStackTop_CurrentState (p : PDAProcessor) :
    (refreshStackTop p).CurrentState = p.CurrentState := by
  unfold refreshStackTop; split <;> rfl

@[simp] theorem refreshStackTop_Eos (p : PDAProcessor) :
    (refreshStackTop p).Eos = p.Eos := by
  unfold refreshStackTop; split <;> rfl

@[simp] theorem refreshStackTop_Transitions (p : PDAProcessor) :
    (refreshStackTop p).Transitions = p.Transitions := by
  unfold refreshStackTop; split <;> rfl

@[simp] theorem refreshStackTop_Stack (p : PDAProcessor) :
    (refreshStackTop p).Stack = p.Stack := by
  unfold refreshStackTop; split <;> rfl

theorem put_eq_find (p : PDAProcessor) (position : Int) (token : String) :
    put p position token =
      match p.Transitions.find? (ruleMatches p.CurrentState (examinedTop p) p.Eos token) with
      | some r => (takeTransition (refreshStackTop p) position r, r.nextState)
      | none => (refreshStackTop p, "") := by
  rw [put, putLoop_eq_find]
  simp [examinedTop]

theorem find?_first {α : Type} (f : α → Bool) (pre post : List α) (r : α)
    (hpre : ∀ x ∈ pre, f x = false) (hr : f r = true) :
    (pre ++ r :: post).find? f = some r := by
  induction pre with
  | nil => simp [hr]
  | cons x xs ih =>
    have hx : f x = false := hpre x (List.mem_cons_self x xs)
    simp only [List.cons_append, List.find?_cons, hx]
    exact ih (fun y hy => hpre y (List.mem_cons_of_mem x hy))

theorem takeTransition_clock_lt (p : PDAProcessor) (position : Int) (r : Transition) :
    p.PdaClock < (takeTransition p position r).PdaClock := by
  unfold takeTransition pushOrPopIfRequired popFromStack pushToStack
  by_cases h : r.elementToPush = ""
  · cases hs : p.Stack.getLast? <;> simp [h]
    all_goals omega
  · simp [h]; omega

theorem takeTransition_fields (p : PDAProcessor) (position : Int) (r : Transition) :
    (takeTransition p position r).Stack =
        (if r.elementToPush = "" then p.Stack.dropLast else p.Stack ++ [r.elementToPush]) ∧
      (takeTransition p position r).CurrentState = r.nextState ∧
      (takeTransition p position r).LastConsumedPosition = position := by
  unfold takeTransition pushOrPopIfRequired popFromStack pushToStack
  by_cases h : r.elementToPush = ""
  · cases hs : p.Stack.getLast? with
    | none => simp [h, List.getLast?_eq_none_iff.mp hs]
    | some s => simp [h]
  · simp [h]

theorem refreshStackTop_frame (p : PDAProcessor) :
    (refreshStackTop p).TransitionsTaken = p.TransitionsTaken ∧
      (refreshStackTop p).PendingTokenQueue = p.PendingTokenQueue ∧
      (refreshStackTop p).LastConsumedPosition = p.LastConsumedPosition ∧
      (refreshStackTop p).PDAFailedInLastEvaluation = p.PDAFailedInLastEvaluation ∧
      (refreshStackTop p).EOSPresentedAtPosition = p.EOSPresentedAtPosition := by
  unfold refreshStackTop; split <;> simp

/-! ## Rejections of `pushToQueue` and `presentEOS` -/

theorem pushToQueue_of_failed (p : PDAProcessor) (position : Int) (token : String)
    (h : p.PDAFailedInLastEvaluation = true) :
    pushToQueue p position token = (p, Result.fail "" PDAError.failedInLastEvaluation) := by
  simp [pushToQueue, h]

theorem presentEOS_of_failed (p : PDAProcessor) (position : Int)
    (h : p.PDAFailedInLastEvaluation = true) :
    presentEOS p position = (p, Result.fail () PDAError.failedInLastEvaluation) := by
  simp [presentEOS, h]

theorem runCalls_of_failed (calls : List Call) (p : PDAProcessor)
    (h : p.PDAFailedInLastEvaluation = true) : runCalls p calls = p := by
  induction calls with
  | nil => rfl
  | cons c cs ih =>
    have hc : applyCall p c = p := by
      cases c with
      | token position tok => simp [applyCall, pushToQueue_of_failed p position tok h]
      | endOfStream position => simp [applyCall, presentEOS_of_failed p position h]
    simpa [runCalls, List.foldl_cons, hc] using ih

theorem reset_failed (queueLength : Nat) (p : PDAProcessor) (isReset : Bool) :
    (reset queueLength p isReset).PDAFailedInLastEvaluation = false := by
  unfold reset addTransitionIfRequired
  split <;> rfl

/-! ## Frame lemmas -/

theorem takeTransition_frame (p : PDAProcessor) (position : Int) (r : Transition) :
    takeTransition p position r =
      { p with
        Stack := (takeTransition p position r).Stack
        CurrentState := r.nextState
        PdaClock := (takeTransition p position r).PdaClock
        LastConsumedPosition := position } := by
  unfold takeTransition pushOrPopIfRequired popFromStack pushToStack
  by_cases h : r.elementToPush = ""
  · cases hs : p.Stack.getLast? <;> simp [h]
  · simp [h]

theorem refreshStackTop_eq (p : PDAProcessor) :
    refreshStackTop p =
      { p with
        CurrentStackTop := (refreshStackTop p).CurrentStackTop
        PdaClock := (refreshStackTop p).PdaClock } := by
  unfold refreshStackTop
  cases hs : p.Stack.getLast? <;> simp

theorem put_frame (p : PDAProcessor) (position : Int) (token : String) :
    (put p position token).1 =
      { p with
        Stack := (put p position token).1.Stack
        CurrentState := (put p position token).1.CurrentState
        CurrentStackTop := (put p position token).1.CurrentStackTop
        PdaClock := (put p position token).1.PdaClock
        LastConsumedPosition := (put p position token).1.LastConsumedPosition } := by
  rw [put_eq_find]
  cases p.Transitions.find? (ruleMatches p.CurrentState (examinedTop p) p.Eos token) with
  | none =>
    simp only [refreshStackTop]
    cases p.Stack.getLast? <;> rfl
  | some r =>
    simp only [refreshStackTop, takeTransition, pushOrPopIfRequired, popFromStack, pushToStack]
    cases hs : p.Stack.getLast? <;> by_cases h : r.elementToPush = "" <;> simp [h, hs]

@[simp] theorem put_PendingTokenQueue (p : PDAProcessor) (position : Int) (token : String) :
    (put p position token).1.PendingTokenQueue = p.PendingTokenQueue := by
  rw [put_frame]

@[simp] theorem put_EOSPresentedAtPosition (p : PDAProcessor) (position : Int) (token : String) :
    (put p position token).1.EOSPresentedAtPosition = p.EOSPresentedAtPosition := by
  rw [put_frame]

@[simp] theorem put_PDAFailedInLastEvaluation (p : PDAProcessor) (position : Int)
    (token : String) :
    (put p position token).1.PDAFailedInLastEvaluation = p.PDAFailedInLastEvaluation := by
  rw [put_frame]

@[simp] theorem put_Transitions (p : PDAProcessor) (position : Int) (token : String) :
    (put p position token).1.Transitions = p.Transitions := by
  rw [put_frame]

@[simp] theorem put_Eos (p : PDAProcessor) (position : Int) (token : String) :
    (put p position token).1.Eos = p.Eos := by
  rw [put_frame]

@[simp] theorem put_AcceptingStates (p : PDAProcessor) (position : Int) (token : String) :
    (put p position token).1.AcceptingStates = p.AcceptingStates := by
  rw [put_frame]

theorem put_LastConsumedPosition (p : PDAProcessor) (position : Int) (token : String) :
    (put p position token).1.LastConsumedPosition = position ∨
      ((put p position token).1.LastConsumedPosition = p.LastConsumedPosition ∧
        (put p position token).2 = "") := by
  rw [put_eq_find]
  cases p.Transitions.find? (ruleMatches p.CurrentState (examinedTop p) p.Eos token) with
  | none => exact Or.inr ⟨(refreshStackTop_frame p).2.2.1, rfl⟩
  | some r => exact Or.inl (takeTransition_fields _ _ _).2.2

theorem put_setQueue (p : PDAProcessor) (queue : List String) (position : Int)
    (token : String) :
    put (setQueue p queue) position token =
      (setQueue (put p position token).1 queue, (put p position token).2) := by
  have hex : examinedTop (setQueue p queue) = examinedTop p := by
    simp only [examinedTop, refreshStackTop, setQueue]
    cases p.Stack.getLast? <;> rfl
  rw [put_eq_find, put_eq_find, hex]
  simp only [setQueue]
  cases p.Transitions.find? (ruleMatches p.CurrentState (examinedTop p) p.Eos token) with
  | none =>
    simp only [refreshStackTop]
    cases p.Stack.getLast? <;> rfl
  | some r =>
    simp only [refreshStackTop, takeTransition, pushOrPopIfRequired, popFromStack, pushToStack]
    cases hs : p.Stack.getLast? <;> by_cases h : r.elementToPush = "" <;> simp [h, hs]

theorem addTransitionIfRequired_frame (p : PDAProcessor) (state : String) :
    addTransitionIfRequired p state =
      { p with
        TransitionsTaken := (addTransitionIfRequired p state).TransitionsTaken
        PdaClock := (addTransitionIfRequired p state).PdaClock } := by
  unfold addTransitionIfRequired
  split <;> rfl

@[simp] theorem addTransitionIfRequired_LastConsumedPosition (p : PDAProcessor)
    (state : String) :
    (addTransitionIfRequired p state).LastConsumedPosition = p.LastConsumedPosition := by
  rw [addTransitionIfRequired_frame]

@[simp] theorem addTransitionIfRequired_PendingTokenQueue (p : PDAProcessor) (state : String) :
    (addTransitionIfRequired p state).PendingTokenQueue = p.PendingTokenQueue := by
  rw [addTransitionIfRequired_frame]

@[simp] theorem addTransitionIfRequired_EOSPresentedAtPosition (p : PDAProcessor)
    (state : String) :
    (addTransitionIfRequired p state).EOSPresentedAtPosition = p.EOSPresentedAtPosition := by
  rw [addTransitionIfRequired_frame]

@[simp] theorem addTransitionIfRequired_PDAFailedInLastEvaluation (p : PDAProcessor)
    (state : String) :
    (addTransitionIfRequired p state).PDAFailedInLastEvaluation =
      p.PDAFailedInLastEvaluation := by
  rw [addTransitionIfRequired_frame]

@[simp] theorem addTransitionIfRequired_Stack (p : PDAProcessor) (state : String) :
    (addTransitionIfRequired p state).Stack = p.Stack := by
  rw [addTransitionIfRequired_frame]

@[simp] theorem addTransitionIfRequired_CurrentState (p : PDAProcessor) (state : String) :
    (addTransitionIfRequired p state).CurrentState = p.CurrentState := by
  rw [addTransitionIfRequired_frame]

/-! ## The frontier never moves back -/

theorem put_LastConsumedPosition_of_ne (p : PDAProcessor) (position : Int) (token : String)
    (h : (put p position token).2 ≠ "") :
    (put p position token).1.LastConsumedPosition = position := by
  rcases put_LastConsumedPosition p position token with h1 | h1
  · exact h1
  · exact absurd h1.2 h

theorem reachedEOS_frontier (p : PDAProcessor) :
    p.LastConsumedPosition ≤ (reachedEOS p).1.LastConsumedPosition ∧
      (reachedEOS p).1.LastConsumedPosition ≤ p.LastConsumedPosition + 1 ∧
      (reachedEOS p).1.PendingTokenQueue = p.PendingTokenQueue := by
  unfold reachedEOS
  cases eos p with
  | none => simp
  | some b =>
    cases b with
    | false => simp
    | true =>
      simp only
      rcases put_LastConsumedPosition p (p.LastConsumedPosition + 1) "" with h | h
      · split <;> simp [h]
      · split <;> simp [h.1]

theorem consumeQueued_frontier (p : PDAProcessor) (position : Int) (token : String)
    (h : p.LastConsumedPosition ≤ position + 1) :
    p.LastConsumedPosition ≤ (consumeQueued p position token).1.LastConsumedPosition ∧
      (consumeQueued p position token).1.LastConsumedPosition ≤ position + 2 ∧
      (consumeQueued p position token).1.PendingTokenQueue = p.PendingTokenQueue ∧
      (∀ v, (consumeQueued p position token).2 = Result.ok v →
        position + 1 ≤ (consumeQueued p position token).1.LastConsumedPosition) := by
  unfold consumeQueued consumeTokenWith
  simp only
  by_cases h2 : (put p (position + 1) token).2 = ""
  · simp only [h2, if_true]
    rcases put_LastConsumedPosition p (position + 1) token with h1 | h1
    · simp [h1]; omega
    · simp [h1.1]; omega
  · have hl := put_LastConsumedPosition_of_ne p (position + 1) token h2
    simp only [h2, if_false]
    split
    · have hr := reachedEOS_frontier
        (addTransitionIfRequired (put p (position + 1) token).1 (put p (position + 1) token).2)
      simp only [addTransitionIfRequired_LastConsumedPosition, hl,
        addTransitionIfRequired_PendingTokenQueue, put_PendingTokenQueue] at hr
      split <;> rename_i heq <;> rw [heq] at hr <;> simp at hr ⊢ <;>
        first
        | exact ⟨by omega, by omega, hr.2.2, by omega⟩
        | exact ⟨by omega, by omega, hr.2.2⟩
    · simp [hl]; omega

theorem drainLoop_frontier (position : Int) (transitionTaken : String) :
    ∀ (remaining index : Nat) (p : PDAProcessor),
      p.LastConsumedPosition ≤ max (position + 1) ((index : Int) + 1) →
      p.LastConsumedPosition ≤
          (drainLoop position transitionTaken remaining index p).1.LastConsumedPosition ∧
        (∀ j : Nat, p.PendingTokenQueue.getD j "" ≠ "" →
          (drainLoop position transitionTaken remaining index p).1.PendingTokenQueue.getD j ""
              = "" →
          (j : Int) + 1 ≤
            (drainLoop position transitionTaken remaining index p).1.LastConsumedPosition) := by
  intro remaining
  induction remaining with
  | zero =>
    intro index p _
    simp only [drainLoop]
    exact ⟨le_refl _, fun j h1 h2 => absurd h2 h1⟩
  | succ n ih =>
    intro index p hp
    rw [drainLoop]
    by_cases hi : (index : Int) > position
    · simp only [hi, if_true]
      by_cases ht : p.PendingTokenQueue.getD index "" ≠ ""
      · rw [if_pos ht]
        have hle : p.LastConsumedPosition ≤ (index : Int) + 1 := by
          rcases le_max_iff.mp hp with h | h <;> omega
        obtain ⟨c1, c2, c3, c4⟩ := consumeQueued_frontier p index
          (p.PendingTokenQueue.getD index "") hle
        split
        · rename_i p1 v heq
          rw [heq] at c1 c2 c3 c4
          simp only at c1 c2 c3 c4
          have c5 := c4 v rfl
          obtain ⟨i1, i2⟩ := ih (index + 1)
            { p1 with PendingTokenQueue := p1.PendingTokenQueue.set index "" }
            (by simp only [Nat.cast_add, Nat.cast_one]; exact le_max_of_le_right (by omega))
          simp only at i1 i2
          refine ⟨by omega, ?_⟩
          intro j hj1 hj2
          by_cases hji : j = index
          · subst hji; omega
          · apply i2 j _ hj2
            rw [c3]
            simpa [List.getD_eq_getElem?_getD, List.getElem?_set, Ne.symm hji] using hj1
        · rename_i p1 s e heq
          rw [heq] at c1 c3
          simp only at c1 c3
          refine ⟨c1, fun j h1 h2 => ?_⟩
          rw [c3] at h2
          exact absurd h2 h1
        · rename_i p1 heq
          rw [heq] at c1 c3
          simp only at c1 c3
          refine ⟨c1, fun j h1 h2 => ?_⟩
          rw [c3] at h2
          exact absurd h2 h1
      · rw [if_neg ht]
        exact ⟨le_refl _, fun j h1 h2 => absurd h2 h1⟩
    · simp only [hi, if_false]
      apply ih (index + 1) p
      have : ((index + 1 : Nat) : Int) = (index : Int) + 1 := by simp
      rcases le_max_iff.mp hp with h | h
      · exact le_max_of_le_left h
      · exact le_max_of_le_left (by omega)

theorem drainLoop_ok_value (position : Int) (transitionTaken : String) :
    ∀ (remaining index : Nat) (p : PDAProcessor) (v : String),
      (drainLoop position transitionTaken remaining index p).2 = Result.ok v →
      v = transitionTaken := by
  intro remaining
  induction remaining with
  | zero =>
    intro index p v h
    simp only [drainLoop, Result.ok.injEq] at h
    exact h.symm
  | succ n ih =>
    intro index p v h
    rw [drainLoop] at h
    by_cases hi : (index : Int) > position
    · rw [if_pos hi] at h
      by_cases ht : p.PendingTokenQueue.getD index "" ≠ ""
      · rw [if_pos ht] at h
        split at h
        · exact ih _ _ v h
        · simp at h
        · simp at h
      · rw [if_neg ht] at h
        simp only [Result.ok.injEq] at h
        exact h.symm
    · rw [if_neg hi] at h
      exact ih _ _ v h

theorem consumeToken_frontier (p : PDAProcessor) (position : Int) (token : String)
    (h : p.LastConsumedPosition ≤ position + 1) :
    p.LastConsumedPosition ≤ (consumeToken p position token false).1.LastConsumedPosition ∧
      (∀ v, (consumeToken p position token false).2 = Result.ok v →
        v ≠ "" ∧ position + 1 ≤ (consumeToken p position token false).1.LastConsumedPosition) ∧
      (∀ j : Nat, p.PendingTokenQueue.getD j "" ≠ "" →
        (consumeToken p position token false).1.PendingTokenQueue.getD j "" = "" →
        (j : Int) + 1 ≤ (consumeToken p position token false).1.LastConsumedPosition) := by
  unfold consumeToken consumeTokenWith
  simp only
  by_cases h2 : (put p (position + 1) token).2 = ""
  · simp only [h2, if_true]
    refine ⟨?_, by simp, fun j h1 h3 => absurd (by simpa using h3) h1⟩
    rcases put_LastConsumedPosition p (position + 1) token with h1 | h1
    · simp [h1]; omega
    · simp [h1.1]
  · have hl := put_LastConsumedPosition_of_ne p (position + 1) token h2
    simp only [h2, if_false]
    split
    · have hr := reachedEOS_frontier
        (addTransitionIfRequired (put p (position + 1) token).1 (put p (position + 1) token).2)
      simp only [addTransitionIfRequired_LastConsumedPosition, hl,
        addTransitionIfRequired_PendingTokenQueue, put_PendingTokenQueue] at hr
      split <;> rename_i heq <;> rw [heq] at hr <;> simp only at hr ⊢
      · refine ⟨by omega, fun v hv => ?_, fun j h1 h3 => ?_⟩
        · simp only [Result.ok.injEq] at hv
          exact ⟨hv ▸ h2, by omega⟩
        · rw [hr.2.2] at h3; exact absurd h3 h1
      · refine ⟨by omega, fun v hv => by simp at hv, fun j h1 h3 => ?_⟩
        rw [hr.2.2] at h3; exact absurd h3 h1
      · refine ⟨by omega, fun v hv => by simp at hv, fun j h1 h3 => ?_⟩
        rw [hr.2.2] at h3; exact absurd h3 h1
    · simp only [Bool.not_false, if_true]
      have hd := drainLoop_frontier position (put p (position + 1) token).2
        (addTransitionIfRequired (put p (position + 1) token).1
          (put p (position + 1) token).2).PendingTokenQueue.length 0
        (addTransitionIfRequired (put p (position + 1) token).1 (put p (position + 1) token).2)
        (by simp only [addTransitionIfRequired_LastConsumedPosition, hl]
            exact le_max_left _ _)
      simp only [addTransitionIfRequired_LastConsumedPosition, hl,
        addTransitionIfRequired_PendingTokenQueue, put_PendingTokenQueue] at hd ⊢
      refine ⟨by omega, fun v hv => ?_, hd.2⟩
      have := drainLoop_ok_value _ _ _ _ _ v hv
      exact ⟨this ▸ h2, by omega⟩

theorem pushToQueue_frontier (p : PDAProcessor) (position : Int) (token : String) :
    p.LastConsumedPosition ≤ (pushToQueue p position token).1.LastConsumedPosition ∧
      ∀ j, consumedByCall p position token j →
        j < (pushToQueue p position token).1.LastConsumedPosition := by
  unfold consumedByCall
  unfold pushToQueue
  rcases Bool.eq_false_or_eq_true p.PDAFailedInLastEvaluation with h1 | h1
  · simp only [h1, if_true]
    refine ⟨le_refl _, fun j hj => ?_⟩
    rcases hj with ⟨_, v, _, hv⟩ | ⟨_, h2, h3⟩
    · simp at hv
    · exact absurd h3 h2
  · simp only [h1, Bool.false_eq_true, if_false]
    by_cases h2 : p.EOSPresentedAtPosition ≠ -1 ∧ p.EOSPresentedAtPosition < position
    · rw [if_pos h2]
      refine ⟨le_refl _, fun j hj => ?_⟩
      rcases hj with ⟨_, v, _, hv⟩ | ⟨_, h2, h3⟩
      · simp at hv
      · exact absurd h3 h2
    · rw [if_neg h2]
      by_cases h3 : position < p.LastConsumedPosition
      · rw [if_pos h3]
        refine ⟨le_refl _, fun j hj => ?_⟩
        rcases hj with ⟨_, v, _, hv⟩ | ⟨_, h2, h3⟩
        · simp at hv
        · exact absurd h3 h2
      · rw [if_neg h3]
        generalize hp1 : (if position = 0 ∧ p.LastConsumedPosition = -1 then (put p 0 "").1
          else p) = p1
        have hq : p1.PendingTokenQueue = p.PendingTokenQueue := by
          rw [← hp1]; split <;> simp
        have hl : p.LastConsumedPosition ≤ p1.LastConsumedPosition ∧
            (position = 0 → p1.LastConsumedPosition ≤ 0) := by
          rw [← hp1]
          split
          · rename_i hc
            rcases put_LastConsumedPosition p 0 "" with h | h
            · rw [h, hc.2]; omega
            · rw [h.1, hc.2]; omega
          · exact ⟨le_refl _, fun h0 => by omega⟩
        by_cases h4 : position = 0 ∨ position = p1.LastConsumedPosition
        · rw [if_pos h4]
          have hle : p1.LastConsumedPosition ≤ position + 1 := by
            rcases h4 with h | h
            · have := hl.2 h; omega
            · omega
          obtain ⟨c1, c2, c3⟩ := consumeToken_frontier p1 position token hle
          refine ⟨by omega, fun j hj => ?_⟩
          rcases hj with ⟨hjp, v, _, hv⟩ | ⟨hj0, hj2, hj3⟩
          · have := (c2 v hv).2
            omega
          · have := c3 j.toNat (by rw [hq]; exact hj2) hj3
            omega
        · rw [if_neg h4]
          by_cases h5 : 0 ≤ position ∧ position < p1.PendingTokenQueue.length
          · rw [if_pos h5]
            by_cases h6 : p1.PendingTokenQueue.getD position.toNat "" = ""
            · rw [if_pos h6]
              refine ⟨hl.1, fun j hj => ?_⟩
              rcases hj with ⟨_, v, hv1, hv⟩ | ⟨hj0, hj2, hj3⟩
              · simp only [Result.ok.injEq] at hv
                exact absurd hv.symm hv1
              · exfalso
                simp only at hj3
                by_cases hjp : j.toNat = position.toNat
                · rw [hjp, ← hq] at hj2
                  exact hj2 h6
                · rw [List.getD_eq_getElem?_getD, List.getElem?_set_ne (Ne.symm hjp),
                    ← List.getD_eq_getElem?_getD, hq] at hj3
                  exact hj2 hj3
            · rw [if_neg h6]
              refine ⟨hl.1, fun j hj => ?_⟩
              rcases hj with ⟨_, v, hv1, hv⟩ | ⟨hj0, hj2, hj3⟩
              · simp only [Result.ok.injEq] at hv
                exact absurd hv.symm hv1
              · rw [hq] at hj3; exact absurd hj3 hj2
          · rw [if_neg h5]
            refine ⟨hl.1, fun j hj => ?_⟩
            rcases hj with ⟨_, v, hv1, hv⟩ | ⟨hj0, hj2, hj3⟩
            · simp at hv
            · rw [hq] at hj3; exact absurd hj3 hj2

theorem presentEOS_frontier (p : PDAProcessor) (position : Int) :
    p.LastConsumedPosition ≤ (presentEOS p position).1.LastConsumedPosition := by
  unfold presentEOS
  split
  · exact le_refl _
  · split
    · exact le_refl _
    · simp only
      split
      · have h := (reachedEOS_frontier { p with EOSPresentedAtPosition := position }).1
        split <;> rename_i heq <;> rw [heq] at h <;> exact h
      · exact le_refl _

theorem runCalls_frontier (calls : List Call) (p : PDAProcessor) :
    p.LastConsumedPosition ≤ (runCalls p calls).LastConsumedPosition := by
  induction calls generalizing p with
  | nil => exact le_refl _
  | cons c cs ih =>
    have hc : p.LastConsumedPosition ≤ (applyCall p c).LastConsumedPosition := by
      cases c with
      | token position tok => exact (pushToQueue_frontier p position tok).1
      | endOfStream position => exact presentEOS_frontier p position
    exact le_trans hc (ih (applyCall p c))

theorem pushToQueue_behind (p : PDAProcessor) (position : Int) (token : String)
    (h : position < p.LastConsumedPosition) :
    ∃ e, pushToQueue p position token = (p, Result.fail "" e) := by
  unfold pushToQueue
  split
  · exact ⟨_, rfl⟩
  · split
    · exact ⟨_, rfl⟩
    · exact ⟨_, rfl⟩

/-! ## The engine does not look at the pending queue while it consumes -/

theorem addTransitionIfRequired_setQueue (p : PDAProcessor) (queue : List String)
    (state : String) :
    addTransitionIfRequired (setQueue p queue) state =
      setQueue (addTransitionIfRequired p state) queue := by
  unfold addTransitionIfRequired setQueue
  split <;> rfl

theorem reachedEOS_setQueue (p : PDAProcessor) (queue : List String) :
    reachedEOS (setQueue p queue) = (setQueue (reachedEOS p).1 queue, (reachedEOS p).2) := by
  have he : eos (setQueue p queue) = eos p := rfl
  unfold reachedEOS
  rw [he]
  cases eos p with
  | none => rfl
  | some b =>
    cases b with
    | false => rfl
    | true =>
      simp only
      have hl : (setQueue p queue).LastConsumedPosition = p.LastConsumedPosition := rfl
      rw [hl, put_setQueue]
      simp only
      split
      · rfl
      · rw [addTransitionIfRequired_setQueue]

theorem consumeQueued_setQueue (p : PDAProcessor) (queue : List String) (position : Int)
    (token : String) :
    consumeQueued (setQueue p queue) position token =
      (setQueue (consumeQueued p position token).1 queue,
        (consumeQueued p position token).2) := by
  unfold consumeQueued consumeTokenWith
  simp only [put_setQueue]
  split
  · rfl
  · rw [addTransitionIfRequired_setQueue]
    have he : ∀ q : PDAProcessor,
        (setQueue q queue).EOSPresentedAtPosition = q.EOSPresentedAtPosition := fun _ => rfl
    rw [he, reachedEOS_setQueue]
    split
    · cases hr : reachedEOS
        (addTransitionIfRequired (put p (position + 1) token).1 (put p (position + 1) token).2)
        with
      | mk p3 res => cases res <;> rfl
    · rfl

theorem presentEOS_setQueue (p : PDAProcessor) (queue : List String) (position : Int) :
    presentEOS (setQueue p queue) position =
      (setQueue (presentEOS p position).1 queue, (presentEOS p position).2) := by
  unfold presentEOS
  have hf : (setQueue p queue).PDAFailedInLastEvaluation = p.PDAFailedInLastEvaluation := rfl
  have hl : (setQueue p queue).LastConsumedPosition = p.LastConsumedPosition := rfl
  rw [hf, hl]
  split
  · rfl
  · split
    · rfl
    · simp only
      split
      · have hs := reachedEOS_setQueue { p with EOSPresentedAtPosition := position } queue
        simp only [setQueue] at hs ⊢
        rw [hs]
        cases hr : reachedEOS { p with EOSPresentedAtPosition := position } with
        | mk p3 res => cases res <;> rfl
      · rfl

theorem pushStep_setQueue (p : PDAProcessor) (queue : List String) (j : Nat) (t : String) :
    pushStep (setQueue p queue) j t = setQueue (pushStep p j t) queue := by
  unfold pushStep
  have hl : (setQueue p queue).LastConsumedPosition = p.LastConsumedPosition := rfl
  rw [hl]
  split
  · rw [put_setQueue, consumeQueued_setQueue]
  · rw [consumeQueued_setQueue]

theorem feed_setQueue (tokens : List String) (p : PDAProcessor) (queue : List String)
    (j : Nat) :
    feed (setQueue p queue) j tokens = setQueue (feed p j tokens) queue := by
  induction tokens generalizing p j with
  | nil => rfl
  | cons t ts ih =>
    simp only [feed]
    have hf : (setQueue p queue).PDAFailedInLastEvaluation = p.PDAFailedInLastEvaluation := rfl
    rw [hf]
    split
    · rfl
    · rw [pushStep_setQueue, ih]

theorem feed_of_failed (tokens : List String) (p : PDAProcessor) (j : Nat)
    (h : p.PDAFailedInLastEvaluation = true) : feed p j tokens = p := by
  cases tokens with
  | nil => rfl
  | cons t ts => simp [feed, h]

theorem feed_append (xs ys : List String) (p : PDAProcessor) (j : Nat) :
    feed p j (xs ++ ys) = feed (feed p j xs) (j + xs.length) ys := by
  induction xs generalizing p j with
  | nil => rfl
  | cons t ts ih =>
    simp only [List.cons_append, feed, List.length_cons]
    split
    · rename_i h
      rw [feed_of_failed ys p _ h]
    · have e : ts.append ys = ts ++ ys := rfl
      rw [e, ih]
      congr 1
      omega

theorem eq_setQueue_of_core_eq (p q : PDAProcessor) (h : setQueue p [] = setQueue q []) :
    p = setQueue q p.PendingTokenQueue := by
  have : setQueue (setQueue p []) p.PendingTokenQueue =
      setQueue (setQueue q []) p.PendingTokenQueue := by rw [h]
  exact this

/-! ## Consuming while no end of stream is declared -/

theorem consumeQueued_noEos (p : PDAProcessor) (position : Int) (token : String)
    (h : p.EOSPresentedAtPosition = -1) :
    consumeQueued p position token =
      if (put p (position + 1) token).2 = "" then
        ({ (put p (position + 1) token).1 with PDAFailedInLastEvaluation := true },
          Result.fail "" (PDAError.noTransition token position))
      else
        (addTransitionIfRequired (put p (position + 1) token).1 (put p (position + 1) token).2,
          Result.ok (put p (position + 1) token).2) := by
  unfold consumeQueued consumeTokenWith
  simp only
  split
  · rfl
  · rw [if_neg]
    simp [h]

theorem pushStep_props (p : PDAProcessor) (j : Nat) (t : String)
    (ha : Aligned j p) (hf : p.PDAFailedInLastEvaluation = false) :
    Aligned (j + 1) (pushStep p j t) ∧
      (pushStep p j t).PendingTokenQueue = p.PendingTokenQueue := by
  obtain ⟨he, hl⟩ := ha
  unfold pushStep
  generalize hp1 : (if (j : Int) = 0 ∧ p.LastConsumedPosition = -1 then (put p 0 "").1
    else p) = p1
  have h1 : p1.EOSPresentedAtPosition = -1 ∧ p1.PendingTokenQueue = p.PendingTokenQueue ∧
      p1.PDAFailedInLastEvaluation = false := by
    rw [← hp1]; split <;> simp [he, hf]
  rw [consumeQueued_noEos p1 j t h1.1]
  split
  · exact ⟨⟨by simp [h1.1], by simp⟩, by simp [h1.2.1]⟩
  · rename_i hne
    refine ⟨⟨by simp [h1.1], fun _ => Or.inr ⟨by omega, ?_⟩⟩, by simp [h1.2.1]⟩
    simp only [addTransitionIfRequired_LastConsumedPosition]
    rw [put_LastConsumedPosition_of_ne p1 _ t hne]
    simp

theorem feed_aligned (tokens : List String) (p : PDAProcessor) (j : Nat)
    (ha : Aligned j p) :
    Aligned (j + tokens.length) (feed p j tokens) ∧
      (feed p j tokens).PendingTokenQueue = p.PendingTokenQueue := by
  induction tokens generalizing p j with
  | nil => exact ⟨ha, rfl⟩
  | cons t ts ih =>
    simp only [feed, List.length_cons]
    rcases Bool.eq_false_or_eq_true p.PDAFailedInLastEvaluation with hf | hf
    · rw [if_pos hf]
      exact ⟨⟨ha.1, fun h => by rw [hf] at h; exact absurd h (by simp)⟩, rfl⟩
    · rw [if_neg (by simp [hf])]
      obtain ⟨h1, h2⟩ := pushStep_props p j t ha hf
      obtain ⟨h3, h4⟩ := ih (pushStep p j t) (j + 1) h1
      refine ⟨?_, by rw [h4, h2]⟩
      have : j + (ts.length + 1) = j + 1 + ts.length := by omega
      rw [this]
      exact h3

theorem drainLoop_of_empty (position : Int) (transitionTaken : String) :
    ∀ (remaining index : Nat) (p : PDAProcessor),
      (∀ i, p.PendingTokenQueue.getD i "" = "") →
      drainLoop position transitionTaken remaining index p = (p, Result.ok transitionTaken) := by
  intro remaining
  induction remaining with
  | zero => intro index p _; rfl
  | succ n ih =>
    intro index p h
    rw [drainLoop]
    split
    · rw [if_neg (not_not.mpr (h index))]
    · exact ih (index + 1) p h

theorem drainLoop_skip (position : Int) (transitionTaken : String) :
    ∀ (skip remaining index : Nat) (p : PDAProcessor),
      ((index + skip : Nat) : Int) ≤ position + 1 →
      drainLoop position transitionTaken (skip + remaining) index p =
        drainLoop position transitionTaken remaining (index + skip) p := by
  intro skip
  induction skip with
  | zero => intro remaining index p _; simp
  | succ k ih =>
    intro remaining index p h
    have e : k + 1 + remaining = (k + remaining) + 1 := by omega
    rw [e, drainLoop, if_neg (by push_cast at h; omega), ih remaining (index + 1) p
      (by push_cast at h ⊢; omega)]
    congr 1
    omega

theorem drainLoop_skip_all (position : Int) (transitionTaken : String) :
    ∀ (remaining index : Nat) (p : PDAProcessor),
      ((index + remaining : Nat) : Int) ≤ position + 1 →
      drainLoop position transitionTaken remaining index p = (p, Result.ok transitionTaken) := by
  intro remaining
  induction remaining with
  | zero => intro index p _; rfl
  | succ k ih =>
    intro index p h
    rw [drainLoop, if_neg (by push_cast at h; omega)]
    exact ih (index + 1) p (by push_cast at h ⊢; omega)

/-- What `pushToQueue(j, t)` does in a state that has not failed, with no end of stream
declared, when `j` is the next position: it consumes the token, and runs the
pending-queue loop unless the token had no transition. -/
theorem pushToQueue_next (p : PDAProcessor) (j : Nat) (t : String)
    (ha : Aligned j p) (hf : p.PDAFailedInLastEvaluation = false) :
    ((pushStep p j t).PDAFailedInLastEvaluation = true ∧
        (pushToQueue p j t).1 = pushStep p j t) ∨
      ((pushStep p j t).PDAFailedInLastEvaluation = false ∧
        ∃ v, (pushToQueue p j t).1 =
          (drainLoop j v (pushStep p j t).PendingTokenQueue.length 0 (pushStep p j t)).1) := by
  obtain ⟨he, hl⟩ := ha
  have hl := hl hf
  have h1 : ∀ p1, (if (j : Int) = 0 ∧ p.LastConsumedPosition = -1 then (put p 0 "").1
      else p) = p1 →
      p1.EOSPresentedAtPosition = -1 ∧ p1.PDAFailedInLastEvaluation = false ∧
      ((j : Int) = 0 ∨ (j : Int) = p1.LastConsumedPosition) := by
    intro p1 hp1
    rw [← hp1]
    split
    · rename_i hc
      exact ⟨by simp [he], by simp [hf], Or.inl hc.1⟩
    · rename_i hc
      refine ⟨he, hf, ?_⟩
      rcases hl with h | h
      · exact Or.inl (by omega)
      · exact Or.inr h.2.symm
  have hpush : pushToQueue p j t =
      consumeToken (if (j : Int) = 0 ∧ p.LastConsumedPosition = -1 then (put p 0 "").1 else p)
        j t false := by
    unfold pushToQueue
    rw [if_neg (by simp [hf]), if_neg (by simp [he]),
      if_neg (show ¬ (j : Int) < p.LastConsumedPosition by rcases hl with h | h <;> omega)]
    simp only
    rw [if_pos (h1 _ rfl).2.2]
  rw [hpush]
  unfold pushStep
  generalize hp1 : (if (j : Int) = 0 ∧ p.LastConsumedPosition = -1 then (put p 0 "").1
    else p) = p1
  have h1 := h1 p1 hp1
  rw [consumeQueued_noEos p1 j t h1.1]
  unfold consumeToken consumeTokenWith
  simp only
  by_cases hput : (put p1 (j + 1) t).2 = ""
  · left
    simp only [hput, if_true, and_self]
  · right
    simp only [hput, if_false]
    rw [if_neg (by simp [h1.1])]
    refine ⟨by simp [h1.2.1], (put p1 (j + 1) t).2, ?_⟩
    simp

theorem runCalls_cons (p : PDAProcessor) (c : Call) (cs : List Call) :
    runCalls p (c :: cs) = runCalls (applyCall p c) cs := rfl

theorem runCalls_append (p : PDAProcessor) (xs ys : List Call) :
    runCalls p (xs ++ ys) = runCalls (runCalls p xs) ys := by
  simp [runCalls, List.foldl_append]

/-- Tokens presented in the order of their positions to a state whose queue is empty are
consumed one after the other. -/
theorem runCalls_inOrder (tokens : List String) (p : PDAProcessor) (j : Nat)
    (ha : Aligned j p) (hq : ∀ i, p.PendingTokenQueue.getD i "" = "") :
    runCalls p ((tokens.enumFrom j).map (fun c => Call.token (c.1 : Int) c.2)) =
      feed p j tokens := by
  induction tokens generalizing p j with
  | nil => rfl
  | cons t ts ih =>
    simp only [List.enumFrom_cons, List.map_cons, runCalls_cons, feed]
    rcases Bool.eq_false_or_eq_true p.PDAFailedInLastEvaluation with hf | hf
    · rw [if_pos hf]
      simp only [applyCall, pushToQueue_of_failed p _ _ hf]
      exact runCalls_of_failed _ p hf
    · rw [if_neg (by simp [hf])]
      obtain ⟨h1, h2⟩ := pushStep_props p j t ha hf
      have hstep : applyCall p (Call.token (j : Int) t) = pushStep p j t := by
        simp only [applyCall]
        rcases pushToQueue_next p j t ha hf with ⟨_, h⟩ | ⟨_, v, h⟩
        · exact h
        · rw [h, drainLoop_of_empty _ _ _ _ _ (by rw [h2]; exact hq)]
      rw [hstep]
      exact ih (pushStep p j t) (j + 1) h1 (by rw [h2]; exact hq)

@[simp] theorem setQueue_setQueue (p : PDAProcessor) (a b : List String) :
    setQueue (setQueue p a) b = setQueue p b := rfl

@[simp] theorem setQueue_PendingTokenQueue (p : PDAProcessor) (a : List String) :
    (setQueue p a).PendingTokenQueue = a := rfl

theorem pushStep_of_pos (p : PDAProcessor) (j : Nat) (t : String) (hj : 1 ≤ j) :
    pushStep p j t = (consumeQueued p j t).1 := by
  unfold pushStep
  rw [if_neg (by omega)]

/-- The pending-queue loop, started just past the consumed position on a queue whose
next slots hold the tokens `run` (none of them empty) followed by an empty slot: it
consumes `run` in order, stopping at the first token without a transition, and if none
fails it leaves the queue with exactly those slots emptied. -/
theorem drainLoop_run (position : Int) (transitionTaken : String) (run : List String) :
    ∀ (remaining index : Nat) (p : PDAProcessor),
      position < (index : Int) → 1 ≤ index →
      p.EOSPresentedAtPosition = -1 → p.PDAFailedInLastEvaluation = false →
      index + remaining = p.PendingTokenQueue.length →
      (∀ x, x < run.length → p.PendingTokenQueue.getD (index + x) "" = run.getD x "") →
      (∀ t ∈ run, t ≠ "") →
      p.PendingTokenQueue.getD (index + run.length) "" = "" →
      setQueue (drainLoop position transitionTaken remaining index p).1 [] =
          setQueue (feed p index run) [] ∧
        ((drainLoop position transitionTaken remaining index p).1.PDAFailedInLastEvaluation
            = false →
          (drainLoop position transitionTaken remaining index p).1.PendingTokenQueue.length =
              p.PendingTokenQueue.length ∧
            ∀ i, (drainLoop position transitionTaken remaining index p).1.PendingTokenQueue.getD
                i "" =
              if index ≤ i ∧ i < index + run.length then "" else
                p.PendingTokenQueue.getD i "") := by
  induction run with
  | nil =>
    intro remaining index p hpos _ _ _ _ _ _ hstop
    have hd : drainLoop position transitionTaken remaining index p =
        (p, Result.ok transitionTaken) := by
      cases remaining with
      | zero => rfl
      | succ n =>
        rw [drainLoop, if_pos hpos, if_neg (not_not.mpr (by simpa using hstop))]
    rw [hd]
    exact ⟨rfl, fun _ => ⟨rfl, fun i => by rw [if_neg (by simp)]⟩⟩
  | cons t run ih =>
    intro remaining index p hpos hidx he hf hlen hrun hne hstop
    have ht : p.PendingTokenQueue.getD index "" = t := by simpa using hrun 0 (by simp)
    have htne : t ≠ "" := hne t (List.mem_cons_self t run)
    have hlt : index < p.PendingTokenQueue.length := by
      by_contra hcon
      rw [List.getD_eq_default _ _ (not_lt.mp hcon)] at ht
      exact htne ht.symm
    obtain ⟨n, rfl⟩ : ∃ n, remaining = n + 1 := ⟨remaining - 1, by omega⟩
    rw [drainLoop, if_pos hpos, ht, if_pos htne]
    simp only [feed]
    rw [if_neg (by simp [hf]), pushStep_of_pos p index t hidx, consumeQueued_noEos p index t he]
    by_cases hput : (put p (index + 1) t).2 = ""
    · simp only [hput, if_true]
      rw [feed_of_failed run _ _ rfl]
      exact ⟨rfl, fun h => absurd h (by simp)⟩
    · simp only [hput, if_false]
      have hset : ({ addTransitionIfRequired (put p (index + 1) t).1 (put p (index + 1) t).2 with
          PendingTokenQueue :=
            (addTransitionIfRequired (put p (index + 1) t).1
              (put p (index + 1) t).2).PendingTokenQueue.set index "" } : PDAProcessor) =
          setQueue (addTransitionIfRequired (put p (index + 1) t).1 (put p (index + 1) t).2)
            (p.PendingTokenQueue.set index "") := by
        simp [setQueue]
      rw [hset]
      obtain ⟨i1, i2⟩ := ih n (index + 1)
        (setQueue (addTransitionIfRequired (put p (index + 1) t).1 (put p (index + 1) t).2)
          (p.PendingTokenQueue.set index ""))
        (by push_cast; omega) (by omega)
        (by simp [setQueue, he]) (by simp [setQueue, hf])
        (by simp only [setQueue_PendingTokenQueue, List.length_set]; omega)
        (fun x hx => by
          have := hrun (x + 1) (by simp; omega)
          simp only [setQueue_PendingTokenQueue]
          rw [List.getD_eq_getElem?_getD, List.getElem?_set_ne (by omega),
            ← List.getD_eq_getElem?_getD]
          have e : index + 1 + x = index + (x + 1) := by omega
          rw [e, this]
          simp)
        (fun t' ht' => hne t' (List.mem_cons_of_mem t ht'))
        (by
          simp only [setQueue_PendingTokenQueue]
          rw [List.getD_eq_getElem?_getD, List.getElem?_set_ne (by omega),
            ← List.getD_eq_getElem?_getD]
          have e : index + 1 + run.length = index + (t :: run).length := by simp; omega
          rw [e]; exact hstop)
      refine ⟨?_, fun hnf => ?_⟩
      · rw [i1, feed_setQueue]
        rfl
      · obtain ⟨l1, l2⟩ := i2 hnf
        refine ⟨by rw [l1]; simp, fun i => ?_⟩
        rw [l2 i]
        simp only [setQueue_PendingTokenQueue, List.length_cons]
        by_cases hi : i = index
        · subst hi
          rw [if_neg (by omega), if_pos ⟨le_refl _, by omega⟩,
            List.getD_eq_getElem?_getD, List.getElem?_set_self hlt]
          rfl
        · rw [List.getD_eq_getElem?_getD, List.getElem?_set_ne (Ne.symm hi),
            ← List.getD_eq_getElem?_getD]
          by_cases hc : index + 1 ≤ i ∧ i < index + 1 + run.length
          · rw [if_pos hc, if_pos ⟨by omega, by omega⟩]
          · rw [if_neg hc, if_neg (by omega)]

/-! ## Order independence -/

theorem core_fields (p q : PDAProcessor) (h : setQueue p [] = setQueue q []) :
    p.EOSPresentedAtPosition = q.EOSPresentedAtPosition ∧
      p.LastConsumedPosition = q.LastConsumedPosition ∧
      p.PDAFailedInLastEvaluation = q.PDAFailedInLastEvaluation ∧
      p.CurrentState = q.CurrentState ∧ p.Stack = q.Stack ∧
      p.AcceptingStates = q.AcceptingStates ∧ p.Eos = q.Eos := by
  have e1 := congrArg PDAProcessor.EOSPresentedAtPosition h
  have e2 := congrArg PDAProcessor.LastConsumedPosition h
  have e3 := congrArg PDAProcessor.PDAFailedInLastEvaluation h
  have e4 := congrArg PDAProcessor.CurrentState h
  have e5 := congrArg PDAProcessor.Stack h
  have e6 := congrArg PDAProcessor.AcceptingStates h
  have e7 := congrArg PDAProcessor.Eos h
  exact ⟨e1, e2, e3, e4, e5, e6, e7⟩

theorem aligned_of_core (j : Nat) (p q : PDAProcessor) (h : setQueue p [] = setQueue q [])
    (ha : Aligned j q) : Aligned j p := by
  obtain ⟨h1, h2, h3, _⟩ := core_fields p q h
  unfold Aligned at ha ⊢
  rw [h1, h2, h3]
  exact ha

theorem pushToQueue_store (p : PDAProcessor) (position : Int) (token : String)
    (hfailed : p.PDAFailedInLastEvaluation = false)
    (hnotPastEos : ¬ (p.EOSPresentedAtPosition ≠ -1 ∧ p.EOSPresentedAtPosition < position))
    (hnotBehind : ¬ position < p.LastConsumedPosition)
    (hnonzero : position ≠ 0)
    (hnotNext : position ≠ p.LastConsumedPosition)
    (hpos : 0 ≤ position)
    (hslot : p.PendingTokenQueue[position.toNat]? = some "") :
    pushToQueue p position token =
      ({ p with PendingTokenQueue := p.PendingTokenQueue.set position.toNat token },
        Result.ok "") := by
  have hlen : position.toNat < p.PendingTokenQueue.length := by
    by_contra hcon
    rw [List.getElem?_eq_none (not_lt.mp hcon)] at hslot
    exact absurd hslot (by simp)
  have hlt : position < p.PendingTokenQueue.length := by omega
  have hget : p.PendingTokenQueue.getD position.toNat "" = "" := by
    simp [List.getD_eq_getElem?_getD, hslot]
  unfold pushToQueue
  simp only [hfailed, hnotPastEos, hnotBehind, hnonzero, hnotNext, false_and, if_false,
    or_self, hpos, hlt, and_self, if_true, hget, Bool.false_eq_true]

theorem feed_take_succ (fresh : PDAProcessor) (tokens : List String) (m : Nat)
    (hm : m < tokens.length)
    (hnf : (feed fresh 0 (tokens.take m)).PDAFailedInLastEvaluation = false) :
    feed fresh 0 (tokens.take (m + 1)) =
      pushStep (feed fresh 0 (tokens.take m)) m (tokens.getD m "") := by
  have e : tokens.take (m + 1) = tokens.take m ++ [tokens.getD m ""] := by
    rw [List.take_succ, List.getD_eq_getElem?_getD, List.getElem?_eq_getElem hm]
    rfl
  rw [e, feed_append]
  have hl : (tokens.take m).length = m := by
    rw [List.length_take]; omega
  simp only [hl, Nat.zero_add, feed]
  rw [if_neg (by simp [hnf])]

/-- Presenting, after the positions in `done`, a token that is not the next one to be
consumed stores it. -/
theorem presented_buffer (fresh : PDAProcessor) (tokens : List String) (done : List Nat)
    (p : PDAProcessor) (i : Nat)
    (hfresh : Aligned 0 fresh)
    (hcap : tokens.length ≤ fresh.PendingTokenQueue.length)
    (hi : i < tokens.length) (hidone : i ∉ done)
    (m : Nat)
    (hcore : setQueue p [] = setQueue (feed fresh 0 (tokens.take m)) [])
    (hf : p.PDAFailedInLastEvaluation = false)
    (h1 : ∀ x, x < m → x ∈ done) (_h2 : m ∉ done)
    (h3 : p.PendingTokenQueue.length = fresh.PendingTokenQueue.length)
    (h4 : ∀ x, p.PendingTokenQueue.getD x "" =
      if x ∈ done ∧ m < x then tokens.getD x "" else "")
    (him : i ≠ m) :
    pushToQueue p i (tokens.getD i "") =
      (setQueue p (p.PendingTokenQueue.set i (tokens.getD i "")), Result.ok "") := by
  have hlt : m < i := by
    rcases Nat.lt_or_gt_of_ne him with h | h
    · exact absurd (h1 i h) hidone
    · exact h
  have hal : Aligned m p := by
    have := (feed_aligned (tokens.take m) fresh 0 hfresh).1
    have e : 0 + (tokens.take m).length = m := by rw [List.length_take]; omega
    rw [e] at this
    exact aligned_of_core m p _ hcore this
  obtain ⟨he, hl⟩ := hal
  have hl := hl hf
  have hslot : p.PendingTokenQueue[i]? = some "" := by
    have hil : i < p.PendingTokenQueue.length := by omega
    have := h4 i
    rw [if_neg (fun h => hidone h.1), List.getD_eq_getElem?_getD,
      List.getElem?_eq_getElem hil] at this
    rw [List.getElem?_eq_getElem hil]
    simpa using this
  have := pushToQueue_store p (i : Int) (tokens.getD i "") hf (by simp [he])
    (by rcases hl with h | h <;> omega) (by omega) (by rcases hl with h | h <;> omega)
    (by omega) (by simpa using hslot)
  rw [this]
  simp [setQueue]

theorem drainLoop_skip_zero (position : Int) (transitionTaken : String)
    (skip remaining : Nat) (p : PDAProcessor) (h : (skip : Int) ≤ position + 1) :
    drainLoop position transitionTaken (skip + remaining) 0 p =
      drainLoop position transitionTaken remaining skip p := by
  have := drainLoop_skip position transitionTaken skip remaining 0 p (by simpa using h)
  simpa using this

/-- Presenting, after the positions in `done`, the token that is next to be consumed:
it is consumed, and so are the tokens stored in the slots that follow, up to the first
empty slot or the first token without a transition. -/
theorem presented_consume (fresh : PDAProcessor) (tokens : List String) (done : List Nat)
    (p : PDAProcessor) (m : Nat)
    (hfresh : Aligned 0 fresh)
    (hcap : tokens.length ≤ fresh.PendingTokenQueue.length)
    (hne : ∀ t ∈ tokens, t ≠ "")
    (hdone : ∀ d ∈ done, d < tokens.length)
    (hm : m < tokens.length)
    (hcore : setQueue p [] = setQueue (feed fresh 0 (tokens.take m)) [])
    (hf : p.PDAFailedInLastEvaluation = false)
    (h1 : ∀ x, x < m → x ∈ done) (_h2 : m ∉ done)
    (h3 : p.PendingTokenQueue.length = fresh.PendingTokenQueue.length)
    (h4 : ∀ x, p.PendingTokenQueue.getD x "" =
      if x ∈ done ∧ m < x then tokens.getD x "" else "") :
    Presented fresh tokens (m :: done) (pushToQueue p m (tokens.getD m "")).1 := by
  have hFa : Aligned m (feed fresh 0 (tokens.take m)) := by
    have := (feed_aligned (tokens.take m) fresh 0 hfresh).1
    have e : 0 + (tokens.take m).length = m := by rw [List.length_take]; omega
    rw [e] at this
    exact this
  have hal : Aligned m p := aligned_of_core m p _ hcore hFa
  have hFnf : (feed fresh 0 (tokens.take m)).PDAFailedInLastEvaluation = false := by
    rw [← (core_fields p _ hcore).2.2.1]; exact hf
  have hPS : pushStep p m (tokens.getD m "") =
      setQueue (pushStep (feed fresh 0 (tokens.take m)) m (tokens.getD m ""))
        p.PendingTokenQueue := by
    have := pushStep_setQueue (feed fresh 0 (tokens.take m)) p.PendingTokenQueue m
      (tokens.getD m "")
    rwa [← eq_setQueue_of_core_eq p _ hcore] at this
  have hsucc := feed_take_succ fresh tokens m hm hFnf
  have hcore1 : setQueue (pushStep p m (tokens.getD m "")) [] =
      setQueue (feed fresh 0 (tokens.take (m + 1))) [] := by
    rw [hPS, hsucc]; rfl
  obtain ⟨hPa, hPq⟩ := pushStep_props p m (tokens.getD m "") hal hf
  rcases pushToQueue_next p m (tokens.getD m "") hal hf with ⟨hpf, hst⟩ | ⟨hpnf, v, hst⟩
  · rw [hst]
    exact ⟨m + 1, hm, hcore1, Or.inl hpf⟩
  · rw [hst]
    generalize hP : pushStep p m (tokens.getD m "") = P at *
    have hPl : P.PendingTokenQueue.length = p.PendingTokenQueue.length := by rw [hPq]
    have hlen : P.PendingTokenQueue.length =
        (m + 1) + (P.PendingTokenQueue.length - (m + 1)) := by omega
    have hex : ∃ k, P.PendingTokenQueue.getD (m + 1 + k) "" = "" :=
      ⟨P.PendingTokenQueue.length, List.getD_eq_default _ _ (by omega)⟩
    have hk := Nat.find_spec hex
    have hmin : ∀ x, x < Nat.find hex → P.PendingTokenQueue.getD (m + 1 + x) "" ≠ "" :=
      fun x hx => Nat.find_min hex hx
    generalize Nat.find hex = k at hk hmin
    have hq : ∀ x, x < k → m + 1 + x ∈ done ∧
        P.PendingTokenQueue.getD (m + 1 + x) "" = tokens.getD (m + 1 + x) "" := by
      intro x hx
      have hx1 := hmin x hx
      have hx2 := h4 (m + 1 + x)
      rw [hPq] at hx1 ⊢
      by_cases hc : m + 1 + x ∈ done ∧ m < m + 1 + x
      · rw [if_pos hc] at hx2
        exact ⟨hc.1, hx2⟩
      · rw [if_neg hc] at hx2
        exact absurd hx2 hx1
    have hkle : m + 1 + k ≤ tokens.length := by
      rcases Nat.eq_zero_or_pos k with h0 | h0
      · omega
      · have := hdone _ (hq (k - 1) (by omega)).1
        omega
    have hrl : ((tokens.drop (m + 1)).take k).length = k := by
      rw [List.length_take, List.length_drop]; omega
    have hrun : ∀ x, x < ((tokens.drop (m + 1)).take k).length →
        P.PendingTokenQueue.getD (m + 1 + x) "" = ((tokens.drop (m + 1)).take k).getD x "" := by
      intro x hx
      rw [hrl] at hx
      rw [(hq x hx).2, List.getD_eq_getElem?_getD, List.getD_eq_getElem?_getD,
        List.getElem?_take_of_lt hx, List.getElem?_drop]
    obtain ⟨d1, d2⟩ := drainLoop_run (m : Int) v ((tokens.drop (m + 1)).take k)
      (P.PendingTokenQueue.length - (m + 1)) (m + 1) P (by push_cast; omega) (by omega)
      hPa.1 hpnf (by omega) hrun
      (fun t ht => hne t (List.mem_of_mem_drop (List.mem_of_mem_take ht)))
      (by rw [hrl]; exact hk)
    rw [hlen, drainLoop_skip_zero (m : Int) v (m + 1) _ P (by push_cast; omega)]
    have hcore2 : setQueue (feed P (m + 1) ((tokens.drop (m + 1)).take k)) [] =
        setQueue (feed fresh 0 (tokens.take (m + 1 + k))) [] := by
      have e1 : feed fresh 0 (tokens.take (m + 1 + k)) =
          feed (feed fresh 0 (tokens.take (m + 1))) (m + 1) ((tokens.drop (m + 1)).take k) := by
        rw [List.take_add, feed_append]
        have : (tokens.take (m + 1)).length = m + 1 := by rw [List.length_take]; omega
        rw [this, Nat.zero_add]
      rw [e1, hsucc, hPS, feed_setQueue]
      rfl
    refine ⟨m + 1 + k, hkle, by rw [d1, hcore2], ?_⟩
    rcases Bool.eq_false_or_eq_true
      (drainLoop (m : Int) v (P.PendingTokenQueue.length - (m + 1)) (m + 1)
        P).1.PDAFailedInLastEvaluation with hdf | hdf
    · exact Or.inl hdf
    · right
      obtain ⟨l1, l2⟩ := d2 hdf
      rw [hrl] at l2
      have hstop : m + 1 + k ∉ done := by
        intro hin
        have hx2 := h4 (m + 1 + k)
        rw [if_pos ⟨hin, by omega⟩, ← hPq, hk] at hx2
        have hlt := hdone _ hin
        have hmem : tokens.getD (m + 1 + k) "" ∈ tokens := by
          rw [List.getD_eq_getElem?_getD, List.getElem?_eq_getElem hlt]
          exact List.getElem_mem hlt
        exact hne _ hmem hx2.symm
      refine ⟨?_, ?_, by rw [l1, hPq, h3], ?_⟩
      · intro x hx
        by_cases hxm : x < m
        · exact List.mem_cons_of_mem _ (h1 x hxm)
        · by_cases hxe : x = m
          · rw [hxe]; exact List.mem_cons_self _ _
          · have := (hq (x - (m + 1)) (by omega)).1
            have e : m + 1 + (x - (m + 1)) = x := by omega
            rw [e] at this
            exact List.mem_cons_of_mem _ this
      · intro hin
        rcases List.mem_cons.mp hin with h | h
        · omega
        · exact hstop h
      · intro x
        rw [l2 x, hPq]
        by_cases hc : m + 1 ≤ x ∧ x < m + 1 + k
        · rw [if_pos hc, if_neg (by omega)]
        · rw [if_neg hc, h4 x]
          by_cases hxk : x = m + 1 + k
          · rw [hxk, if_neg (fun h => hstop h.1), if_neg (by omega)]
          · by_cases hxm : m + 1 + k < x
            · by_cases hxd : x ∈ done
              · rw [if_pos ⟨hxd, by omega⟩, if_pos ⟨List.mem_cons_of_mem _ hxd, hxm⟩]
              · rw [if_neg (fun h => hxd h.1), if_neg]
                intro h
                rcases List.mem_cons.mp h.1 with h' | h'
                · omega
                · exact hxd h'
            · rw [if_neg (by omega), if_neg (by omega)]

theorem presented_step (fresh : PDAProcessor) (tokens : List String) (done : List Nat)
    (p : PDAProcessor) (i : Nat)
    (hfresh : Aligned 0 fresh)
    (hcap : tokens.length ≤ fresh.PendingTokenQueue.length)
    (hne : ∀ t ∈ tokens, t ≠ "")
    (hdone : ∀ d ∈ done, d < tokens.length)
    (hi : i < tokens.length) (hidone : i ∉ done)
    (h : Presented fresh tokens done p) :
    Presented fresh tokens (i :: done) (pushToQueue p i (tokens.getD i "")).1 := by
  obtain ⟨m, hm, hcore, hrest⟩ := h
  rcases Bool.eq_false_or_eq_true p.PDAFailedInLastEvaluation with hf | hf
  · rw [pushToQueue_of_failed p _ _ hf]
    exact ⟨m, hm, hcore, Or.inl hf⟩
  · rcases hrest with hbad | ⟨h1, h2, h3, h4⟩
    · rw [hf] at hbad; exact absurd hbad (by simp)
    · by_cases him : i = m
      · subst him
        exact presented_consume fresh tokens done p i hfresh hcap hne hdone hi hcore hf h1 h2
          h3 h4
      · have hlt : m < i := by
          rcases Nat.lt_or_gt_of_ne him with h | h
          · exact absurd (h1 i h) hidone
          · exact h
        rw [presented_buffer fresh tokens done p i hfresh hcap hi hidone m hcore hf h1 h2 h3 h4
          him]
        refine ⟨m, hm, hcore, Or.inr ⟨fun x hx => List.mem_cons_of_mem _ (h1 x hx), ?_, ?_, ?_⟩⟩
        · intro hin
          rcases List.mem_cons.mp hin with h | h
          · exact him h.symm
          · exact h2 h
        · simp only [setQueue_PendingTokenQueue, List.length_set]
          exact h3
        · intro x
          simp only [setQueue_PendingTokenQueue]
          by_cases hxi : x = i
          · subst hxi
            rw [if_pos ⟨List.mem_cons_self _ _, hlt⟩, List.getD_eq_getElem?_getD,
              List.getElem?_set_self (by omega)]
            rfl
          · rw [List.getD_eq_getElem?_getD, List.getElem?_set_ne (Ne.symm hxi),
              ← List.getD_eq_getElem?_getD, h4 x]
            by_cases hc : x ∈ done ∧ m < x
            · rw [if_pos hc, if_pos ⟨List.mem_cons_of_mem _ hc.1, hc.2⟩]
            · rw [if_neg hc, if_neg]
              intro h
              rcases List.mem_cons.mp h.1 with h' | h'
              · exact hxi h'
              · exact hc ⟨h', h.2⟩

theorem presented_run (fresh : PDAProcessor) (tokens : List String)
    (hfresh : Aligned 0 fresh)
    (hcap : tokens.length ≤ fresh.PendingTokenQueue.length)
    (hne : ∀ t ∈ tokens, t ≠ "") (calls : List Call) :
    ∀ (done : List Nat) (p : PDAProcessor),
      Presented fresh tokens done p →
      (∀ d ∈ done, d < tokens.length) →
      calls.Nodup →
      (∀ c ∈ calls, ∃ i, i < tokens.length ∧ i ∉ done ∧
        c = Call.token (i : Int) (tokens.getD i "")) →
      ∃ done', Presented fresh tokens done' (runCalls p calls) ∧
        (∀ d ∈ done, d ∈ done') ∧
        (∀ i : Nat, Call.token (i : Int) (tokens.getD i "") ∈ calls → i ∈ done') := by
  induction calls with
  | nil =>
    intro done p h _ _ _
    exact ⟨done, h, fun d hd => hd, fun i hi => absurd hi (List.not_mem_nil _)⟩
  | cons c cs ih =>
    intro done p h hdone hnd hall
    obtain ⟨i, hi, hid, hc⟩ := hall c (List.mem_cons_self c cs)
    have hstep := presented_step fresh tokens done p i hfresh hcap hne hdone hi hid h
    have hnd' := List.nodup_cons.mp hnd
    obtain ⟨done', a1, a2, a3⟩ := ih (i :: done) (pushToQueue p i (tokens.getD i "")).1 hstep
      (fun d hd => by
        rcases List.mem_cons.mp hd with h' | h'
        · rw [h']; exact hi
        · exact hdone d h')
      hnd'.2
      (fun c' hc' => by
        obtain ⟨i', hi', hid', hce'⟩ := hall c' (List.mem_cons_of_mem c hc')
        refine ⟨i', hi', ?_, hce'⟩
        intro hin
        rcases List.mem_cons.mp hin with h' | h'
        · apply hnd'.1
          rw [hc, ← h', ← hce']
          exact hc'
        · exact hid' h')
    refine ⟨done', ?_, fun d hd => a2 d (List.mem_cons_of_mem _ hd), ?_⟩
    · rw [runCalls_cons, hc]
      exact a1
    · intro x hx
      rcases List.mem_cons.mp hx with h' | h'
      · rw [hc] at h'
        simp only [Call.token.injEq, Nat.cast_inj] at h'
        rw [h'.1]
        exact a2 i (List.mem_cons_self _ _)
      · exact a3 x h'

theorem mem_inOrderCalls (tokens : List String) (c : Call) :
    c ∈ inOrderCalls tokens ↔
      ∃ i, i < tokens.length ∧ c = Call.token (i : Int) (tokens.getD i "") := by
  unfold inOrderCalls
  simp only [List.mem_map, Prod.exists]
  constructor
  · rintro ⟨i, t, hmem, rfl⟩
    obtain ⟨hlt, ht⟩ := List.mem_enum hmem
    refine ⟨i, hlt, ?_⟩
    rw [List.getD_eq_getElem?_getD, List.getElem?_eq_getElem hlt, ht]
    rfl
  · rintro ⟨i, hlt, rfl⟩
    refine ⟨i, tokens.getD i "", ?_, rfl⟩
    rw [List.mk_mem_enum_iff_getElem?, List.getD_eq_getElem?_getD,
      List.getElem?_eq_getElem hlt]
    rfl

theorem nodup_inOrderCalls (tokens : List String) : (inOrderCalls tokens).Nodup := by
  unfold inOrderCalls
  apply List.Nodup.map
  · intro a b hab
    simp only [Call.token.injEq, Nat.cast_inj] at hab
    exact Prod.ext hab.1 hab.2
  · apply List.Nodup.of_map Prod.fst
    rw [List.enum_map_fst]
    exact List.nodup_range _

theorem runCalls_inOrderCalls (tokens : List String) (p : PDAProcessor)
    (ha : Aligned 0 p) (hq : ∀ i, p.PendingTokenQueue.getD i "" = "") :
    runCalls p (inOrderCalls tokens) = feed p 0 tokens := by
  unfold inOrderCalls
  rw [List.enum_eq_enumFrom]
  exact runCalls_inOrder tokens p 0 ha hq

/-- After the tokens of a list have been presented in any order, each at its own
position, to a fresh engine whose queue has room for them, the record agrees, the queue
apart, with the one reached by presenting them in order. -/
theorem runCalls_perm_core (fresh : PDAProcessor) (tokens : List String)
    (hfresh : Aligned 0 fresh)
    (hq : ∀ i, fresh.PendingTokenQueue.getD i "" = "")
    (hcap : tokens.length ≤ fresh.PendingTokenQueue.length)
    (hne : ∀ t ∈ tokens, t ≠ "") (calls : List Call)
    (hperm : calls.Perm (inOrderCalls tokens)) :
    setQueue (runCalls fresh calls) [] =
      setQueue (runCalls fresh (inOrderCalls tokens)) [] := by
  have h0 : Presented fresh tokens [] fresh :=
    ⟨0, Nat.zero_le _, rfl, Or.inr ⟨fun i hi => absurd hi (Nat.not_lt_zero i),
      List.not_mem_nil _, rfl, fun i => by
        rw [hq i, if_neg (fun h => List.not_mem_nil _ h.1)]⟩⟩
  obtain ⟨done, ⟨m, hm, hcore, hrest⟩, _, hall⟩ := presented_run fresh tokens hfresh hcap hne calls
    [] fresh h0 (fun d hd => absurd hd (List.not_mem_nil _))
    ((hperm.nodup_iff).mpr (nodup_inOrderCalls tokens))
    (fun c hc => by
      obtain ⟨i, hi, hce⟩ := (mem_inOrderCalls tokens c).mp ((hperm.mem_iff).mp hc)
      exact ⟨i, hi, List.not_mem_nil _, hce⟩)
  rw [runCalls_inOrderCalls tokens fresh hfresh hq, hcore]
  have hsplit : feed fresh 0 tokens =
      feed (feed fresh 0 (tokens.take m)) (0 + (tokens.take m).length) (tokens.drop m) := by
    rw [← feed_append, List.take_append_drop]
  rcases hrest with hfail | ⟨_, hmn, _, _⟩
  · have : (feed fresh 0 (tokens.take m)).PDAFailedInLastEvaluation = true := by
      rw [← (core_fields _ _ hcore).2.2.1]; exact hfail
    rw [hsplit, feed_of_failed _ _ _ this]
  · have hmeq : m = tokens.length := by
      by_contra hcon
      have hlt : m < tokens.length := lt_of_le_of_ne hm hcon
      exact hmn (hall m ((hperm.mem_iff).mpr
        ((mem_inOrderCalls tokens _).mpr ⟨m, hlt, rfl⟩)))
    rw [hmeq, List.take_length]

theorem reset_fresh (queueLength : Nat) (table : PDAProcessor) (isReset : Bool) :
    Aligned 0 (reset queueLength table isReset) ∧
      (∀ i, (reset queueLength table isReset).PendingTokenQueue.getD i "" = "") ∧
      (reset queueLength table isReset).PendingTokenQueue.length = queueLength ∧
      (reset queueLength table isReset).PDAFailedInLastEvaluation = false := by
  unfold reset
  simp only [Aligned, addTransitionIfRequired_EOSPresentedAtPosition,
    addTransitionIfRequired_LastConsumedPosition, addTransitionIfRequired_PendingTokenQueue,
    addTransitionIfRequired_PDAFailedInLastEvaluation, List.length_replicate, true_and,
    and_true, and_self, true_or, implies_true]
  intro i
  rw [List.getD_eq_getElem?_getD]
  by_cases h : i < queueLength
  · rw [List.getElem?_eq_getElem (by simpa using h)]
    simp
  · rw [List.getElem?_eq_none (by simpa using h)]
    rfl

theorem is_accepted_of_core (p q : PDAProcessor) (h : setQueue p [] = setQueue q []) :
    (is_accepted p).2 = (is_accepted q).2 := by
  obtain ⟨_, _, _, h4, h5, h6, h7⟩ := core_fields p q h
  unfold is_accepted
  simp only [h4, h5, h6, h7]

/-! ## Scenario A -/

/-- In a state with an empty queue, no end of stream declared and no failure,
`pushToQueue` at the next position is the initial `put(0, "")` when it applies followed
by `consumeToken(j, t, true)`: the pending-queue loop finds nothing. -/
theorem pushToQueue_clean (p : PDAProcessor) (j : Nat) (t : String)
    (ha : Aligned j p) (hf : p.PDAFailedInLastEvaluation = false)
    (hq : ∀ i, p.PendingTokenQueue.getD i "" = "") :
    pushToQueue p j t =
      consumeQueued
        (if (j : Int) = 0 ∧ p.LastConsumedPosition = -1 then (put p 0 "").1 else p) j t := by
  obtain ⟨he, hl⟩ := ha
  have hl := hl hf
  have h1 : ∀ p1, (if (j : Int) = 0 ∧ p.LastConsumedPosition = -1 then (put p 0 "").1
      else p) = p1 →
      p1.EOSPresentedAtPosition = -1 ∧ p1.PendingTokenQueue = p.PendingTokenQueue ∧
      ((j : Int) = 0 ∨ (j : Int) = p1.LastConsumedPosition) := by
    intro p1 hp1
    rw [← hp1]
    split
    · rename_i hc
      exact ⟨by simp [he], by simp, Or.inl hc.1⟩
    · rename_i hc
      refine ⟨he, rfl, ?_⟩
      rcases hl with h | h
      · exact Or.inl (by omega)
      · exact Or.inr h.2.symm
  have hpush : pushToQueue p j t =
      consumeToken (if (j : Int) = 0 ∧ p.LastConsumedPosition = -1 then (put p 0 "").1 else p)
        j t false := by
    unfold pushToQueue
    rw [if_neg (by simp [hf]), if_neg (by simp [he]),
      if_neg (show ¬ (j : Int) < p.LastConsumedPosition by rcases hl with h | h <;> omega)]
    simp only
    rw [if_pos (h1 _ rfl).2.2]
  rw [hpush]
  generalize hp1 : (if (j : Int) = 0 ∧ p.LastConsumedPosition = -1 then (put p 0 "").1
    else p) = p1
  have h1 := h1 p1 hp1
  rw [consumeQueued_noEos p1 j t h1.1]
  unfold consumeToken consumeTokenWith
  simp only
  by_cases hput : (put p1 (j + 1) t).2 = ""
  · simp only [hput, if_true]
  · simp only [hput, if_false]
    rw [if_neg (by simp [h1.1])]
    simp only [Bool.not_false, if_true]
    exact drainLoop_of_empty _ _ _ _ _ (by
      intro i
      rw [addTransitionIfRequired_PendingTokenQueue, put_PendingTokenQueue, h1.2.1]
      exact hq i)

theorem consumed_fields (p : PDAProcessor) (position : Int) (r : Transition) (s : String) :
    (addTransitionIfRequired (takeTransition (refreshStackTop p) position r) s).Transitions =
        p.Transitions ∧
      (addTransitionIfRequired (takeTransition (refreshStackTop p) position r) s).Eos = p.Eos ∧
      (addTransitionIfRequired (takeTransition (refreshStackTop p) position r) s).AcceptingStates
        = p.AcceptingStates ∧
      (addTransitionIfRequired (takeTransition (refreshStackTop p) position r)
        s).EOSPresentedAtPosition = p.EOSPresentedAtPosition ∧
      (addTransitionIfRequired (takeTransition (refreshStackTop p) position r)
        s).PDAFailedInLastEvaluation = p.PDAFailedInLastEvaluation ∧
      (addTransitionIfRequired (takeTransition (refreshStackTop p) position r)
        s).PendingTokenQueue = p.PendingTokenQueue ∧
      (addTransitionIfRequired (takeTransition (refreshStackTop p) position r) s).CurrentState
        = r.nextState ∧
      (addTransitionIfRequired (takeTransition (refreshStackTop p) position r) s).Stack =
        (if r.elementToPush = "" then p.Stack.dropLast else p.Stack ++ [r.elementToPush]) ∧
      (addTransitionIfRequired (takeTransition (refreshStackTop p) position r)
        s).LastConsumedPosition = position := by
  simp only [addTransitionIfRequired, takeTransition, pushOrPopIfRequired, popFromStack,
    pushToStack, refreshStackTop]
  cases hs : p.Stack.getLast? with
  | none =>
    have hnil := List.getLast?_eq_none_iff.mp hs
    by_cases h : r.elementToPush = "" <;> by_cases h2 : s = "" <;> simp [h, h2, hnil]
  | some top =>
    by_cases h : r.elementToPush = "" <;> by_cases h2 : s = "" <;> simp [h, h2, hs]

theorem consumeQueued_of_find (p : PDAProcessor) (position : Int) (token : String)
    (r : Transition) (he : p.EOSPresentedAtPosition = -1)
    (hfind : p.Transitions.find? (ruleMatches p.CurrentState (examinedTop p) p.Eos token)
      = some r)
    (hns : r.nextState ≠ "") :
    consumeQueued p position token =
      (addTransitionIfRequired (takeTransition (refreshStackTop p) (position + 1) r)
        r.nextState, Result.ok r.nextState) := by
  rw [consumeQueued_noEos p position token he, put_eq_find, hfind]
  simp only
  rw [if_neg hns]

theorem examinedTop_replicate (p : PDAProcessor) (k : Nat) (s : String)
    (h : p.Stack = List.replicate (k + 1) s) : examinedTop p = s := by
  have : p.Stack.getLast? = some s := by
    rw [h, List.getLast?_eq_getLast _ (by simp)]
    simp
  simp [examinedTop, refreshStackTop, this]

theorem examinedTop_nil (p : PDAProcessor) (h : p.Stack = []) :
    examinedTop p = p.CurrentStackTop := by
  simp [examinedTop, refreshStackTop, h]

theorem scenario_consume (p : PDAProcessor) (position : Int) (token top cur : String)
    (r : Transition) (hb : ScenarioBase p) (hcur : p.CurrentState = cur)
    (htop : examinedTop p = top)
    (hfind : scenarioTable.Transitions.find? (ruleMatches cur top "$" token) = some r)
    (hns : r.nextState ≠ "") :
    (consumeQueued p position token).2 = Result.ok r.nextState ∧
      ScenarioBase (consumeQueued p position token).1 ∧
      (consumeQueued p position token).1.CurrentState = r.nextState ∧
      (consumeQueued p position token).1.Stack =
        (if r.elementToPush = "" then p.Stack.dropLast else p.Stack ++ [r.elementToPush]) ∧
      (consumeQueued p position token).1.LastConsumedPosition = position + 1 := by
  obtain ⟨b1, b2, b3, b4, b5, b6⟩ := hb
  have hf : p.Transitions.find? (ruleMatches p.CurrentState (examinedTop p) p.Eos token)
      = some r := by
    rw [b1, hcur, htop, b2]; exact hfind
  rw [consumeQueued_of_find p position token r b4 hf hns]
  obtain ⟨c1, c2, c3, c4, c5, c6, c7, c8, c9⟩ :=
    consumed_fields p (position + 1) r r.nextState
  exact ⟨rfl, ⟨c1.trans b1, c2.trans b2, c3.trans b3, c4.trans b4, c5.trans b5,
    fun i => by rw [c6]; exact b6 i⟩, c7, c8, c9⟩

theorem phaseA_aligned (k : Nat) (p : PDAProcessor) (h : PhaseA k p) : Aligned k p := by
  obtain ⟨⟨_, _, _, b4, _, _⟩, _, _, h0, h1⟩ := h
  refine ⟨b4, fun _ => ?_⟩
  rcases Nat.eq_zero_or_pos k with hk | hk
  · exact Or.inl ⟨hk, (h0 hk).2⟩
  · exact Or.inr ⟨hk, h1 hk⟩

theorem phaseA_bootstrap (p : PDAProcessor) (h : PhaseA 0 p) : (put p 0 "").1 = p := by
  obtain ⟨⟨b1, b2, _, _, _, _⟩, hcur, hst, h0, _⟩ := h
  have hnil : p.Stack = [] := by simpa using hst
  have htop : examinedTop p = "" := by rw [examinedTop_nil p hnil]; exact (h0 rfl).1
  have hf : p.Transitions.find? (ruleMatches p.CurrentState (examinedTop p) p.Eos "")
      = none := by
    rw [b1, hcur, htop, b2]; decide
  rw [put_eq_find, hf]
  simp [refreshStackTop, hnil]

/-- One more `a` in Scenario A. -/
theorem phaseA_step (k : Nat) (p : PDAProcessor) (h : PhaseA k p) :
    (pushToQueue p k "a").2 = Result.ok "q0" ∧ PhaseA (k + 1) (pushToQueue p k "a").1 := by
  have hal := phaseA_aligned k p h
  have hboot : (if (k : Int) = 0 ∧ p.LastConsumedPosition = -1 then (put p 0 "").1 else p)
      = p := by
    split
    · rename_i hc
      have hk : k = 0 := by omega
      subst hk
      exact phaseA_bootstrap p h
    · rfl
  obtain ⟨hb, hcur, hst, h0, _⟩ := h
  rw [pushToQueue_clean p k "a" hal hb.2.2.2.2.1 hb.2.2.2.2.2, hboot]
  have htop : examinedTop p = (if k = 0 then "" else "a") := by
    rcases Nat.eq_zero_or_pos k with hk | hk
    · rw [if_pos hk, examinedTop_nil p (by simpa [hk] using hst)]
      exact (h0 hk).1
    · rw [if_neg (by omega)]
      obtain ⟨k', rfl⟩ : ∃ k', k = k' + 1 := ⟨k - 1, by omega⟩
      exact examinedTop_replicate p k' "a" hst
  obtain ⟨c1, c2, c3, c4, c5⟩ := scenario_consume p k "a" (if k = 0 then "" else "a") "q0"
    ⟨"q0", "a", "", "q0", "a"⟩ hb hcur htop (by split <;> decide) (by decide)
  refine ⟨c1, c2, c3, ?_, fun hk => absurd hk (by omega), fun _ => ?_⟩
  · rw [c4, hst]
    simp [List.replicate_succ']
  · rw [c5]; push_cast; rfl

/-- The first `b` of Scenario A, after `n ≥ 1` tokens `a`. -/
theorem phaseA_to_phaseB (n : Nat) (p : PDAProcessor) (hn : 1 ≤ n) (h : PhaseA n p) :
    (pushToQueue p n "b").2 = Result.ok "q1" ∧ PhaseB n 1 (pushToQueue p n "b").1 := by
  have hal := phaseA_aligned n p h
  obtain ⟨hb, hcur, hst, _, _⟩ := h
  rw [pushToQueue_clean p n "b" hal hb.2.2.2.2.1 hb.2.2.2.2.2, if_neg (by omega)]
  obtain ⟨n', rfl⟩ : ∃ n', n = n' + 1 := ⟨n - 1, by omega⟩
  obtain ⟨c1, c2, c3, c4, c5⟩ := scenario_consume p (n' + 1 : Nat) "b" "a" "q0"
    ⟨"q0", "b", "a", "q1", ""⟩ hb hcur (examinedTop_replicate p n' "a" hst) (by decide)
    (by decide)
  refine ⟨c1, c2, c3, ?_, ?_⟩
  · rw [c4, hst]
    simp [List.replicate_succ']
  · rw [c5]; push_cast; rfl

/-- One more `b` in Scenario A, while symbols `a` remain on the stack. -/
theorem phaseB_step (n j : Nat) (p : PDAProcessor) (hj : j < n) (h : PhaseB n j p) :
    (pushToQueue p ((n + j : Nat) : Int) "b").2 = Result.ok "q1" ∧
      PhaseB n (j + 1) (pushToQueue p ((n + j : Nat) : Int) "b").1 := by
  obtain ⟨hb, hcur, hst, hl⟩ := h
  have hal : Aligned (n + j) p := ⟨hb.2.2.2.1, fun _ => Or.inr ⟨by omega, hl⟩⟩
  rw [pushToQueue_clean p (n + j) "b" hal hb.2.2.2.2.1 hb.2.2.2.2.2, if_neg (by omega)]
  obtain ⟨d, hd⟩ : ∃ d, n - j = d + 1 := ⟨n - j - 1, by omega⟩
  rw [hd] at hst
  obtain ⟨c1, c2, c3, c4, c5⟩ := scenario_consume p ((n + j : Nat) : Int) "b" "a" "q1"
    ⟨"q1", "b", "a", "q1", ""⟩ hb hcur (examinedTop_replicate p d "a" hst) (by decide)
    (by decide)
  refine ⟨c1, c2, c3, ?_, ?_⟩
  · rw [c4, hst]
    have : n - (j + 1) = d := by omega
    simp [List.replicate_succ', this]
  · rw [c5]; push_cast; omega

theorem allCallsSucceed_append (xs ys : List Call) (p : PDAProcessor) :
    allCallsSucceed p (xs ++ ys) =
      (allCallsSucceed p xs && allCallsSucceed (runCalls p xs) ys) := by
  induction xs generalizing p with
  | nil => simp [allCallsSucceed, runCalls]
  | cons c cs ih =>
    rw [List.cons_append]
    simp only [allCallsSucceed, runCalls_cons]
    rw [ih, Bool.and_assoc]

theorem callsFrom_cons (j : Nat) (t : String) (ts : List String) :
    callsFrom j (t :: ts) = Call.token (j : Int) t :: callsFrom (j + 1) ts := rfl

theorem phaseA_run (k : Nat) : ∀ (j : Nat) (p : PDAProcessor), PhaseA j p →
    allCallsSucceed p (callsFrom j (List.replicate k "a")) = true ∧
      PhaseA (j + k) (runCalls p (callsFrom j (List.replicate k "a"))) := by
  induction k with
  | zero => intro j p h; exact ⟨rfl, h⟩
  | succ k ih =>
    intro j p h
    obtain ⟨s1, s2⟩ := phaseA_step j p h
    obtain ⟨i1, i2⟩ := ih (j + 1) _ s2
    rw [List.replicate_succ, callsFrom_cons, runCalls_cons]
    simp only [allCallsSucceed, callSucceeds, applyCall, s1, Bool.true_and]
    refine ⟨i1, ?_⟩
    have e : j + (k + 1) = j + 1 + k := by omega
    rw [e]; exact i2

theorem phaseB_run (n k : Nat) : ∀ (j : Nat) (p : PDAProcessor), PhaseB n j p → j + k ≤ n →
    allCallsSucceed p (callsFrom (n + j) (List.replicate k "b")) = true ∧
      PhaseB n (j + k) (runCalls p (callsFrom (n + j) (List.replicate k "b"))) := by
  induction k with
  | zero => intro j p h _; exact ⟨rfl, h⟩
  | succ k ih =>
    intro j p h hle
    obtain ⟨s1, s2⟩ := phaseB_step n j p (by omega) h
    obtain ⟨i1, i2⟩ := ih (j + 1) _ s2 (by omega)
    rw [List.replicate_succ, callsFrom_cons, runCalls_cons]
    simp only [allCallsSucceed, callSucceeds, applyCall, s1, Bool.true_and]
    have e : j + (k + 1) = j + 1 + k := by omega
    have e2 : n + j + 1 = n + (j + 1) := by omega
    rw [e, e2]
    exact ⟨i1, i2⟩

theorem reset_phaseA (queueLength : Nat) (isReset : Bool) :
    PhaseA 0 (reset queueLength scenarioTable isReset) := by
  obtain ⟨f1, f2, _, f4⟩ := reset_fresh queueLength scenarioTable isReset
  refine ⟨⟨?_, ?_, ?_, f1.1, f4, f2⟩, ?_, ?_, fun _ => ⟨?_, ?_⟩, fun h => absurd h (by omega)⟩
  all_goals (unfold reset; rw [addTransitionIfRequired_frame]) <;> try rfl

theorem inOrderCalls_append (xs ys : List String) :
    inOrderCalls (xs ++ ys) = callsFrom 0 xs ++ callsFrom xs.length ys := by
  unfold inOrderCalls callsFrom
  rw [List.enum_eq_enumFrom, List.enumFrom_append, List.map_append, Nat.zero_add]

/-! ## End of stream and occupied slots -/

theorem reachedEOS_EOSPresentedAtPosition (p : PDAProcessor) :
    (reachedEOS p).1.EOSPresentedAtPosition = p.EOSPresentedAtPosition := by
  unfold reachedEOS
  cases eos p with
  | none => rfl
  | some b =>
    cases b with
    | false => rfl
    | true =>
      simp only
      split <;> simp

theorem consumeQueued_PendingTokenQueue (p : PDAProcessor) (position : Int)
    (token : String) :
    (consumeQueued p position token).1.PendingTokenQueue = p.PendingTokenQueue := by
  unfold consumeQueued consumeTokenWith
  simp only
  split
  · simp
  · split
    · have hr := (reachedEOS_frontier
        (addTransitionIfRequired (put p (position + 1) token).1
          (put p (position + 1) token).2)).2.2
      simp only [addTransitionIfRequired_PendingTokenQueue, put_PendingTokenQueue] at hr
      split <;> rename_i heq <;> rw [heq] at hr <;> exact hr
    · simp

/-- The pending-queue loop writes only to slots past the consumed position. -/
theorem drainLoop_slot_le (position : Int) (transitionTaken : String) (i : Nat)
    (hi : (i : Int) ≤ position) :
    ∀ (remaining index : Nat) (p : PDAProcessor),
      (drainLoop position transitionTaken remaining index p).1.PendingTokenQueue.getD i "" =
        p.PendingTokenQueue.getD i "" := by
  intro remaining
  induction remaining with
  | zero => intro index p; rfl
  | succ n ih =>
    intro index p
    rw [drainLoop]
    by_cases hidx : (index : Int) > position
    · rw [if_pos hidx]
      by_cases ht : p.PendingTokenQueue.getD index "" ≠ ""
      · rw [if_pos ht]
        have hq := consumeQueued_PendingTokenQueue p index (p.PendingTokenQueue.getD index "")
        split
        · rename_i p1 v heq
          rw [heq] at hq
          simp only at hq
          rw [ih]
          simp only
          rw [hq, List.getD_eq_getElem?_getD, List.getElem?_set_ne (by omega),
            ← List.getD_eq_getElem?_getD]
        · rename_i p1 s e heq
          rw [heq] at hq
          simp only at hq
          simp only [hq]
        · rename_i p1 heq
          rw [heq] at hq
          simp only at hq
          simp only [hq]
      · rw [if_neg ht]
    · rw [if_neg hidx]
      exact ih (index + 1) p

theorem consumeToken_slot_le (p : PDAProcessor) (position : Int) (token : String)
    (flag : Bool) (i : Nat) (hi : (i : Int) ≤ position) :
    (consumeToken p position token flag).1.PendingTokenQueue.getD i "" =
      p.PendingTokenQueue.getD i "" := by
  unfold consumeToken consumeTokenWith
  simp only
  split
  · simp
  · split
    · have hr := (reachedEOS_frontier
        (addTransitionIfRequired (put p (position + 1) token).1
          (put p (position + 1) token).2)).2.2
      simp only [addTransitionIfRequired_PendingTokenQueue, put_PendingTokenQueue] at hr
      split <;> rename_i heq <;> rw [heq] at hr <;> simp only at hr ⊢ <;> rw [hr]
    · split
      · rw [drainLoop_slot_le position _ i hi]
        simp
      · simp

/-- Whatever `pushToQueue(position, token)` does, it leaves an occupied slot at
`position` as it is. -/
theorem pushToQueue_slot_kept (p : PDAProcessor) (position : Int) (token : String)
    (hpos : 0 ≤ position)
    (hocc : p.PendingTokenQueue.getD position.toNat "" ≠ "") :
    (pushToQueue p position token).1.PendingTokenQueue.getD position.toNat "" =
      p.PendingTokenQueue.getD position.toNat "" := by
  unfold pushToQueue
  split
  · rfl
  · split
    · rfl
    · split
      · rfl
      · simp only
        have hq : (if position = 0 ∧ p.LastConsumedPosition = -1 then (put p 0 "").1
            else p).PendingTokenQueue = p.PendingTokenQueue := by
          split <;> simp
        generalize (if position = 0 ∧ p.LastConsumedPosition = -1 then (put p 0 "").1
          else p) = p1 at hq
        split
        · rw [consumeToken_slot_le p1 position token false position.toNat (by omega), hq]
        · split
          · rw [hq, if_neg hocc, hq]
          · rw [hq]

theorem presentEOS_ahead (p : PDAProcessor) (position : Int)
    (hfailed : p.PDAFailedInLastEvaluation = false)
    (hahead : p.LastConsumedPosition - 1 < position) :
    presentEOS p position = ({ p with EOSPresentedAtPosition := position }, Result.ok ()) := by
  unfold presentEOS
  rw [if_neg (by simp [hfailed]), if_neg (by omega)]
  simp only
  rw [if_neg (by omega)]

theorem presentEOS_at_frontier (p : PDAProcessor) (position : Int)
    (hfailed : p.PDAFailedInLastEvaluation = false)
    (hat : position = p.LastConsumedPosition - 1) :
    presentEOS p position =
      match reachedEOS { p with EOSPresentedAtPosition := position } with
      | (p2, Result.ok _) => (p2, Result.ok ())
      | (p2, Result.fail _ e) => (p2, Result.fail () e)
      | (p2, Result.panic) => (p2, Result.panic) := by
  unfold presentEOS
  rw [if_neg (by simp [hfailed]), if_neg (by omega)]
  simp only
  rw [if_pos hat]

theorem presentEOS_sets_position (p : PDAProcessor) (position : Int)
    (hfailed : p.PDAFailedInLastEvaluation = false)
    (hnotBehind : ¬ position < p.LastConsumedPosition - 1) :
    (presentEOS p position).1.EOSPresentedAtPosition = position := by
  by_cases hat : position = p.LastConsumedPosition - 1
  · rw [presentEOS_at_frontier p position hfailed hat]
    have h := reachedEOS_EOSPresentedAtPosition { p with EOSPresentedAtPosition := position }
    split <;> rename_i heq <;> rw [heq] at h <;> exact h
  · rw [presentEOS_ahead p position hfailed (by omega)]

theorem reachedEOS_never_behind (p : PDAProcessor) (v : String) :
    (reachedEOS p).2 ≠ Result.fail v PDAError.eosBehindConsumed := by
  unfold reachedEOS
  cases eos p with
  | none => simp
  | some b =>
    cases b with
    | false => simp
    | true =>
      simp only
      split <;> simp

/-! ## The pending-queue loop, slot by slot -/

theorem clearSlots_length (k : Nat) : ∀ (queue : List String) (index : Nat),
    (clearSlots queue index k).length = queue.length := by
  induction k with
  | zero => intro queue index; rfl
  | succ k ih =>
    intro queue index
    rw [clearSlots, ih, List.length_set]

theorem clearSlots_getD (k : Nat) : ∀ (queue : List String) (index i : Nat),
    (clearSlots queue index k).getD i "" =
      if index ≤ i ∧ i < index + k then "" else queue.getD i "" := by
  induction k with
  | zero =>
    intro queue index i
    rw [clearSlots, if_neg (by omega)]
  | succ k ih =>
    intro queue index i
    rw [clearSlots, ih]
    by_cases hi : i = index
    · subst hi
      rw [if_neg (by omega), if_pos (by omega), List.getD_eq_getElem?_getD]
      by_cases hlt : i < queue.length
      · rw [List.getElem?_set_self hlt]; rfl
      · rw [List.getElem?_eq_none (by simpa using hlt)]; rfl
    · rw [List.getD_eq_getElem?_getD, List.getElem?_set_ne (Ne.symm hi),
        ← List.getD_eq_getElem?_getD]
      by_cases hc : index + 1 ≤ i ∧ i < index + 1 + k
      · rw [if_pos hc, if_pos (by omega)]
      · rw [if_neg hc, if_neg (by omega)]

theorem consumeAll_setQueue (run : List String) :
    ∀ (p : PDAProcessor) (queue : List String) (j : Nat),
      consumeAll (setQueue p queue) j run =
        (consumeAll p j run).map (fun F => setQueue F queue) := by
  induction run with
  | nil => intro p queue j; rfl
  | cons t ts ih =>
    intro p queue j
    simp only [consumeAll]
    rw [consumeQueued_setQueue]
    rcases hc : consumeQueued p j t with ⟨p1, res⟩
    cases res with
    | ok v => exact ih p1 queue (j + 1)
    | fail s e => rfl
    | panic => rfl

theorem consumeAll_PendingTokenQueue (run : List String) :
    ∀ (p F : PDAProcessor) (j : Nat), consumeAll p j run = some F →
      F.PendingTokenQueue = p.PendingTokenQueue := by
  induction run with
  | nil =>
    intro p F j h
    simp only [consumeAll, Option.some.injEq] at h
    rw [h]
  | cons t ts ih =>
    intro p F j h
    simp only [consumeAll] at h
    have hq := consumeQueued_PendingTokenQueue p j t
    rcases hc : consumeQueued p j t with ⟨p1, res⟩
    rw [hc] at h hq
    cases res with
    | ok v => exact (ih p1 F (j + 1) h).trans hq
    | fail s e => simp at h
    | panic => simp at h

/-- The pending-queue loop over slots that hold the tokens `run`, none empty, each
consumed without error: the loop goes on from the slot after them, in the record these
tokens lead to, with their slots emptied. -/
theorem drainLoop_consumeAll (position : Int) (transitionTaken : String)
    (run : List String) :
    ∀ (remaining index : Nat) (p F : PDAProcessor),
      position < (index : Int) →
      index + remaining = p.PendingTokenQueue.length →
      (∀ x, x < run.length → p.PendingTokenQueue.getD (index + x) "" = run.getD x "") →
      (∀ u ∈ run, u ≠ "") →
      consumeAll p index run = some F →
      drainLoop position transitionTaken remaining index p =
        drainLoop position transitionTaken (remaining - run.length) (index + run.length)
          (setQueue F (clearSlots p.PendingTokenQueue index run.length)) := by
  induction run with
  | nil =>
    intro remaining index p F _ _ _ _ hall
    simp only [consumeAll, Option.some.injEq] at hall
    rw [← hall]
    rfl
  | cons t run ih =>
    intro remaining index p F hpos hlen hrun hne hall
    have ht : p.PendingTokenQueue.getD index "" = t := by simpa using hrun 0 (by simp)
    have htne : t ≠ "" := hne t (List.mem_cons_self t run)
    have hlt : index < p.PendingTokenQueue.length := by
      by_contra hcon
      rw [List.getD_eq_default _ _ (not_lt.mp hcon)] at ht
      exact htne ht.symm
    obtain ⟨n, rfl⟩ : ∃ n, remaining = n + 1 := ⟨remaining - 1, by omega⟩
    rw [drainLoop, if_pos hpos, ht, if_pos htne]
    simp only [consumeAll] at hall
    have hq := consumeQueued_PendingTokenQueue p index t
    rcases hc : consumeQueued p index t with ⟨p1, res⟩
    rw [hc] at hall hq
    simp only at hq
    cases res with
    | fail s e => simp at hall
    | panic => simp at hall
    | ok v =>
      simp only at hall ⊢
      have hset : ({ p1 with PendingTokenQueue := p1.PendingTokenQueue.set index "" }
          : PDAProcessor) = setQueue p1 (p.PendingTokenQueue.set index "") := by
        simp [setQueue, hq]
      rw [hset]
      have hih := ih n (index + 1) (setQueue p1 (p.PendingTokenQueue.set index ""))
        (setQueue F (p.PendingTokenQueue.set index ""))
        (by push_cast; omega)
        (by simp only [setQueue_PendingTokenQueue, List.length_set]; omega)
        (fun x hx => by
          have := hrun (x + 1) (by simp; omega)
          simp only [setQueue_PendingTokenQueue]
          rw [List.getD_eq_getElem?_getD, List.getElem?_set_ne (by omega),
            ← List.getD_eq_getElem?_getD]
          have e : index + 1 + x = index + (x + 1) := by omega
          rw [e, this]
          simp)
        (fun u hu => hne u (List.mem_cons_of_mem t hu))
        (by rw [consumeAll_setQueue, hall]; rfl)
      rw [hih]
      simp only [setQueue_PendingTokenQueue, setQueue_setQueue, List.length_cons, clearSlots]
      have e1 : n + 1 - (run.length + 1) = n - run.length := by omega
      have e2 : index + (run.length + 1) = index + 1 + run.length := by omega
      rw [e1, e2]

theorem drainLoop_at_gap (position : Int) (transitionTaken : String) (remaining index : Nat)
    (p : PDAProcessor) (hpos : position < (index : Int))
    (hgap : p.PendingTokenQueue.getD index "" = "") :
    drainLoop position transitionTaken remaining index p = (p, Result.ok transitionTaken) := by
  cases remaining with
  | zero => rfl
  | succ n => rw [drainLoop, if_pos hpos, if_neg (not_not.mpr hgap)]

theorem drainLoop_at_failure (position : Int) (transitionTaken : String)
    (remaining index : Nat) (p p1 : PDAProcessor) (s : String) (e : PDAError)
    (hpos : position < (index : Int))
    (hlen : index + remaining = p.PendingTokenQueue.length)
    (hocc : p.PendingTokenQueue.getD index "" ≠ "")
    (hfail : consumeQueued p index (p.PendingTokenQueue.getD index "") =
      (p1, Result.fail s e)) :
    drainLoop position transitionTaken remaining index p =
      (p1, Result.fail transitionTaken e) := by
  have hlt : index < p.PendingTokenQueue.length := by
    by_contra hcon
    exact hocc (List.getD_eq_default _ _ (not_lt.mp hcon))
  obtain ⟨n, rfl⟩ : ∃ n, remaining = n + 1 := ⟨remaining - 1, by omega⟩
  rw [drainLoop, if_pos hpos, if_pos hocc, hfail]

/-- The loop started at index 0 does nothing up to the consumed position. -/
theorem drainLoop_from_zero (position : Nat) (transitionTaken : String) (p : PDAProcessor) :
    drainLoop (position : Int) transitionTaken p.PendingTokenQueue.length 0 p =
      drainLoop (position : Int) transitionTaken (p.PendingTokenQueue.length - (position + 1))
        (position + 1) p := by
  by_cases h : position + 1 ≤ p.PendingTokenQueue.length
  · have e : p.PendingTokenQueue.length =
        (position + 1) + (p.PendingTokenQueue.length - (position + 1)) := by omega
    conv_lhs => rw [e]
    exact drainLoop_skip_zero (position : Int) transitionTaken (position + 1) _ p
      (by push_cast; omega)
  · have e : p.PendingTokenQueue.length - (position + 1) = 0 := by omega
    rw [e, drainLoop_skip_all (position : Int) transitionTaken _ 0 p (by push_cast; omega)]
    rfl

/-! ## A token that is consumed at once -/

theorem pushToQueue_consumable (p : PDAProcessor) (position : Int) (token : String)
    (hfailed : p.PDAFailedInLastEvaluation = false)
    (hnotPastEos : ¬ (p.EOSPresentedAtPosition ≠ -1 ∧ p.EOSPresentedAtPosition < position))
    (hnotBehind : ¬ position < p.LastConsumedPosition)
    (hconsumable : position = 0 ∨ position = p.LastConsumedPosition) :
    pushToQueue p position token = consumeToken (bootstrap p position) position token false := by
  unfold pushToQueue bootstrap
  rw [if_neg (by simp [hfailed]), if_neg hnotPastEos, if_neg hnotBehind]
  simp only
  rw [if_pos]
  split
  · rename_i hc
    exact Or.inl hc.1
  · exact hconsumable

theorem bootstrap_frame (p : PDAProcessor) (position : Int) :
    (bootstrap p position).PendingTokenQueue = p.PendingTokenQueue ∧
      (bootstrap p position).EOSPresentedAtPosition = p.EOSPresentedAtPosition ∧
      (bootstrap p position).PDAFailedInLastEvaluation = p.PDAFailedInLastEvaluation := by
  unfold bootstrap
  split <;> simp

theorem pushStep_eq_bootstrap (p : PDAProcessor) (j : Nat) (t : String) :
    pushStep p j t = (consumeQueued (bootstrap p j) j t).1 := rfl

theorem put_of_no_match (p : PDAProcessor) (position : Int) (token : String)
    (hnone : ∀ x ∈ p.Transitions,
      ruleMatches p.CurrentState (examinedTop p) p.Eos token x = false) :
    put p position token = (refreshStackTop p, "") := by
  have hf : p.Transitions.find? (ruleMatches p.CurrentState (examinedTop p) p.Eos token) = none :=
    List.find?_eq_none.mpr (fun x hx => by simp [hnone x hx])
  rw [put_eq_find, hf]

theorem consumeToken_no_transition (p : PDAProcessor) (position : Int) (token : String)
    (flag : Bool) (h : (put p (position + 1) token).2 = "") :
    consumeToken p position token flag =
      ({ (put p (position + 1) token).1 with PDAFailedInLastEvaluation := true },
        Result.fail "" (PDAError.noTransition token position)) := by
  unfold consumeToken consumeTokenWith
  simp only
  rw [if_pos h]

theorem consumeQueued_no_transition (p : PDAProcessor) (position : Int) (token : String)
    (h : (put p (position + 1) token).2 = "") :
    consumeQueued p position token =
      ({ (put p (position + 1) token).1 with PDAFailedInLastEvaluation := true },
        Result.fail "" (PDAError.noTransition token position)) := by
  unfold consumeQueued consumeTokenWith
  simp only
  rw [if_pos h]

theorem consumeQueued_no_reconcile (p : PDAProcessor) (position : Int) (token : String)
    (hput : (put p (position + 1) token).2 ≠ "")
    (he : ¬ (p.EOSPresentedAtPosition ≠ -1 ∧ p.EOSPresentedAtPosition = position)) :
    consumeQueued p position token =
      (addTransitionIfRequired (put p (position + 1) token).1 (put p (position + 1) token).2,
        Result.ok (put p (position + 1) token).2) := by
  unfold consumeQueued consumeTokenWith
  simp only
  rw [if_neg hput, if_neg (by simpa using he)]

theorem consumeToken_drains (p : PDAProcessor) (position : Int) (token : String)
    (hput : (put p (position + 1) token).2 ≠ "")
    (he : ¬ (p.EOSPresentedAtPosition ≠ -1 ∧ p.EOSPresentedAtPosition = position)) :
    consumeToken p position token false =
      drainLoop position (put p (position + 1) token).2 p.PendingTokenQueue.length 0
        (consumeQueued p position token).1 := by
  rw [consumeQueued_no_reconcile p position token hput he]
  unfold consumeToken consumeTokenWith
  simp only
  rw [if_neg hput, if_neg (by simpa using he)]
  simp

theorem consumeAll_noEos (run : List String) :
    ∀ (p F : PDAProcessor) (j : Nat), consumeAll p j run = some F →
      p.EOSPresentedAtPosition = -1 → p.PDAFailedInLastEvaluation = false →
      p.LastConsumedPosition = (j : Int) →
      F.EOSPresentedAtPosition = -1 ∧ F.PDAFailedInLastEvaluation = false ∧
        F.LastConsumedPosition = ((j + run.length : Nat) : Int) := by
  induction run with
  | nil =>
    intro p F j h he hf hl
    simp only [consumeAll, Option.some.injEq] at h
    rw [← h]
    exact ⟨he, hf, by simpa using hl⟩
  | cons t ts ih =>
    intro p F j h he hf hl
    simp only [consumeAll] at h
    rw [consumeQueued_noEos p j t he] at h
    by_cases hput : (put p ((j : Int) + 1) t).2 = ""
    · rw [if_pos hput] at h
      simp at h
    · rw [if_neg hput] at h
      simp only at h
      obtain ⟨i1, i2, i3⟩ := ih _ F (j + 1) h (by simp [he]) (by simp [hf])
        (by
          rw [addTransitionIfRequired_LastConsumedPosition,
            put_LastConsumedPosition_of_ne p _ t hput]
          push_cast; rfl)
      refine ⟨i1, i2, ?_⟩
      rw [i3]
      simp only [List.length_cons]
      push_cast
      omega

/-- A token consumed at once, with the tokens `run` stored in the slots that follow and
all consumed without error: the call ends as the pending-queue loop does from the slot
after `run`, in the record these tokens lead to, with their slots emptied. -/
theorem pushToQueue_drain (p : PDAProcessor) (pos : Nat) (t : String) (run : List String)
    (F : PDAProcessor)
    (hfailed : p.PDAFailedInLastEvaluation = false)
    (hnotPastEos : ¬ (p.EOSPresentedAtPosition ≠ -1 ∧ p.EOSPresentedAtPosition < (pos : Int)))
    (hnotBehind : ¬ (pos : Int) < p.LastConsumedPosition)
    (hconsumable : (pos : Int) = 0 ∨ (pos : Int) = p.LastConsumedPosition)
    (hfirst : (put (bootstrap p pos) ((pos : Int) + 1) t).2 ≠ "")
    (hnotEosHere :
      ¬ (p.EOSPresentedAtPosition ≠ -1 ∧ p.EOSPresentedAtPosition = (pos : Int)))
    (hslots : ∀ x, x < run.length →
      p.PendingTokenQueue.getD (pos + 1 + x) "" = run.getD x "")
    (hne : ∀ u ∈ run, u ≠ "")
    (hall : consumeAll (pushStep p pos t) (pos + 1) run = some F) :
    pushToQueue p pos t =
      drainLoop (pos : Int) (put (bootstrap p pos) ((pos : Int) + 1) t).2
        (p.PendingTokenQueue.length - (pos + 1) - run.length) (pos + 1 + run.length)
        (setQueue F (clearSlots p.PendingTokenQueue (pos + 1) run.length)) := by
  obtain ⟨b1, b2, _⟩ := bootstrap_frame p pos
  have hPq : (pushStep p pos t).PendingTokenQueue = p.PendingTokenQueue := by
    rw [pushStep_eq_bootstrap, consumeQueued_PendingTokenQueue, b1]
  rw [pushToQueue_consumable p pos t hfailed hnotPastEos hnotBehind hconsumable,
    consumeToken_drains (bootstrap p pos) pos t hfirst (by rw [b2]; exact hnotEosHere),
    ← pushStep_eq_bootstrap, b1, ← hPq, drainLoop_from_zero pos _ (pushStep p pos t)]
  cases run with
  | nil =>
    simp only [consumeAll, Option.some.injEq] at hall
    rw [← hall]
    rfl
  | cons u us =>
    have hu : p.PendingTokenQueue.getD (pos + 1) "" = u := by
      simpa using hslots 0 (by simp)
    have hlt : pos + 1 < p.PendingTokenQueue.length := by
      by_contra hcon
      rw [List.getD_eq_default _ _ (not_lt.mp hcon)] at hu
      exact hne u (List.mem_cons_self u us) hu.symm
    rw [drainLoop_consumeAll (pos : Int) _ (u :: us) _ (pos + 1) (pushStep p pos t) F
      (by push_cast; omega) (by rw [hPq]; omega) (by rw [hPq]; exact hslots) hne hall]

theorem pushStep_of_success (p : PDAProcessor) (pos : Nat) (t : String)
    (hfirst : (put (bootstrap p pos) ((pos : Int) + 1) t).2 ≠ "")
    (hnotEosHere :
      ¬ (p.EOSPresentedAtPosition ≠ -1 ∧ p.EOSPresentedAtPosition = (pos : Int))) :
    (pushStep p pos t).LastConsumedPosition = ((pos + 1 : Nat) : Int) ∧
      (pushStep p pos t).EOSPresentedAtPosition = p.EOSPresentedAtPosition ∧
      (pushStep p pos t).PDAFailedInLastEvaluation = p.PDAFailedInLastEvaluation := by
  obtain ⟨_, b2, b3⟩ := bootstrap_frame p pos
  rw [pushStep_eq_bootstrap,
    consumeQueued_no_reconcile (bootstrap p pos) pos t hfirst (by rw [b2]; exact hnotEosHere)]
  refine ⟨?_, by simp [b2], by simp [b3]⟩
  simp only [addTransitionIfRequired_LastConsumedPosition]
  rw [put_LastConsumedPosition_of_ne _ _ t hfirst]
  push_cast; rfl

theorem refreshStackTop_state (p : PDAProcessor) :
    (refreshStackTop p).CurrentState = p.CurrentState ∧
      (refreshStackTop p).Stack = p.Stack := by
  unfold refreshStackTop; split <;> simp

/-- A consumable token with no matching row: the call fails at once, before the
pending-queue loop. -/
theorem pushToQueue_first_fails (p : PDAProcessor) (pos : Nat) (t : String)
    (hfailed : p.PDAFailedInLastEvaluation = false)
    (hnotPastEos : ¬ (p.EOSPresentedAtPosition ≠ -1 ∧ p.EOSPresentedAtPosition < (pos : Int)))
    (hnotBehind : ¬ (pos : Int) < p.LastConsumedPosition)
    (hconsumable : (pos : Int) = 0 ∨ (pos : Int) = p.LastConsumedPosition)
    (hnone : ∀ x ∈ (bootstrap p pos).Transitions,
      ruleMatches (bootstrap p pos).CurrentState (examinedTop (bootstrap p pos))
        (bootstrap p pos).Eos t x = false) :
    pushToQueue p pos t =
      ({ refreshStackTop (bootstrap p pos) with PDAFailedInLastEvaluation := true },
        Result.fail "" (PDAError.noTransition t pos)) := by
  have hput := put_of_no_match (bootstrap p pos) ((pos : Int) + 1) t hnone
  rw [pushToQueue_consumable p pos t hfailed hnotPastEos hnotBehind hconsumable,
    consumeToken_no_transition _ _ _ _ (by rw [hput]), hput]

/-- A token reached by the pending-queue loop with no matching row: the call fails there,
in the record the tokens before it lead to. -/
theorem pushToQueue_drain_fails (p : PDAProcessor) (pos : Nat) (t : String)
    (run : List String) (u : String) (F : PDAProcessor)
    (hfailed : p.PDAFailedInLastEvaluation = false)
    (hnotPastEos : ¬ (p.EOSPresentedAtPosition ≠ -1 ∧ p.EOSPresentedAtPosition < (pos : Int)))
    (hnotBehind : ¬ (pos : Int) < p.LastConsumedPosition)
    (hconsumable : (pos : Int) = 0 ∨ (pos : Int) = p.LastConsumedPosition)
    (hfirst : (put (bootstrap p pos) ((pos : Int) + 1) t).2 ≠ "")
    (hnotEosHere :
      ¬ (p.EOSPresentedAtPosition ≠ -1 ∧ p.EOSPresentedAtPosition = (pos : Int)))
    (hslots : ∀ x, x < run.length →
      p.PendingTokenQueue.getD (pos + 1 + x) "" = run.getD x "")
    (hne : ∀ v ∈ run, v ≠ "")
    (hall : consumeAll (pushStep p pos t) (pos + 1) run = some F)
    (hslot : p.PendingTokenQueue.getD (pos + 1 + run.length) "" = u)
    (hu : u ≠ "")
    (hnone : ∀ x ∈ F.Transitions,
      ruleMatches F.CurrentState (examinedTop F) F.Eos u x = false) :
    pushToQueue p pos t =
      (setQueue { refreshStackTop F with PDAFailedInLastEvaluation := true }
          (clearSlots p.PendingTokenQueue (pos + 1) run.length),
        Result.fail (put (bootstrap p pos) ((pos : Int) + 1) t).2
          (PDAError.noTransition u ((pos + 1 + run.length : Nat) : Int))) := by
  have hlt : pos + 1 + run.length < p.PendingTokenQueue.length := by
    by_contra hcon
    rw [List.getD_eq_default _ _ (not_lt.mp hcon)] at hslot
    exact hu hslot.symm
  have hq : (setQueue F (clearSlots p.PendingTokenQueue (pos + 1)
      run.length)).PendingTokenQueue.getD (pos + 1 + run.length) "" = u := by
    rw [setQueue_PendingTokenQueue, clearSlots_getD, if_neg (by omega)]
    exact hslot
  have hput := put_of_no_match F (((pos + 1 + run.length : Nat) : Int) + 1) u hnone
  rw [pushToQueue_drain p pos t run F hfailed hnotPastEos hnotBehind hconsumable hfirst
    hnotEosHere hslots hne hall]
  apply drainLoop_at_failure _ _ _ _ _ _ "" _ (by push_cast; omega)
  · rw [setQueue_PendingTokenQueue, clearSlots_length]; omega
  · rw [hq]; exact hu
  · rw [hq, consumeQueued_setQueue, consumeQueued_no_transition F _ u (by rw [hput]), hput]

/-! ## Queries -/

theorem findInArray_iff (arr : List String) (value : String) :
    findInArray arr value = true ↔ value ∈ arr := by
  induction arr with
  | nil => simp [findInArray]
  | cons a arr ih =>
    unfold findInArray
    by_cases h : a = value
    · simp [h]
    · rw [if_neg h, ih]
      constructor
      · exact fun hm => List.mem_cons_of_mem a hm
      · intro hm
        rcases List.mem_cons.mp hm with e | hm2
        · exact absurd e.symm h
        · exact hm2

theorem tokenSupported_iff (alphabet : List String) (token : String) :
    tokenSupported alphabet token = true ↔ token ∈ alphabet := by
  induction alphabet with
  | nil => simp [tokenSupported]
  | cons a arr ih =>
    unfold tokenSupported
    by_cases h : a = token
    · simp [h]
    · rw [if_neg h, ih]
      constructor
      · exact fun hm => List.mem_cons_of_mem a hm
      · intro hm
        rcases List.mem_cons.mp hm with e | hm2
        · exact absurd e.symm h
        · exact hm2

theorem stackLengthLoop_foldl (eosSymbol : String) (stack : List String) :
    ∀ n : Int, stack.foldl (fun length s => if s ≠ eosSymbol then length + 1 else length) n =
      n + ((stack.countP (fun s => decide (s ≠ eosSymbol)) : Nat) : Int) := by
  induction stack with
  | nil => intro n; simp
  | cons a stack ih =>
    intro n
    rw [List.foldl_cons, ih, List.countP_cons]
    by_cases h : a = eosSymbol
    · simp [h]
    · simp [h]
      omega

theorem stackLengthLoop_eq (p : PDAProcessor) :
    stackLengthLoop p = ((p.Stack.countP (fun s => decide (s ≠ p.Eos)) : Nat) : Int) := by
  unfold stackLengthLoop
  rw [stackLengthLoop_foldl]
  simp

theorem is_accepted_iff (p : PDAProcessor) :
    (is_accepted p).2 = true ↔
      p.CurrentState ∈ p.AcceptingStates ∧
        p.Stack.countP (fun s => decide (s ≠ p.Eos)) = 0 := by
  unfold is_accepted
  simp only [Bool.and_eq_true, decide_eq_true_eq, findInArray_iff, List.countP_eq_length_filter]

theorem truncateEmptyTokens_foldl (tokensArray : List String) :
    ∀ a : List String,
      tokensArray.foldl (fun a t => if t ≠ "" then a ++ [t] else a) a =
        a ++ tokensArray.filter (fun t => decide (t ≠ "")) := by
  induction tokensArray with
  | nil => intro a; simp
  | cons t ts ih =>
    intro a
    rw [List.foldl_cons, ih]
    by_cases h : t = ""
    · simp [h]
    · simp [h]

theorem truncateEmptyTokens_eq_filter (tokensArray : List String) :
    truncateEmptyTokens tokensArray = tokensArray.filter (fun t => decide (t ≠ "")) := by
  unfold truncateEmptyTokens
  rw [truncateEmptyTokens_foldl]
  rfl

/-- The entries of a list that satisfy a test are the entries at the positions, taken in
ascending order, whose entry satisfies it. -/
theorem filter_eq_map_positions (f : String → Bool) (l : List String) :
    l.filter f =
      ((List.range l.length).filter (fun i => f (l.getD i ""))).map (fun i => l.getD i "") := by
  induction l using List.reverseRecOn with
  | nil => rfl
  | append_singleton l a ih =>
    have hl : ∀ i ∈ List.range l.length, (l ++ [a]).getD i "" = l.getD i "" := by
      intro i hi
      have hi2 : i < l.length := List.mem_range.mp hi
      simp [List.getD_eq_getElem?_getD, List.getElem?_append_left hi2]
    have ha : (l ++ [a]).getD l.length "" = a := by
      simp [List.getD_eq_getElem?_getD]
    rw [List.filter_append, List.length_append, List.length_singleton, List.range_succ,
      List.filter_append, List.map_append]
    congr 1
    · rw [ih]
      have e1 : (List.range l.length).filter (fun i => f ((l ++ [a]).getD i "")) =
          (List.range l.length).filter (fun i => f (l.getD i "")) :=
        List.filter_congr (fun i hi => by rw [hl i hi])
      rw [e1]
      apply List.map_congr_left
      intro i hi
      exact (hl i (List.mem_filter.mp hi).1).symm
    · by_cases hf : f a = true
      · simp [List.filter_cons, ha, hf]
      · simp [List.filter_cons, ha, hf]

theorem peek_cases (p : PDAProcessor) (k : Int) :
    (peek p k).1 = { p with PdaClock := p.PdaClock + 1 } ∧
      (peek p k).2 =
        p.Stack.drop (p.Stack.length - min (max k 1).toNat p.Stack.length) := by
  unfold peek
  simp only
  by_cases hk : k ≤ 0
  · rw [if_pos hk]
    have hm : (max k 1).toNat = 1 := by rw [max_eq_right (by omega)]; rfl
    rw [hm]
    split
    · rename_i h
      refine ⟨rfl, ?_⟩
      have : p.Stack.length ≤ 1 := by omega
      rw [min_eq_right this]
      simp
    · rename_i h
      refine ⟨rfl, ?_⟩
      have : 1 ≤ p.Stack.length := by omega
      rw [min_eq_left this]
      have e : ((p.Stack.length : Int) - 1).toNat = p.Stack.length - 1 := by omega
      rw [e]
  · rw [if_neg hk]
    have hm : max k 1 = k := max_eq_left (by omega)
    rw [hm]
    split
    · rename_i h
      refine ⟨rfl, ?_⟩
      have : p.Stack.length ≤ k.toNat := by omega
      rw [min_eq_right this]
      simp
    · rename_i h
      refine ⟨rfl, ?_⟩
      have : k.toNat ≤ p.Stack.length := by omega
      rw [min_eq_left this]
      have e : ((p.Stack.length : Int) - k).toNat = p.Stack.length - k.toNat := by omega
      rw [e]

/-! ## The service: unsupported tokens and table validation -/

theorem presentToken_of_unsupported (p : PDAProcessor) (token : String) (position : Int)
    (hnot : token ∉ p.InputAlphabet) :
    presentToken (some p) p.ID token position =
      (some p, ServiceResult.fail false ServiceError.unsupportedToken) := by
  have h : tokenSupported p.InputAlphabet token = false := by
    cases hs : tokenSupported p.InputAlphabet token with
    | false => rfl
    | true => exact absurd ((tokenSupported_iff _ _).mp hs) hnot
  unfold presentToken
  simp only [ne_eq, not_true_eq_false, if_false, h, if_true]

theorem presentToken_unsupported_frame (session : Option PDAProcessor) (pdaId : Int)
    (token : String) (position : Int)
    (hnot : ∀ p, session = some p → token ∉ p.InputAlphabet) :
    (presentToken session pdaId token position).1 = session ∧
      ∃ e, (presentToken session pdaId token position).2 = ServiceResult.fail false e := by
  cases session with
  | none => exact ⟨rfl, _, rfl⟩
  | some p =>
    have h : tokenSupported p.InputAlphabet token = false := by
      cases hs : tokenSupported p.InputAlphabet token with
      | false => rfl
      | true => exact absurd ((tokenSupported_iff _ _).mp hs) (hnot p rfl)
    unfold presentToken
    simp only [h, if_true]
    split
    · exact ⟨rfl, _, rfl⟩
    · exact ⟨rfl, _, rfl⟩

theorem idInUse_iff (availablePDAs : List PDAProcessor) (id : Int) :
    idInUse availablePDAs id = true ↔ ∃ pda ∈ availablePDAs, pda.ID = id := by
  induction availablePDAs with
  | nil => simp [idInUse]
  | cons a rest ih =>
    unfold idInUse
    by_cases h : a.ID = id
    · simp [h]
    · rw [if_neg h, ih]
      simp [h]

/-- The outcome of `validatePDADetails` in terms of the nine conditions it tests. -/
theorem validatePDADetails_iff (availablePDAs : List PDAProcessor) (id : Int)
    (p : PDAProcessor) :
    validatePDADetails availablePDAs id p = (true, none) ↔
      0 < id ∧ idInUse availablePDAs id = false ∧ p.Name ≠ "" ∧ p.StartState ≠ "" ∧
        p.Eos ≠ "" ∧ p.States ≠ [] ∧ p.InputAlphabet ≠ [] ∧ p.StackAlphabet ≠ [] ∧
        p.AcceptingStates ≠ [] := by
  unfold validatePDADetails
  constructor
  · intro h
    split at h
    · simp at h
    split at h
    · simp at h
    split at h
    · simp at h
    split at h
    · simp at h
    split at h
    · simp at h
    split at h
    · simp at h
    split at h
    · simp at h
    split at h
    · simp at h
    split at h
    · simp at h
    rename_i h1 h2 h3 h4 h5 h6 h7 h8 h9
    refine ⟨by omega, by simpa using h2, h3, h4, h5, ?_, ?_, ?_, ?_⟩
    · exact fun e => h6 (by rw [e]; rfl)
    · exact fun e => h7 (by rw [e]; rfl)
    · exact fun e => h8 (by rw [e]; rfl)
    · exact fun e => h9 (by rw [e]; rfl)
  · rintro ⟨h1, h2, h3, h4, h5, h6, h7, h8, h9⟩
    rw [if_neg (by omega), h2]
    simp only [Bool.false_eq_true, if_false, h3, h4, h5, List.length_eq_zero, h6, h7, h8, h9]

theorem validatePDADetails_fails (availablePDAs : List PDAProcessor) (id : Int)
    (p : PDAProcessor) (h : validatePDADetails availablePDAs id p ≠ (true, none)) :
    ∃ e, validatePDADetails availablePDAs id p = (false, some e) := by
  unfold validatePDADetails at h ⊢
  split
  · exact ⟨_, rfl⟩
  split
  · exact ⟨_, rfl⟩
  split
  · exact ⟨_, rfl⟩
  split
  · exact ⟨_, rfl⟩
  split
  · exact ⟨_, rfl⟩
  split
  · exact ⟨_, rfl⟩
  split
  · exact ⟨_, rfl⟩
  split
  · exact ⟨_, rfl⟩
  split
  · exact ⟨_, rfl⟩
  rename_i h1 h2 h3 h4 h5 h6 h7 h8 h9
  exact absurd (by
    rw [if_neg h1, if_neg h2, if_neg h3, if_neg h4, if_neg h5, if_neg h6, if_neg h7,
      if_neg h8, if_neg h9]) h

/-! ## Acceptance after a failure, and the first call on a fresh engine -/

theorem bootstrap_of_consumed (p : PDAProcessor) (position : Int)
    (h : ¬ (position = 0 ∧ p.LastConsumedPosition = -1)) : bootstrap p position = p := by
  unfold bootstrap
  rw [if_neg h]

theorem is_accepted_of_fields (p q : PDAProcessor)
    (h1 : p.AcceptingStates = q.AcceptingStates) (h2 : p.CurrentState = q.CurrentState)
    (h3 : p.Stack = q.Stack) (h4 : p.Eos = q.Eos) :
    (is_accepted p).2 = (is_accepted q).2 := by
  unfold is_accepted
  simp only [h1, h2, h3, h4]

theorem refreshStackTop_AcceptingStates (p : PDAProcessor) :
    (refreshStackTop p).AcceptingStates = p.AcceptingStates := by
  unfold refreshStackTop; split <;> rfl

/-- A token at the frontier with no matching row: the failure flag is set and
`is_accepted()` answers as before. -/
theorem is_accepted_after_failure (p : PDAProcessor) (pos : Nat) (t : String)
    (hfailed : p.PDAFailedInLastEvaluation = false)
    (hnotPastEos : ¬ (p.EOSPresentedAtPosition ≠ -1 ∧ p.EOSPresentedAtPosition < (pos : Int)))
    (hat : (pos : Int) = p.LastConsumedPosition)
    (hnone : ∀ x ∈ p.Transitions,
      ruleMatches p.CurrentState (examinedTop p) p.Eos t x = false) :
    (pushToQueue p pos t).1.PDAFailedInLastEvaluation = true ∧
      (is_accepted (pushToQueue p pos t).1).2 = (is_accepted p).2 := by
  have hb : bootstrap p pos = p := bootstrap_of_consumed p pos (by omega)
  have hmain := pushToQueue_first_fails p pos t hfailed hnotPastEos (by omega) (Or.inr hat)
    (by rw [hb]; exact hnone)
  rw [hb] at hmain
  rw [hmain]
  refine ⟨rfl, ?_⟩
  exact is_accepted_of_fields _ _ (refreshStackTop_AcceptingStates p)
    (refreshStackTop_state p).1 (refreshStackTop_state p).2 (refreshStackTop_Eos p)

theorem reset_fields (queueLength : Nat) (table : PDAProcessor) (isReset : Bool) :
    (reset queueLength table isReset).Transitions = table.Transitions ∧
      (reset queueLength table isReset).CurrentState = table.StartState ∧
      (reset queueLength table isReset).Eos = table.Eos ∧
      (reset queueLength table isReset).Stack = [] ∧
      (reset queueLength table isReset).CurrentStackTop = "" ∧
      (reset queueLength table isReset).LastConsumedPosition = -1 ∧
      (reset queueLength table isReset).EOSPresentedAtPosition = -1 := by
  unfold reset addTransitionIfRequired
  split <;> simp

/-- The initial `put(0, "")` on a freshly reset engine, in terms of the first row that
matches the empty token in the start state. -/
theorem bootstrap_reset (queueLength : Nat) (table : PDAProcessor) (isReset : Bool) :
    (bootstrap (reset queueLength table isReset) 0).Stack =
      match table.Transitions.find? (ruleMatches table.StartState "" table.Eos "") with
      | some r => if r.elementToPush = "" then [] else [r.elementToPush]
      | none => [] := by
  obtain ⟨f1, f2, f3, f4, f5, f6, _⟩ := reset_fields queueLength table isReset
  have htop : examinedTop (reset queueLength table isReset) = "" := by
    rw [examinedTop_nil _ f4, f5]
  unfold bootstrap
  rw [if_pos ⟨rfl, f6⟩, put_eq_find, f1, f2, f3, htop]
  cases table.Transitions.find? (ruleMatches table.StartState "" table.Eos "") with
  | none =>
    simp only
    rw [(refreshStackTop_state _).2, f4]
  | some r =>
    simp only
    rw [(takeTransition_fields _ 0 r).1, (refreshStackTop_state _).2, f4]
    simp

/-! ## Properties kept by every call -/

theorem reachedEOS_keeps (I : PDAProcessor → Prop) (hI : Kept I) (p : PDAProcessor)
    (h : I p) : I (reachedEOS p).1 := by
  unfold reachedEOS
  cases eos p with
  | none => exact h
  | some b =>
    cases b with
    | false => exact hI.ofFail p h
    | true =>
      simp only
      split
      · exact hI.ofFail _ (hI.ofPut _ _ _ h)
      · exact hI.ofLog _ _ (hI.ofPut _ _ _ h)

theorem consumeTokenWith_keeps (I : PDAProcessor → Prop) (hI : Kept I)
    (onward : PDAProcessor → String → PDAProcessor × Result String)
    (honward : ∀ q s, I q → I (onward q s).1)
    (p : PDAProcessor) (position : Int) (token : String) (h : I p) :
    I (consumeTokenWith onward p position token).1 := by
  unfold consumeTokenWith
  simp only
  split
  · exact hI.ofFail _ (hI.ofPut _ _ _ h)
  · split
    · have hr := reachedEOS_keeps I hI _ (hI.ofLog _ (put p (position + 1) token).2
        (hI.ofPut p (position + 1) token h))
      split <;> rename_i heq <;> rw [heq] at hr <;> exact hr
    · exact honward _ _ (hI.ofLog _ _ (hI.ofPut _ _ _ h))

theorem consumeQueued_keeps (I : PDAProcessor → Prop) (hI : Kept I)
    (p : PDAProcessor) (position : Int) (token : String) (h : I p) :
    I (consumeQueued p position token).1 :=
  consumeTokenWith_keeps I hI _ (fun _ _ hq => hq) p position token h

theorem drainLoop_keeps (I : PDAProcessor → Prop) (hI : Kept I) (position : Int)
    (transitionTaken : String) :
    ∀ (remaining index : Nat) (p : PDAProcessor), I p →
      I (drainLoop position transitionTaken remaining index p).1 := by
  intro remaining
  induction remaining with
  | zero => intro index p h; exact h
  | succ n ih =>
    intro index p h
    rw [drainLoop]
    split
    · simp only
      split
      · have hc := consumeQueued_keeps I hI p index (p.PendingTokenQueue.getD index "") h
        split <;> rename_i heq <;> rw [heq] at hc
        · exact ih _ _ (hI.ofQueue _ _ hc)
        · exact hc
        · exact hc
      · exact h
    · exact ih _ _ h

theorem consumeToken_keeps (I : PDAProcessor → Prop) (hI : Kept I)
    (p : PDAProcessor) (position : Int) (token : String) (flag : Bool) (h : I p) :
    I (consumeToken p position token flag).1 := by
  apply consumeTokenWith_keeps I hI _ _ p position token h
  intro q s hq
  split
  · exact drainLoop_keeps I hI position s _ _ q hq
  · exact hq

theorem pushToQueue_keeps (I : PDAProcessor → Prop) (hI : Kept I)
    (p : PDAProcessor) (position : Int) (token : String) (h : I p) :
    I (pushToQueue p position token).1 := by
  have hb : I (if position = 0 ∧ p.LastConsumedPosition = -1 then (put p 0 "").1 else p) := by
    split
    · exact hI.ofPut _ _ _ h
    · exact h
  unfold pushToQueue
  split
  · exact h
  · split
    · exact h
    · split
      · exact h
      · simp only
        generalize (if position = 0 ∧ p.LastConsumedPosition = -1 then (put p 0 "").1
          else p) = p1 at hb
        split
        · exact consumeToken_keeps I hI p1 position token false hb
        · split
          · split
            · exact hI.ofQueue _ _ hb
            · exact hb
          · exact hb

theorem presentEOS_keeps (I : PDAProcessor → Prop) (hI : Kept I)
    (p : PDAProcessor) (position : Int) (h : I p) : I (presentEOS p position).1 := by
  unfold presentEOS
  split
  · exact h
  · split
    · exact h
    · simp only
      split
      · have hr := reachedEOS_keeps I hI _ (hI.ofEos p position h)
        split <;> rename_i heq <;> rw [heq] at hr <;> exact hr
      · exact hI.ofEos p position h

theorem runCalls_keeps (I : PDAProcessor → Prop) (hI : Kept I) (calls : List Call) :
    ∀ p : PDAProcessor, I p → I (runCalls p calls) := by
  induction calls with
  | nil => intro p h; exact h
  | cons c cs ih =>
    intro p h
    have hc : I (applyCall p c) := by
      cases c with
      | token position tok => exact pushToQueue_keeps I hI p position tok h
      | endOfStream position => exact presentEOS_keeps I hI p position h
    exact ih _ hc

theorem put_TransitionsTaken (p : PDAProcessor) (position : Int) (token : String) :
    (put p position token).1.TransitionsTaken = p.TransitionsTaken := by
  rw [put_frame]

theorem put_CurrentState (p : PDAProcessor) (position : Int) (token : String) :
    (put p position token).1.CurrentState = p.CurrentState ∨
      ∃ r ∈ p.Transitions, r.nextState = (put p position token).1.CurrentState := by
  rw [put_eq_find]
  cases hf : p.Transitions.find? (ruleMatches p.CurrentState (examinedTop p) p.Eos token) with
  | none => exact Or.inl (refreshStackTop_state p).1
  | some r =>
    exact Or.inr ⟨r, List.mem_of_find?_eq_some hf, (takeTransition_fields _ _ r).2.1.symm⟩

/-- The current state is the start state or the target of a row of the table: kept by
every update of the engine. -/
theorem kept_state_from_table (table : PDAProcessor) :
    Kept (fun p => p.Transitions = table.Transitions ∧
      (p.CurrentState = table.StartState ∨
        ∃ r ∈ table.Transitions, r.nextState = p.CurrentState)) := by
  refine ⟨?_, ?_, ?_, ?_, ?_⟩
  · rintro p position token ⟨h1, h2⟩
    refine ⟨by rw [put_Transitions, h1], ?_⟩
    rcases put_CurrentState p position token with h | ⟨r, hr, he⟩
    · rw [h]; exact h2
    · exact Or.inr ⟨r, h1 ▸ hr, he⟩
  · rintro p s ⟨h1, h2⟩
    rw [addTransitionIfRequired_frame]
    exact ⟨h1, h2⟩
  · rintro p ⟨h1, h2⟩
    exact ⟨h1, h2⟩
  · rintro p q ⟨h1, h2⟩
    exact ⟨h1, h2⟩
  · rintro p e ⟨h1, h2⟩
    exact ⟨h1, h2⟩

/-- The log only grows: a given list stays a prefix of `TransitionsTaken`. -/
theorem kept_log_grows (old : List String) :
    Kept (fun p => ∃ added, p.TransitionsTaken = old ++ added) := by
  refine ⟨?_, ?_, ?_, ?_, ?_⟩
  · rintro p position token ⟨added, h⟩
    exact ⟨added, by rw [put_TransitionsTaken, h]⟩
  · rintro p s ⟨added, h⟩
    unfold addTransitionIfRequired
    split
    · exact ⟨added ++ [s], by simp [h]⟩
    · exact ⟨added, h⟩
  · rintro p ⟨added, h⟩
    exact ⟨added, h⟩
  · rintro p q ⟨added, h⟩
    exact ⟨added, h⟩
  · rintro p e ⟨added, h⟩
    exact ⟨added, h⟩

/-! ## What a call adds to the log -/

theorem bootstrap_log (p : PDAProcessor) (position : Int) :
    (bootstrap p position).TransitionsTaken = p.TransitionsTaken := by
  unfold bootstrap
  split
  · exact put_TransitionsTaken p 0 ""
  · rfl

theorem addTransitionIfRequired_log (p : PDAProcessor) (s : String) (hs : s ≠ "") :
    (addTransitionIfRequired p s).TransitionsTaken = p.TransitionsTaken ++ [s] := by
  unfold addTransitionIfRequired
  rw [if_pos hs]

theorem consumeAll_log (run : List String) :
    ∀ (p F : PDAProcessor) (j : Nat), consumeAll p j run = some F →
      p.EOSPresentedAtPosition = -1 →
      F.TransitionsTaken = p.TransitionsTaken ++ loggedTargets p j run := by
  induction run with
  | nil =>
    intro p F j h _
    simp only [consumeAll, Option.some.injEq] at h
    rw [← h]
    simp [loggedTargets]
  | cons t ts ih =>
    intro p F j h he
    simp only [consumeAll] at h
    have hc := consumeQueued_noEos p j t he
    by_cases hput : (put p ((j : Int) + 1) t).2 = ""
    · rw [if_pos hput] at hc
      rw [hc] at h
      simp at h
    · rw [if_neg hput] at hc
      rw [hc] at h
      simp only at h
      have h1 := ih _ F (j + 1) h (by simp [he])
      rw [h1, addTransitionIfRequired_log _ _ hput, put_TransitionsTaken]
      simp only [loggedTargets, hc, List.append_assoc, List.singleton_append]

theorem reachedEOS_log (p : PDAProcessor) (v : String)
    (h : (reachedEOS p).2 = Result.ok v) :
    v = (put p (p.LastConsumedPosition + 1) "").2 ∧ v ≠ "" ∧
      (reachedEOS p).1.TransitionsTaken = p.TransitionsTaken ++ [v] := by
  unfold reachedEOS at h ⊢
  cases he : eos p with
  | none => rw [he] at h; simp at h
  | some b =>
    rw [he] at h
    cases b with
    | false => simp at h
    | true =>
      simp only at h ⊢
      by_cases hput : (put p (p.LastConsumedPosition + 1) "").2 = ""
      · rw [if_pos hput] at h
        simp at h
      · rw [if_neg hput] at h ⊢
        simp only [Result.ok.injEq] at h
        subst h
        exact ⟨rfl, hput, by
          rw [addTransitionIfRequired_log _ _ hput, put_TransitionsTaken]⟩

/-- A token stored ahead, or refused by the slot check: no `put` is run, and the record
differs from the one before at most in the pending queue. -/
theorem pushToQueue_not_consumable (p : PDAProcessor) (position : Int) (token : String)
    (hfailed : p.PDAFailedInLastEvaluation = false)
    (hnotPastEos : ¬ (p.EOSPresentedAtPosition ≠ -1 ∧ p.EOSPresentedAtPosition < position))
    (hnotBehind : ¬ position < p.LastConsumedPosition)
    (hnonzero : position ≠ 0)
    (hnotNext : position ≠ p.LastConsumedPosition) :
    setQueue (pushToQueue p position token).1 p.PendingTokenQueue = p := by
  unfold pushToQueue
  rw [if_neg (by simp [hfailed]), if_neg hnotPastEos, if_neg hnotBehind]
  simp only [hnonzero, false_and, if_false, hnotNext, or_self]
  split
  · split
    · rfl
    · rfl
  · rfl

/-! ## The claims -/

/-- C1 (order independence). For every table, every list of non-empty tokens no longer
than the pending queue, and every permutation of the calls `pushToQueue(i, t_i)` made on
a freshly reset engine and followed by `presentEOS(n)`, the resulting `CurrentState`,
`Stack` and `is_accepted()` are those obtained by making the calls in the order of their
positions, followed by `presentEOS(n)`. -/
theorem order_independence (queueLength : Nat) (table : PDAProcessor) (isReset : Bool)
    (tokens : List String) (calls : List Call)
    (hnonempty : ∀ t ∈ tokens, t ≠ "")
    (hcapacity : tokens.length ≤ queueLength)
    (hperm : calls.Perm (inOrderCalls tokens)) :
    (runCalls (reset queueLength table isReset)
          (calls ++ [Call.endOfStream tokens.length])).CurrentState =
        (runCalls (reset queueLength table isReset)
          (inOrderCalls tokens ++ [Call.endOfStream tokens.length])).CurrentState ∧
      (runCalls (reset queueLength table isReset)
          (calls ++ [Call.endOfStream tokens.length])).Stack =
        (runCalls (reset queueLength table isReset)
          (inOrderCalls tokens ++ [Call.endOfStream tokens.length])).Stack ∧
      (is_accepted (runCalls (reset queueLength table isReset)
          (calls ++ [Call.endOfStream tokens.length]))).2 =
        (is_accepted (runCalls (reset queueLength table isReset)
          (inOrderCalls tokens ++ [Call.endOfStream tokens.length]))).2 := by
  obtain ⟨f1, f2, f3, _⟩ := reset_fresh queueLength table isReset
  have hcore := runCalls_perm_core (reset queueLength table isReset) tokens f1 f2
    (by rw [f3]; exact hcapacity) hnonempty calls hperm
  have hfinal : setQueue (runCalls (reset queueLength table isReset)
        (calls ++ [Call.endOfStream tokens.length])) [] =
      setQueue (runCalls (reset queueLength table isReset)
        (inOrderCalls tokens ++ [Call.endOfStream tokens.length])) [] := by
    rw [runCalls_append, runCalls_append]
    have e := eq_setQueue_of_core_eq _ _ hcore
    simp only [runCalls, List.foldl_cons, List.foldl_nil, applyCall] at e ⊢
    rw [e, presentEOS_setQueue]
    rfl
  obtain ⟨_, _, _, h4, h5, _, _⟩ := core_fields _ _ hfinal
  exact ⟨h4, h5, is_accepted_of_core _ _ hfinal⟩

/-- Instance of C1, Scenario B against Scenario A: `b@3, b@2, a@1, a@0` then `presentEOS(4)` ends in the
state, stack and acceptance of `a@0, a@1, b@2, b@3` then `presentEOS(4)`. -/
theorem order_independence_witness :
    (∀ t ∈ ["a", "a", "b", "b"], t ≠ "") ∧
      ["a", "a", "b", "b"].length ≤ 8 ∧
      [Call.token 3 "b", Call.token 2 "b", Call.token 1 "a", Call.token 0 "a"].Perm
        (inOrderCalls ["a", "a", "b", "b"]) ∧
      ((runCalls (reset 8 scenarioTable true)
          ([Call.token 3 "b", Call.token 2 "b", Call.token 1 "a", Call.token 0 "a"] ++
            [Call.endOfStream ["a", "a", "b", "b"].length])).CurrentState =
        (runCalls (reset 8 scenarioTable true)
          (inOrderCalls ["a", "a", "b", "b"] ++
            [Call.endOfStream ["a", "a", "b", "b"].length])).CurrentState ∧
      (runCalls (reset 8 scenarioTable true)
          ([Call.token 3 "b", Call.token 2 "b", Call.token 1 "a", Call.token 0 "a"] ++
            [Call.endOfStream ["a", "a", "b", "b"].length])).Stack =
        (runCalls (reset 8 scenarioTable true)
          (inOrderCalls ["a", "a", "b", "b"] ++
            [Call.endOfStream ["a", "a", "b", "b"].length])).Stack ∧
      (is_accepted (runCalls (reset 8 scenarioTable true)
          ([Call.token 3 "b", Call.token 2 "b", Call.token 1 "a", Call.token 0 "a"] ++
            [Call.endOfStream ["a", "a", "b", "b"].length]))).2 =
        (is_accepted (runCalls (reset 8 scenarioTable true)
          (inOrderCalls ["a", "a", "b", "b"] ++
            [Call.endOfStream ["a", "a", "b", "b"].length]))).2) :=
  ⟨by decide, by decide, by decide,
    order_independence 8 scenarioTable true ["a", "a", "b", "b"]
      [Call.token 3 "b", Call.token 2 "b", Call.token 1 "a", Call.token 0 "a"]
      (by decide) (by decide) (by decide)⟩

/-- C2 (Scenario A, generalised). On the Scenario A table, for every `n ≥ 1` and every
queue length, presenting `n` tokens `a` at positions `0..n-1` and then `n` tokens `b` at
positions `n..2n-1` in order to a freshly reset engine, then `presentEOS(2n)`: every call
returns without error, and `is_accepted()` is `true` afterwards. -/
theorem scenarioA_accepted (queueLength : Nat) (isReset : Bool) (n : Nat) (hn : 1 ≤ n) :
    allCallsSucceed (reset queueLength scenarioTable isReset)
        (inOrderCalls (List.replicate n "a" ++ List.replicate n "b") ++
          [Call.endOfStream ((2 * n : Nat) : Int)]) = true ∧
      (is_accepted (runCalls (reset queueLength scenarioTable isReset)
        (inOrderCalls (List.replicate n "a" ++ List.replicate n "b") ++
          [Call.endOfStream ((2 * n : Nat) : Int)]))).2 = true := by
  obtain ⟨n', rfl⟩ : ∃ n', n = n' + 1 := ⟨n - 1, by omega⟩
  obtain ⟨a1, a2⟩ := phaseA_run (n' + 1) 0 _ (reset_phaseA queueLength isReset)
  rw [Nat.zero_add] at a2
  obtain ⟨b1, b2⟩ := phaseA_to_phaseB (n' + 1) _ (by omega) a2
  obtain ⟨c1, c2⟩ := phaseB_run (n' + 1) n' 1 _ b2 (by omega)
  have hcalls : inOrderCalls (List.replicate (n' + 1) "a" ++ List.replicate (n' + 1) "b") =
      callsFrom 0 (List.replicate (n' + 1) "a") ++
        (Call.token ((n' + 1 : Nat) : Int) "b" ::
          callsFrom (n' + 1 + 1) (List.replicate n' "b")) := by
    rw [inOrderCalls_append, List.length_replicate, List.replicate_succ (n := n') (a := "b"),
      callsFrom_cons]
  generalize hA : runCalls (reset queueLength scenarioTable isReset)
    (callsFrom 0 (List.replicate (n' + 1) "a")) = pA at *
  generalize hB : (pushToQueue pA ((n' + 1 : Nat) : Int) "b").1 = pB at *
  generalize hC : runCalls pB (callsFrom (n' + 1 + 1) (List.replicate n' "b")) = pC at *
  have e1 : 1 + n' = n' + 1 := by omega
  rw [e1] at c2
  obtain ⟨hb, hcur, hst, hl⟩ := c2
  have hEos : presentEOS pC ((2 * (n' + 1) : Nat) : Int) =
      ({ pC with EOSPresentedAtPosition := ((2 * (n' + 1) : Nat) : Int) }, Result.ok ()) := by
    unfold presentEOS
    rw [if_neg (by simp [hb.2.2.2.2.1]), if_neg (by rw [hl]; push_cast; omega)]
    simp only
    rw [if_neg (by rw [hl]; push_cast; omega)]
  have hone : ∀ (q : PDAProcessor) (c : Call), runCalls q [c] = applyCall q c :=
    fun _ _ => rfl
  refine ⟨?_, ?_⟩
  · rw [hcalls, allCallsSucceed_append, allCallsSucceed_append, a1, runCalls_append, hA]
    simp only [allCallsSucceed, runCalls_cons, applyCall, callSucceeds, b1, hB, c1, hC, hEos,
      Bool.and_self, Bool.and_true]
  · rw [hcalls, runCalls_append, runCalls_append, hA, hone, runCalls_cons]
    simp only [applyCall, hB, hC, hEos]
    unfold is_accepted
    simp [hb.2.2.1, hcur, hst, findInArray]

/-- Instance of C2: `n = 2`, a queue of 8 slots (`a@0, a@1, b@2, b@3`, then EOS@4). -/
theorem scenarioA_accepted_witness :
    1 ≤ 2 ∧
      allCallsSucceed (reset 8 scenarioTable true)
        (inOrderCalls (List.replicate 2 "a" ++ List.replicate 2 "b") ++
          [Call.endOfStream ((2 * 2 : Nat) : Int)]) = true ∧
      (is_accepted (runCalls (reset 8 scenarioTable true)
        (inOrderCalls (List.replicate 2 "a" ++ List.replicate 2 "b") ++
          [Call.endOfStream ((2 * 2 : Nat) : Int)]))).2 = true :=
  ⟨by decide, scenarioA_accepted 8 true 2 (by decide)⟩

/-- C3 (stack-top matching on an empty stack), evaluated on the code. On the Scenario A
table, after `a@0` and `b@1` the stack is empty, yet `pushToQueue(2, "b")` does not fail:
`put` compares the rows with the stale `CurrentStackTop` (`"a"`, left from the last
non-empty stack), takes the row `(q1, b, a, q1, pop)`, returns `q1`, and the engine then
reports the input `a b b` as accepted. -/
theorem stale_stack_top_fires :
    scenarioAfterAB.Stack = [] ∧
      scenarioAfterAB.CurrentStackTop = "a" ∧
      (put scenarioAfterAB 3 "b").2 = "q1" ∧
      (pushToQueue scenarioAfterAB 2 "b").2 = Result.ok "q1" ∧
      (pushToQueue scenarioAfterAB 2 "b").1.PDAFailedInLastEvaluation = false ∧
      (is_accepted (pushToQueue scenarioAfterAB 2 "b").1).2 = true := by
  decide

/-- C4 (first match wins). In a state whose stack is not empty, with `top` its last
element: whichever way the table splits as `pre ++ r :: post` with no row of `pre`
matching and `r` matching (the specification's predicate), `put` takes `r`, whatever
`post` holds; and `put` takes no row at all iff no row of the table matches. -/
theorem put_first_match_wins (p : PDAProcessor) (position : Int) (token top : String)
    (htop : p.Stack.getLast? = some top) :
    (∀ pre r post, p.Transitions = pre ++ r :: post →
        (∀ x ∈ pre, ruleMatches p.CurrentState top p.Eos token x = false) →
        ruleMatches p.CurrentState top p.Eos token r = true →
        put p position token = (takeTransition (refreshStackTop p) position r, r.nextState)) ∧
    ((put p position token).1 = refreshStackTop p ↔
        ∀ x ∈ p.Transitions, ruleMatches p.CurrentState top p.Eos token x = false) := by
  have hex : examinedTop p = top := by simp [examinedTop, refreshStackTop, htop]
  refine ⟨?_, ?_⟩
  · intro pre r post hT hpre hr
    rw [put_eq_find, hex, hT, find?_first _ pre post r hpre hr]
  · rw [put_eq_find, hex]
    cases hf : p.Transitions.find? (ruleMatches p.CurrentState top p.Eos token) with
    | none =>
      simp only [true_iff]
      exact fun x hx => by simpa using (List.find?_eq_none.mp hf) x hx
    | some r =>
      simp only
      constructor
      · intro h
        have := takeTransition_clock_lt (refreshStackTop p) position r
        rw [h] at this
        exact absurd this (lt_irrefl _)
      · intro h
        have hm := List.mem_of_find?_eq_some hf
        have hs := List.find?_some hf
        rw [h r hm] at hs
        exact absurd hs (by simp)

/-- Instance of C4: after `a@0` the stack top is `a`; for the token `b` the first row does
not match, the second does, and `put` takes the second whatever follows it. -/
theorem put_first_match_wins_witness :
    scenarioAfterA.Stack.getLast? = some "a" ∧
      put scenarioAfterA 2 "b" =
        (takeTransition (refreshStackTop scenarioAfterA) 2 ⟨"q0", "b", "a", "q1", ""⟩, "q1") :=
  ⟨by decide,
    (put_first_match_wins scenarioAfterA 2 "b" "a" (by decide)).1
      [⟨"q0", "a", "", "q0", "a"⟩] ⟨"q0", "b", "a", "q1", ""⟩
      [⟨"q1", "b", "a", "q1", ""⟩, ⟨"q1", "", "$", "q1", ""⟩]
      (by decide) (by decide) (by decide)⟩

/-- C5 (effect of an applied rule). When `put(position, token)` takes row `r` (the
first row that matches at the stack top `put` examines), the new stack is the old one
without its last element if `r.elementToPush` is empty and the old one with
`r.elementToPush` appended otherwise, the new `CurrentState` is `r.nextState`, the new
`LastConsumedPosition` is `position`, and the value returned is `r.nextState`. -/
theorem put_effect_of_applied_rule (p : PDAProcessor) (position : Int) (token : String)
    (pre post : List Transition) (r : Transition)
    (hrows : p.Transitions = pre ++ r :: post)
    (hpre : ∀ x ∈ pre, ruleMatches p.CurrentState (examinedTop p) p.Eos token x = false)
    (hr : ruleMatches p.CurrentState (examinedTop p) p.Eos token r = true) :
    (put p position token).1.Stack =
        (if r.elementToPush = "" then p.Stack.dropLast else p.Stack ++ [r.elementToPush]) ∧
      (put p position token).1.CurrentState = r.nextState ∧
      (put p position token).1.LastConsumedPosition = position ∧
      (put p position token).2 = r.nextState := by
  rw [put_eq_find, hrows, find?_first _ pre post r hpre hr]
  have h := takeTransition_fields (refreshStackTop p) position r
  simp only [refreshStackTop_Stack] at h
  exact ⟨h.1, h.2.1, h.2.2, rfl⟩

/-- Instance of C5: after `a@0`, `put(2, "b")` takes the row `(q0, b, a, q1, pop)`. -/
theorem put_effect_of_applied_rule_witness :
    scenarioAfterA.Transitions =
        [⟨"q0", "a", "", "q0", "a"⟩] ++ (⟨"q0", "b", "a", "q1", ""⟩ : Transition) ::
          [⟨"q1", "b", "a", "q1", ""⟩, ⟨"q1", "", "$", "q1", ""⟩] ∧
      (put scenarioAfterA 2 "b").1.Stack = [] ∧
      (put scenarioAfterA 2 "b").1.CurrentState = "q1" ∧
      (put scenarioAfterA 2 "b").1.LastConsumedPosition = 2 ∧
      (put scenarioAfterA 2 "b").2 = "q1" :=
  ⟨by decide,
    put_effect_of_applied_rule scenarioAfterA 2 "b" [⟨"q0", "a", "", "q0", "a"⟩]
      [⟨"q1", "b", "a", "q1", ""⟩, ⟨"q1", "", "$", "q1", ""⟩] ⟨"q0", "b", "a", "q1", ""⟩
      (by decide) (by decide) (by decide)⟩

/-- C6 (no match leaves the state alone). If no row of the table matches at the stack
top `put` examines, `put` returns the empty string and `CurrentState`, `Stack`,
`LastConsumedPosition`, `EOSPresentedAtPosition`, the failure flag, the pending queue
and `TransitionsTaken` are what they were. -/
theorem put_no_match_frame (p : PDAProcessor) (position : Int) (token : String)
    (hnone : ∀ x ∈ p.Transitions,
      ruleMatches p.CurrentState (examinedTop p) p.Eos token x = false) :
    (put p position token).2 = "" ∧
      (put p position token).1.CurrentState = p.CurrentState ∧
      (put p position token).1.Stack = p.Stack ∧
      (put p position token).1.LastConsumedPosition = p.LastConsumedPosition ∧
      (put p position token).1.EOSPresentedAtPosition = p.EOSPresentedAtPosition ∧
      (put p position token).1.PDAFailedInLastEvaluation = p.PDAFailedInLastEvaluation ∧
      (put p position token).1.PendingTokenQueue = p.PendingTokenQueue ∧
      (put p position token).1.TransitionsTaken = p.TransitionsTaken := by
  have hf : p.Transitions.find? (ruleMatches p.CurrentState (examinedTop p) p.Eos token) = none :=
    List.find?_eq_none.mpr (fun x hx => by simp [hnone x hx])
  rw [put_eq_find, hf]
  obtain ⟨h1, h2, h3, h4, h5⟩ := refreshStackTop_frame p
  exact ⟨rfl, refreshStackTop_CurrentState p, refreshStackTop_Stack p, h3, h5, h4, h2, h1⟩

/-- Instance of C6: after `a@0`, no row matches the token `c`. -/
theorem put_no_match_frame_witness :
    (∀ x ∈ scenarioAfterA.Transitions,
        ruleMatches scenarioAfterA.CurrentState (examinedTop scenarioAfterA) scenarioAfterA.Eos
          "c" x = false) ∧
      (put scenarioAfterA 2 "c").2 = "" ∧
      (put scenarioAfterA 2 "c").1.CurrentState = scenarioAfterA.CurrentState ∧
      (put scenarioAfterA 2 "c").1.Stack = scenarioAfterA.Stack ∧
      (put scenarioAfterA 2 "c").1.LastConsumedPosition = scenarioAfterA.LastConsumedPosition ∧
      (put scenarioAfterA 2 "c").1.EOSPresentedAtPosition =
        scenarioAfterA.EOSPresentedAtPosition ∧
      (put scenarioAfterA 2 "c").1.PDAFailedInLastEvaluation =
        scenarioAfterA.PDAFailedInLastEvaluation ∧
      (put scenarioAfterA 2 "c").1.PendingTokenQueue = scenarioAfterA.PendingTokenQueue ∧
      (put scenarioAfterA 2 "c").1.TransitionsTaken = scenarioAfterA.TransitionsTaken :=
  ⟨by decide, put_no_match_frame scenarioAfterA 2 "c" (by decide)⟩

/-- C7 (sticky failure). In a state whose failure flag is set, every `pushToQueue` and
every `presentEOS` returns the "failed in last evaluation" error and leaves the record
as it is; so any sequence of such calls leaves the record, flag included, as it is; and
`reset` clears the flag. -/
theorem failure_is_sticky (p : PDAProcessor) (h : p.PDAFailedInLastEvaluation = true) :
    (∀ position token,
        pushToQueue p position token = (p, Result.fail "" PDAError.failedInLastEvaluation)) ∧
      (∀ position, presentEOS p position = (p, Result.fail () PDAError.failedInLastEvaluation)) ∧
      (∀ calls, runCalls p calls = p ∧
        (runCalls p calls).PDAFailedInLastEvaluation = true) ∧
      (∀ queueLength isReset, (reset queueLength p isReset).PDAFailedInLastEvaluation = false) :=
  ⟨fun position token => pushToQueue_of_failed p position token h,
    fun position => presentEOS_of_failed p position h,
    fun calls => ⟨runCalls_of_failed calls p h, by rw [runCalls_of_failed calls p h]; exact h⟩,
    fun queueLength isReset => reset_failed queueLength p isReset⟩

/-- Instance of C7: the engine that failed on `b@0` rejects `a@1` and `presentEOS(1)`. -/
theorem failure_is_sticky_witness :
    scenarioFailed.PDAFailedInLastEvaluation = true ∧
      pushToQueue scenarioFailed 1 "a" =
        (scenarioFailed, Result.fail "" PDAError.failedInLastEvaluation) ∧
      presentEOS scenarioFailed 1 =
        (scenarioFailed, Result.fail () PDAError.failedInLastEvaluation) ∧
      runCalls scenarioFailed [Call.token 1 "a", Call.endOfStream 1] = scenarioFailed ∧
      (reset 8 scenarioFailed true).PDAFailedInLastEvaluation = false :=
  ⟨by decide, (failure_is_sticky scenarioFailed (by decide)).1 1 "a",
    (failure_is_sticky scenarioFailed (by decide)).2.1 1,
    ((failure_is_sticky scenarioFailed (by decide)).2.2.1
      [Call.token 1 "a", Call.endOfStream 1]).1,
    (failure_is_sticky scenarioFailed (by decide)).2.2.2 8 true⟩

/-- C8 (no admission past a declared EOS). In a state that has not failed and whose
`EOSPresentedAtPosition` is not `-1`, `pushToQueue` at a position beyond it returns the
"EOS is already presented" error and leaves the record as it is. -/
theorem pushToQueue_past_eos (p : PDAProcessor) (position : Int) (token : String)
    (hfailed : p.PDAFailedInLastEvaluation = false)
    (heos : p.EOSPresentedAtPosition ≠ -1)
    (hpos : p.EOSPresentedAtPosition < position) :
    pushToQueue p position token = (p, Result.fail "" PDAError.eosAlreadyPresented) := by
  simp [pushToQueue, hfailed, heos, hpos]

/-- Instance of C8: with the end of stream declared at 4, `a@5` is rejected. -/
theorem pushToQueue_past_eos_witness :
    scenarioEosDeclared.PDAFailedInLastEvaluation = false ∧
      scenarioEosDeclared.EOSPresentedAtPosition ≠ -1 ∧
      scenarioEosDeclared.EOSPresentedAtPosition < 5 ∧
      pushToQueue scenarioEosDeclared 5 "a" =
        (scenarioEosDeclared, Result.fail "" PDAError.eosAlreadyPresented) :=
  ⟨by decide, by decide, by decide,
    pushToQueue_past_eos scenarioEosDeclared 5 "a" (by decide) (by decide) (by decide)⟩

/-- C9 (consumed slots cannot be re-admitted). In a state that has not failed,
`pushToQueue` at a position below `LastConsumedPosition` returns an error (the "EOS is
already presented" one if that check fires first, else "already consumed") and leaves
the record as it is; the position stays rejected, with the record untouched, after any
further sequence of calls; and every position consumed by a `pushToQueue` call, made in
any state, either directly or by the pending-queue loop, is below
`LastConsumedPosition` after that call, hence rejected from then on. -/
theorem pushToQueue_consumed_slot_rejected (p : PDAProcessor) (position : Int)
    (token : String)
    (hfailed : p.PDAFailedInLastEvaluation = false)
    (hbehind : position < p.LastConsumedPosition) :
    pushToQueue p position token =
        (p, Result.fail ""
          (if p.EOSPresentedAtPosition ≠ -1 ∧ p.EOSPresentedAtPosition < position then
            PDAError.eosAlreadyPresented
          else PDAError.alreadyConsumed (p.LastConsumedPosition - 1))) ∧
      (∀ (calls : List Call) (tok : String), ∃ e,
        pushToQueue (runCalls p calls) position tok =
          (runCalls p calls, Result.fail "" e)) ∧
      (∀ (q : PDAProcessor) (pos : Int) (t : String) (j : Int), consumedByCall q pos t j →
        ∀ (calls : List Call) (tok : String), ∃ e,
          pushToQueue (runCalls (pushToQueue q pos t).1 calls) j tok =
            (runCalls (pushToQueue q pos t).1 calls, Result.fail "" e)) := by
  refine ⟨?_, ?_, ?_⟩
  · unfold pushToQueue
    simp only [hfailed, Bool.false_eq_true, if_false]
    split
    · rfl
    · rfl
  · intro calls tok
    exact pushToQueue_behind _ _ _ (lt_of_lt_of_le hbehind (runCalls_frontier calls p))
  · intro q pos t j hj calls tok
    exact pushToQueue_behind _ _ _
      (lt_of_lt_of_le ((pushToQueue_frontier q pos t).2 j hj) (runCalls_frontier calls _))

/-- Instance of C9: after `a@0` the frontier field is 1, and position 0 is rejected. -/
theorem pushToQueue_consumed_slot_rejected_witness :
    scenarioAfterA.PDAFailedInLastEvaluation = false ∧
      (0 : Int) < scenarioAfterA.LastConsumedPosition ∧
      pushToQueue scenarioAfterA 0 "a" =
        (scenarioAfterA, Result.fail "" (PDAError.alreadyConsumed 0)) :=
  ⟨by decide, by decide,
    (pushToQueue_consumed_slot_rejected scenarioAfterA 0 "a" (by decide) (by decide)).1⟩

/-- C10 (buffering ahead of the frontier). In a state that has not failed, for a
position that passes the two rejection checks, is neither `0` nor
`LastConsumedPosition`, and whose queue slot exists and is empty, `pushToQueue` returns
the empty string without error, and the record afterwards is the record before with
`token` written into that slot: the slot holds `token`, every other slot and every
other field is as before. -/
theorem pushToQueue_buffers (p : PDAProcessor) (position : Int) (token : String)
    (hfailed : p.PDAFailedInLastEvaluation = false)
    (hnotPastEos : ¬ (p.EOSPresentedAtPosition ≠ -1 ∧ p.EOSPresentedAtPosition < position))
    (hnotBehind : ¬ position < p.LastConsumedPosition)
    (hnonzero : position ≠ 0)
    (hnotNext : position ≠ p.LastConsumedPosition)
    (hpos : 0 ≤ position)
    (hslot : p.PendingTokenQueue[position.toNat]? = some "") :
    pushToQueue p position token =
        ({ p with PendingTokenQueue := p.PendingTokenQueue.set position.toNat token },
          Result.ok "") ∧
      (pushToQueue p position token).1.PendingTokenQueue[position.toNat]? = some token ∧
      (∀ j, j ≠ position.toNat →
        (pushToQueue p position token).1.PendingTokenQueue[j]? = p.PendingTokenQueue[j]?) := by
  have hlen : position.toNat < p.PendingTokenQueue.length := by
    by_contra hcon
    rw [List.getElem?_eq_none (not_lt.mp hcon)] at hslot
    exact absurd hslot (by simp)
  have hmain := pushToQueue_store p position token hfailed hnotPastEos hnotBehind hnonzero
    hnotNext hpos hslot
  refine ⟨hmain, ?_, ?_⟩
  · rw [hmain]; simp [hlen]
  · intro j hj
    rw [hmain]
    simp [List.getElem?_set, Ne.symm hj]

/-- Instance of C10: on the fresh engine `b@3` is stored in slot 3. -/
theorem pushToQueue_buffers_witness :
    scenarioFresh.PDAFailedInLastEvaluation = false ∧
      ¬ (scenarioFresh.EOSPresentedAtPosition ≠ -1 ∧
        scenarioFresh.EOSPresentedAtPosition < 3) ∧
      ¬ (3 : Int) < scenarioFresh.LastConsumedPosition ∧
      (3 : Int) ≠ 0 ∧ (3 : Int) ≠ scenarioFresh.LastConsumedPosition ∧ (0 : Int) ≤ 3 ∧
      scenarioFresh.PendingTokenQueue[(3 : Int).toNat]? = some "" ∧
      (pushToQueue scenarioFresh 3 "b").2 = Result.ok "" ∧
      (pushToQueue scenarioFresh 3 "b").1.PendingTokenQueue =
        ["", "", "", "b", "", "", "", ""] :=
  ⟨by decide, by decide, by decide, by decide, by decide, by decide, by decide,
    by rw [(pushToQueue_buffers scenarioFresh 3 "b" (by decide) (by decide) (by decide)
      (by decide) (by decide) (by decide) (by decide)).1],
    by rw [(pushToQueue_buffers scenarioFresh 3 "b" (by decide) (by decide) (by decide)
      (by decide) (by decide) (by decide) (by decide)).1]; decide⟩

/-- C11 (admission idempotence), as stated, fails on the code. In the failed Scenario A
engine slot 1 holds `a`, yet `pushToQueue(1, "a")` returns the "failed in last
evaluation" error, not the plain `("", nil)` of a stored token; and in the
`markerTable` engine whose slot 3 holds `a` while `LastConsumedPosition` is 3,
`pushToQueue(3, "b")` consumes `b` (the stack grows from `[$]` to `[$, $]`). -/
theorem occupied_slot_not_always_buffered :
    scenarioFailedWithSlot.PendingTokenQueue.getD 1 "" = "a" ∧
      (pushToQueue scenarioFailedWithSlot 1 "a").2 =
        Result.fail "" PDAError.failedInLastEvaluation ∧
      markerSlotAtFrontier.PendingTokenQueue.getD 3 "" = "a" ∧
      markerSlotAtFrontier.Stack = ["$"] ∧
      (pushToQueue markerSlotAtFrontier 3 "b").2 = Result.ok "q0" ∧
      (pushToQueue markerSlotAtFrontier 3 "b").1.Stack = ["$", "$"] ∧
      (pushToQueue markerSlotAtFrontier 3 "b").1 ≠ markerSlotAtFrontier := by
  decide

/-- C11, amended. When the queue slot at `position` is occupied: whatever
`pushToQueue(position, token)` returns, the slot keeps its token; if the call is rejected
by one of the three checks (failure flag, past the declared EOS, behind
`LastConsumedPosition`) the record is unchanged; and if it passes them and `position` is
neither `0` nor `LastConsumedPosition`, the call returns `("", nil)` and the record is
unchanged. -/
theorem pushToQueue_occupied_slot (p : PDAProcessor) (position : Int) (token : String)
    (hpos : 0 ≤ position)
    (hocc : p.PendingTokenQueue.getD position.toNat "" ≠ "") :
    (pushToQueue p position token).1.PendingTokenQueue.getD position.toNat "" =
        p.PendingTokenQueue.getD position.toNat "" ∧
      (p.PDAFailedInLastEvaluation = true ∨
          (p.EOSPresentedAtPosition ≠ -1 ∧ p.EOSPresentedAtPosition < position) ∨
          position < p.LastConsumedPosition →
        (pushToQueue p position token).1 = p ∧
          ∃ e, (pushToQueue p position token).2 = Result.fail "" e) ∧
      (p.PDAFailedInLastEvaluation = false →
        ¬ (p.EOSPresentedAtPosition ≠ -1 ∧ p.EOSPresentedAtPosition < position) →
        ¬ position < p.LastConsumedPosition →
        position ≠ 0 → position ≠ p.LastConsumedPosition →
        pushToQueue p position token = (p, Result.ok "")) := by
  refine ⟨pushToQueue_slot_kept p position token hpos hocc, ?_, ?_⟩
  · intro h
    unfold pushToQueue
    split
    · exact ⟨rfl, _, rfl⟩
    · split
      · exact ⟨rfl, _, rfl⟩
      · split
        · exact ⟨rfl, _, rfl⟩
        · rename_i h1 h2 h3
          rcases h with h | h | h
          · exact absurd h h1
          · exact absurd h h2
          · exact absurd h h3
  · intro hf h2 h3 h0 hl
    have hlen : position.toNat < p.PendingTokenQueue.length := by
      by_contra hcon
      exact hocc (List.getD_eq_default _ _ (not_lt.mp hcon))
    have hlt : position < p.PendingTokenQueue.length := by omega
    unfold pushToQueue
    simp only [hf, h2, h3, h0, hl, false_and, if_false, or_self, hpos, hlt, and_self, if_true,
      hocc, Bool.false_eq_true]

/-- Instance of C11: in the Scenario A engine that stored `b@3`, presenting `a@3`
changes nothing and returns `("", nil)`. -/
theorem pushToQueue_occupied_slot_witness :
    (0 : Int) ≤ 3 ∧
      (pushToQueue scenarioFresh 3 "b").1.PendingTokenQueue.getD (3 : Int).toNat "" ≠ "" ∧
      (pushToQueue (pushToQueue scenarioFresh 3 "b").1 3 "a").1.PendingTokenQueue.getD
          (3 : Int).toNat "" = "b" ∧
      pushToQueue (pushToQueue scenarioFresh 3 "b").1 3 "a" =
        ((pushToQueue scenarioFresh 3 "b").1, Result.ok "") :=
  ⟨by decide, by decide,
    (pushToQueue_occupied_slot (pushToQueue scenarioFresh 3 "b").1 3 "a" (by decide)
      (by decide)).1.trans (by decide),
    (pushToQueue_occupied_slot (pushToQueue scenarioFresh 3 "b").1 3 "a" (by decide)
      (by decide)).2.2 (by decide) (by decide) (by decide) (by decide) (by decide)⟩

/-- C12 (capacity bound), evaluated on the code. On the fresh Scenario A engine, whose
queue has 8 slots, `pushToQueue(8, "a")` and `pushToQueue(1000, "a")` pass the three
checks and reach `PendingTokenQueue[position]` with the index out of range: the call
panics instead of returning an error; nothing has been stored. -/
theorem pushToQueue_beyond_queue_panics :
    scenarioFresh.PendingTokenQueue.length = 8 ∧
      pushToQueue scenarioFresh 8 "a" = (scenarioFresh, Result.panic) ∧
      pushToQueue scenarioFresh 1000 "a" = (scenarioFresh, Result.panic) := by
  decide

/-- C13 (the drain cascades exactly to the first gap). In a state that has not failed,
with no end of stream declared, let `pushToQueue(pos, t)` be consumable (`pos` is `0` or
`LastConsumedPosition`) and `t` have a transition; let the slots `pos+1 .. pos+k` hold the
non-empty tokens `run`, each consumed without error in turn from the record reached by
`t` (giving the record `F`), and let slot `pos+k+1` be empty. Then the call returns the
transition taken for `t` without error; the record afterwards is `F`, the one reached by
applying `t` and then `run` in order, with the slots `pos+1 .. pos+k` emptied;
`LastConsumedPosition` is `pos+k+1`; and every other slot, in particular every token
stored beyond the gap, is as before. -/
theorem drain_cascades_to_first_gap (p : PDAProcessor) (pos : Nat) (t : String)
    (run : List String) (F : PDAProcessor)
    (hfailed : p.PDAFailedInLastEvaluation = false)
    (hnoEos : p.EOSPresentedAtPosition = -1)
    (hnotBehind : ¬ (pos : Int) < p.LastConsumedPosition)
    (hconsumable : (pos : Int) = 0 ∨ (pos : Int) = p.LastConsumedPosition)
    (hfirst : (put (bootstrap p pos) ((pos : Int) + 1) t).2 ≠ "")
    (hslots : ∀ x, x < run.length →
      p.PendingTokenQueue.getD (pos + 1 + x) "" = run.getD x "")
    (hne : ∀ u ∈ run, u ≠ "")
    (hall : consumeAll (pushStep p pos t) (pos + 1) run = some F)
    (hgap : p.PendingTokenQueue.getD (pos + 1 + run.length) "" = "") :
    pushToQueue p pos t =
        (setQueue F (clearSlots p.PendingTokenQueue (pos + 1) run.length),
          Result.ok (put (bootstrap p pos) ((pos : Int) + 1) t).2) ∧
      (pushToQueue p pos t).1.LastConsumedPosition = ((pos + run.length + 1 : Nat) : Int) ∧
      (pushToQueue p pos t).1.PDAFailedInLastEvaluation = false ∧
      (∀ i, pos + 1 ≤ i → i ≤ pos + run.length →
        (pushToQueue p pos t).1.PendingTokenQueue.getD i "" = "") ∧
      (∀ i, ¬ (pos + 1 ≤ i ∧ i ≤ pos + run.length) →
        (pushToQueue p pos t).1.PendingTokenQueue.getD i "" =
          p.PendingTokenQueue.getD i "") := by
  have he : ¬ (p.EOSPresentedAtPosition ≠ -1 ∧ p.EOSPresentedAtPosition = (pos : Int)) := by
    simp [hnoEos]
  have hmain : pushToQueue p pos t =
      (setQueue F (clearSlots p.PendingTokenQueue (pos + 1) run.length),
        Result.ok (put (bootstrap p pos) ((pos : Int) + 1) t).2) := by
    rw [pushToQueue_drain p pos t run F hfailed (by simp [hnoEos]) hnotBehind hconsumable
      hfirst he hslots hne hall]
    apply drainLoop_at_gap _ _ _ _ _ (by push_cast; omega)
    rw [setQueue_PendingTokenQueue, clearSlots_getD, if_neg (by omega)]
    exact hgap
  obtain ⟨s1, s2, s3⟩ := pushStep_of_success p pos t hfirst he
  obtain ⟨f1, f2, f3⟩ := consumeAll_noEos run _ F (pos + 1) hall (by rw [s2]; exact hnoEos)
    (by rw [s3]; exact hfailed) s1
  refine ⟨hmain, ?_, ?_, ?_, ?_⟩
  · rw [hmain]
    show F.LastConsumedPosition = _
    rw [f3]
    push_cast; omega
  · rw [hmain]; exact f2
  · intro i h1 h2
    rw [hmain]
    show (clearSlots p.PendingTokenQueue (pos + 1) run.length).getD i "" = ""
    rw [clearSlots_getD, if_pos (by omega)]
  · intro i hi
    rw [hmain]
    show (clearSlots p.PendingTokenQueue (pos + 1) run.length).getD i "" = _
    rw [clearSlots_getD, if_neg (by omega)]

/-- Instance of C13, Scenario B with one more token beyond a gap: `b@5`, `b@3`, `b@2`,
`a@1` are stored, then `a@0` arrives. The call returns `q0` without error, the frontier
is 4, the engine is in `q1` with an empty stack (the record reached by `a a b b`), the
slots 1 to 3 are empty and slot 5 still holds `b`. -/
theorem drain_cascades_to_first_gap_witness :
    pushToQueue scenarioStoredWithGap 0 "a" =
        (setQueue
          (consumeQueued (consumeQueued (consumeQueued (pushStep scenarioStoredWithGap 0 "a")
            1 "a").1 2 "b").1 3 "b").1
          (clearSlots scenarioStoredWithGap.PendingTokenQueue 1 3), Result.ok "q0") ∧
      (pushToQueue scenarioStoredWithGap 0 "a").1.LastConsumedPosition = 4 ∧
      (pushToQueue scenarioStoredWithGap 0 "a").1.CurrentState = "q1" ∧
      (pushToQueue scenarioStoredWithGap 0 "a").1.Stack = [] ∧
      (pushToQueue scenarioStoredWithGap 0 "a").1.PendingTokenQueue.getD 2 "" = "" ∧
      (pushToQueue scenarioStoredWithGap 0 "a").1.PendingTokenQueue.getD 5 "" = "b" :=
  have h := drain_cascades_to_first_gap scenarioStoredWithGap 0 "a" ["a", "b", "b"]
    (consumeQueued (consumeQueued (consumeQueued (pushStep scenarioStoredWithGap 0 "a")
      1 "a").1 2 "b").1 3 "b").1
    (by decide) (by decide) (by decide) (by decide) (by decide) (by decide) (by decide)
    (by decide) (by decide)
  ⟨h.1, h.2.1, by decide, by decide, h.2.2.2.1 2 (by decide) (by decide),
    (h.2.2.2.2 5 (by decide)).trans (by decide)⟩

/-- C14 (processing stops at the first match failure). Let `pushToQueue(pos, t)` be made
in a state that has not failed, with `pos` not past a declared end of stream, not behind
the consumed positions, and `pos` either `0` or `LastConsumedPosition`.

(1) If no row matches `t` (in the record after the statement that runs `put(0, "")` on
the first token), the call fails with the error "failed to make transition" for `t` at
`pos`; the failure flag is set; the pending queue is unchanged; the current state and the
stack are unchanged.

(2) If `t` has a transition, the slots `pos+1 .. pos+k` hold the non-empty tokens `run`,
each consumed without error in turn (giving the record `F`), and slot `pos+k+1` holds a
token `u` that no row matches in `F`, the call fails with the error "failed to make
transition" for `u` at `pos+k+1`; the failure flag is set; the current state and the
stack are those of `F`, the record produced by the tokens applied before `u`; and every
slot from `pos+k+1` on, the slot of `u` included, is as it was before the call. -/
theorem stops_at_first_match_failure (p : PDAProcessor) (pos : Nat) (t : String)
    (hfailed : p.PDAFailedInLastEvaluation = false)
    (hnotPastEos : ¬ (p.EOSPresentedAtPosition ≠ -1 ∧ p.EOSPresentedAtPosition < (pos : Int)))
    (hnotBehind : ¬ (pos : Int) < p.LastConsumedPosition)
    (hconsumable : (pos : Int) = 0 ∨ (pos : Int) = p.LastConsumedPosition) :
    ((∀ x ∈ (bootstrap p pos).Transitions,
        ruleMatches (bootstrap p pos).CurrentState (examinedTop (bootstrap p pos))
          (bootstrap p pos).Eos t x = false) →
      (pushToQueue p pos t).2 = Result.fail "" (PDAError.noTransition t pos) ∧
        (pushToQueue p pos t).1.PDAFailedInLastEvaluation = true ∧
        (pushToQueue p pos t).1.PendingTokenQueue = p.PendingTokenQueue ∧
        (pushToQueue p pos t).1.CurrentState = (bootstrap p pos).CurrentState ∧
        (pushToQueue p pos t).1.Stack = (bootstrap p pos).Stack) ∧
      (∀ (run : List String) (u : String) (F : PDAProcessor),
        (put (bootstrap p pos) ((pos : Int) + 1) t).2 ≠ "" →
        ¬ (p.EOSPresentedAtPosition ≠ -1 ∧ p.EOSPresentedAtPosition = (pos : Int)) →
        (∀ x, x < run.length →
          p.PendingTokenQueue.getD (pos + 1 + x) "" = run.getD x "") →
        (∀ v ∈ run, v ≠ "") →
        consumeAll (pushStep p pos t) (pos + 1) run = some F →
        p.PendingTokenQueue.getD (pos + 1 + run.length) "" = u →
        u ≠ "" →
        (∀ x ∈ F.Transitions,
          ruleMatches F.CurrentState (examinedTop F) F.Eos u x = false) →
        (pushToQueue p pos t).2 =
            Result.fail (put (bootstrap p pos) ((pos : Int) + 1) t).2
              (PDAError.noTransition u ((pos + 1 + run.length : Nat) : Int)) ∧
          (pushToQueue p pos t).1.PDAFailedInLastEvaluation = true ∧
          (pushToQueue p pos t).1.CurrentState = F.CurrentState ∧
          (pushToQueue p pos t).1.Stack = F.Stack ∧
          (∀ i, pos + 1 + run.length ≤ i →
            (pushToQueue p pos t).1.PendingTokenQueue.getD i "" =
              p.PendingTokenQueue.getD i "")) := by
  refine ⟨?_, ?_⟩
  · intro hnone
    rw [pushToQueue_first_fails p pos t hfailed hnotPastEos hnotBehind hconsumable hnone]
    refine ⟨rfl, rfl, ?_, ?_, ?_⟩
    · show (refreshStackTop (bootstrap p pos)).PendingTokenQueue = _
      rw [(refreshStackTop_frame _).2.1, (bootstrap_frame p pos).1]
    · exact (refreshStackTop_state _).1
    · exact (refreshStackTop_state _).2
  · intro run u F hfirst hnotEosHere hslots hne hall hslot hu hnone
    rw [pushToQueue_drain_fails p pos t run u F hfailed hnotPastEos hnotBehind hconsumable
      hfirst hnotEosHere hslots hne hall hslot hu hnone]
    refine ⟨rfl, rfl, (refreshStackTop_state F).1, (refreshStackTop_state F).2, ?_⟩
    intro i hi
    show (clearSlots p.PendingTokenQueue (pos + 1) run.length).getD i "" = _
    rw [clearSlots_getD, if_neg (by omega)]

/-- Instance of C14 on the Scenario A table. (1) On the fresh engine `b@0` has no
transition: the call fails for `b` at 0, the flag is set, the queue is unchanged.
(2) With `b@3`, `a@2`, `b@1` stored, `a@0` is consumed, then `b@1`, and `a@2` has no
transition from `q1`: the call fails for `a` at 2, the flag is set, the engine is in `q1`
with an empty stack, and the slots 2 and 3 still hold `a` and `b`. -/
theorem stops_at_first_match_failure_witness :
    ((pushToQueue scenarioFresh 0 "b").2 = Result.fail "" (PDAError.noTransition "b" 0) ∧
        (pushToQueue scenarioFresh 0 "b").1.PDAFailedInLastEvaluation = true ∧
        (pushToQueue scenarioFresh 0 "b").1.PendingTokenQueue =
          scenarioFresh.PendingTokenQueue) ∧
      ((pushToQueue scenarioStoredMismatch 0 "a").2 =
          Result.fail "q0" (PDAError.noTransition "a" 2) ∧
        (pushToQueue scenarioStoredMismatch 0 "a").1.PDAFailedInLastEvaluation = true ∧
        (pushToQueue scenarioStoredMismatch 0 "a").1.CurrentState = "q1" ∧
        (pushToQueue scenarioStoredMismatch 0 "a").1.Stack = [] ∧
        (pushToQueue scenarioStoredMismatch 0 "a").1.PendingTokenQueue.getD 2 "" = "a" ∧
        (pushToQueue scenarioStoredMismatch 0 "a").1.PendingTokenQueue.getD 3 "" = "b") :=
  have h1 := (stops_at_first_match_failure scenarioFresh 0 "b" (by decide) (by decide)
    (by decide) (by decide)).1 (by decide)
  have h2 := (stops_at_first_match_failure scenarioStoredMismatch 0 "a" (by decide)
    (by decide) (by decide) (by decide)).2 ["b"] "a"
    (consumeQueued (pushStep scenarioStoredMismatch 0 "a") 1 "b").1
    (by decide) (by decide) (by decide) (by decide) (by decide) (by decide) (by decide)
    (by decide)
  ⟨⟨h1.1, h1.2.1, h1.2.2.1⟩,
    ⟨h2.1, h2.2.1, h2.2.2.1.trans (by decide), h2.2.2.2.1.trans (by decide),
      (h2.2.2.2.2 2 (by decide)).trans (by decide),
      (h2.2.2.2.2 3 (by decide)).trans (by decide)⟩⟩

/-- C15 (EOS reconciliation requires an EOS-only stack), evaluated on the code. On
`markerTable`, after `a@0, b@1` the stack is `[a, $]`; `presentEOS(1)` runs the
reconciliation, which looks at the top symbol only: it takes the epsilon row, pops `$`,
returns without error and leaves the failure flag unset. The same happens in
`pushToQueue` when the end of stream was declared first (`presentEOS(1)`, `a@0`, then
`b@1`). -/
theorem reconciliation_checks_only_top :
    markerAfterAB.Stack = ["a", "$"] ∧
      (presentEOS markerAfterAB 1).2 = Result.ok () ∧
      (presentEOS markerAfterAB 1).1.Stack = ["a"] ∧
      (presentEOS markerAfterAB 1).1.PDAFailedInLastEvaluation = false ∧
      (pushToQueue (runCalls markerFresh [Call.endOfStream 1, Call.token 0 "a"]) 1 "b").2 =
        Result.ok "q0" ∧
      (pushToQueue (runCalls markerFresh [Call.endOfStream 1, Call.token 0 "a"]) 1 "b").1.Stack
        = ["a"] ∧
      (pushToQueue (runCalls markerFresh [Call.endOfStream 1, Call.token 0 "a"]) 1
        "b").1.PDAFailedInLastEvaluation = false := by
  decide

/-- C16 (EOS cannot be declared behind consumed material). In a state that has not
failed, `presentEOS(position)` with `position < LastConsumedPosition - 1` returns the
"already consumed" error and leaves the record, `EOSPresentedAtPosition` included, as it
is. -/
theorem presentEOS_behind_frontier (p : PDAProcessor) (position : Int)
    (hfailed : p.PDAFailedInLastEvaluation = false)
    (hbehind : position < p.LastConsumedPosition - 1) :
    presentEOS p position = (p, Result.fail () PDAError.eosBehindConsumed) := by
  unfold presentEOS
  rw [if_neg (by simp [hfailed]), if_pos hbehind]

/-- Instance of C16: after `a@0, a@1` in Scenario A, `presentEOS(0)` is rejected. -/
theorem presentEOS_behind_frontier_witness :
    scenarioAfterAA.PDAFailedInLastEvaluation = false ∧
      (0 : Int) < scenarioAfterAA.LastConsumedPosition - 1 ∧
      presentEOS scenarioAfterAA 0 = (scenarioAfterAA, Result.fail () PDAError.eosBehindConsumed) :=
  ⟨by decide, by decide, presentEOS_behind_frontier scenarioAfterAA 0 (by decide) (by decide)⟩

/-- C17 (immediate versus deferred EOS). In a state that has not failed, for a position
that is not rejected as behind the frontier, `presentEOS(position)` leaves
`EOSPresentedAtPosition = position`; when `position = LastConsumedPosition - 1` (what the
engine reports as the last consumed position) the call is the reconciliation
`reachedEOS` run on the record with the position set; otherwise no reconciliation runs
and the record afterwards is the record before with only `EOSPresentedAtPosition`
changed. -/
theorem presentEOS_immediate_or_deferred (p : PDAProcessor) (position : Int)
    (hfailed : p.PDAFailedInLastEvaluation = false)
    (hnotBehind : ¬ position < p.LastConsumedPosition - 1) :
    (presentEOS p position).1.EOSPresentedAtPosition = position ∧
      (position = p.LastConsumedPosition - 1 →
        presentEOS p position =
          match reachedEOS { p with EOSPresentedAtPosition := position } with
          | (p2, Result.ok _) => (p2, Result.ok ())
          | (p2, Result.fail _ e) => (p2, Result.fail () e)
          | (p2, Result.panic) => (p2, Result.panic)) ∧
      (position ≠ p.LastConsumedPosition - 1 →
        presentEOS p position =
          ({ p with EOSPresentedAtPosition := position }, Result.ok ())) :=
  ⟨presentEOS_sets_position p position hfailed hnotBehind,
    fun hat => presentEOS_at_frontier p position hfailed hat,
    fun hne => presentEOS_ahead p position hfailed (by omega)⟩

/-- Instance of C17: on `markerTable` after `b@0, b@1`, `presentEOS(1)` reconciles at
once (one `$` is popped) and `presentEOS(4)` only records the position. -/
theorem presentEOS_immediate_or_deferred_witness :
    (runCalls markerFresh [Call.token 0 "b", Call.token 1 "b"]).PDAFailedInLastEvaluation
        = false ∧
      ¬ (1 : Int) <
        (runCalls markerFresh [Call.token 0 "b", Call.token 1 "b"]).LastConsumedPosition - 1 ∧
      (presentEOS (runCalls markerFresh [Call.token 0 "b", Call.token 1 "b"])
        1).1.EOSPresentedAtPosition = 1 ∧
      (presentEOS (runCalls markerFresh [Call.token 0 "b", Call.token 1 "b"]) 1).1.Stack
        = ["$"] ∧
      presentEOS (runCalls markerFresh [Call.token 0 "b", Call.token 1 "b"]) 4 =
        ({ runCalls markerFresh [Call.token 0 "b", Call.token 1 "b"] with
            EOSPresentedAtPosition := 4 }, Result.ok ()) :=
  ⟨by decide, by decide,
    (presentEOS_immediate_or_deferred
      (runCalls markerFresh [Call.token 0 "b", Call.token 1 "b"]) 1 (by decide)
      (by decide)).1,
    by
      rw [(presentEOS_immediate_or_deferred
        (runCalls markerFresh [Call.token 0 "b", Call.token 1 "b"]) 1 (by decide)
        (by decide)).2.1 (by decide)]
      decide,
    (presentEOS_immediate_or_deferred
      (runCalls markerFresh [Call.token 0 "b", Call.token 1 "b"]) 4 (by decide)
      (by decide)).2.2 (by decide)⟩

/-- C18 (Scenario D), as stated, fails on the code. On the fresh Scenario A engine
(`LastConsumedPosition = -1`) `presentEOS(2)` returns without error and records the
position: `EOSPresentedAtPosition` becomes 2. -/
theorem presentEOS_ahead_of_fresh_succeeds :
    scenarioFresh.LastConsumedPosition = -1 ∧
      scenarioFresh.EOSPresentedAtPosition = -1 ∧
      (presentEOS scenarioFresh 2).2 = Result.ok () ∧
      (presentEOS scenarioFresh 2).1.EOSPresentedAtPosition = 2 := by
  decide

/-- C18, amended. In a state that has not failed, `presentEOS(position)` returns the
out-of-order error exactly when `position < LastConsumedPosition - 1`; a position ahead
of `LastConsumedPosition - 1`, however far, is accepted: the call returns without error
and only records the position. In particular on a freshly reset engine every
`presentEOS(position)` with `position ≥ -1` succeeds. -/
theorem presentEOS_rejects_only_behind (p : PDAProcessor) (position : Int)
    (hfailed : p.PDAFailedInLastEvaluation = false) :
    ((presentEOS p position).2 = Result.fail () PDAError.eosBehindConsumed ↔
        position < p.LastConsumedPosition - 1) ∧
      (p.LastConsumedPosition - 1 < position →
        presentEOS p position =
          ({ p with EOSPresentedAtPosition := position }, Result.ok ())) ∧
      (∀ (queueLength : Nat) (table : PDAProcessor) (isReset : Bool), -1 ≤ position →
        presentEOS (reset queueLength table isReset) position =
          ({ reset queueLength table isReset with EOSPresentedAtPosition := position },
            Result.ok ())) := by
  refine ⟨⟨?_, ?_⟩, fun h => presentEOS_ahead p position hfailed h, ?_⟩
  · intro hres
    by_contra hnb
    by_cases hat : position = p.LastConsumedPosition - 1
    · rw [presentEOS_at_frontier p position hfailed hat] at hres
      have hn := reachedEOS_never_behind { p with EOSPresentedAtPosition := position }
      split at hres <;> rename_i heq <;> rw [heq] at hn
      · simp at hres
      · simp only [Result.fail.injEq, true_and] at hres
        exact hn _ (by rw [hres])
      · simp at hres
    · rw [presentEOS_ahead p position hfailed (by omega)] at hres
      simp at hres
  · intro hb
    unfold presentEOS
    rw [if_neg (by simp [hfailed]), if_pos hb]
  · intro queueLength table isReset hge
    obtain ⟨f1, _, _, f4⟩ := reset_fresh queueLength table isReset
    have hl : (reset queueLength table isReset).LastConsumedPosition = -1 := by
      rcases f1.2 f4 with h | h
      · exact h.2
      · omega
    exact presentEOS_ahead _ position f4 (by rw [hl]; omega)

/-- Instance of C18: on the fresh Scenario A engine `presentEOS(2)` only records the
position. -/
theorem presentEOS_rejects_only_behind_witness :
    scenarioFresh.PDAFailedInLastEvaluation = false ∧
      presentEOS scenarioFresh 2 =
        ({ scenarioFresh with EOSPresentedAtPosition := 2 }, Result.ok ()) :=
  ⟨by decide,
    (presentEOS_rejects_only_behind scenarioFresh 2 (by decide)).2.1 (by decide)⟩

/-- C19 (EOS is one-shot), as stated, fails on the code. On `markerTable`, after
`b@0, b@1` and a first `presentEOS(1)` that succeeded (`EOSPresentedAtPosition = 1`,
stack `[$]`), a second `presentEOS(2)` succeeds too: it changes
`EOSPresentedAtPosition` to 2 and runs the reconciliation again, popping the remaining
`$`. -/
theorem presentEOS_twice :
    markerAfterFirstEos.EOSPresentedAtPosition = 1 ∧
      markerAfterFirstEos.Stack = ["$"] ∧
      markerAfterFirstEos.PDAFailedInLastEvaluation = false ∧
      (presentEOS markerAfterFirstEos 2).2 = Result.ok () ∧
      (presentEOS markerAfterFirstEos 2).1.EOSPresentedAtPosition = 2 ∧
      (presentEOS markerAfterFirstEos 2).1.Stack = [] := by
  decide

/-- C19, amended. `presentEOS` does not look at an earlier declaration: in a state that
has not failed, for a position that is not behind the frontier, the call does exactly
what it would do had `EOSPresentedAtPosition` held any other value, and
`EOSPresentedAtPosition` is the new position afterwards; `reset` puts it back to `-1`. -/
theorem presentEOS_ignores_earlier_declaration (p : PDAProcessor) (position earlier : Int)
    (hfailed : p.PDAFailedInLastEvaluation = false)
    (hnotBehind : ¬ position < p.LastConsumedPosition - 1) :
    presentEOS { p with EOSPresentedAtPosition := earlier } position = presentEOS p position ∧
      (presentEOS p position).1.EOSPresentedAtPosition = position ∧
      (∀ (queueLength : Nat) (isReset : Bool),
        (reset queueLength p isReset).EOSPresentedAtPosition = -1) := by
  refine ⟨?_, presentEOS_sets_position p position hfailed hnotBehind, ?_⟩
  · unfold presentEOS
    simp only [hfailed, Bool.false_eq_true, if_false, hnotBehind]
  · intro queueLength isReset
    exact (reset_fresh queueLength p isReset).1.1

/-- Instance of C19: the second `presentEOS(2)` on `markerTable` does what it would do
with no end of stream declared. -/
theorem presentEOS_ignores_earlier_declaration_witness :
    markerAfterFirstEos.PDAFailedInLastEvaluation = false ∧
      ¬ (2 : Int) < markerAfterFirstEos.LastConsumedPosition - 1 ∧
      presentEOS { markerAfterFirstEos with EOSPresentedAtPosition := -1 } 2 =
        presentEOS markerAfterFirstEos 2 ∧
      (presentEOS markerAfterFirstEos 2).1.EOSPresentedAtPosition = 2 :=
  ⟨by decide, by decide,
    (presentEOS_ignores_earlier_declaration markerAfterFirstEos 2 (-1) (by decide)
      (by decide)).1,
    (presentEOS_ignores_earlier_declaration markerAfterFirstEos 2 (-1) (by decide)
      (by decide)).2.1⟩

/-- C20 (no crash on bad input), evaluated on the code. On the Scenario A table, after
`a@0, a@1, b@2, b@3` the stack is empty and `presentEOS(3)` runs the reconciliation,
whose `eos()` reads `Stack[len(Stack)-1]`: the call panics; it returns no error and the
failure flag is not set. A position past the queue makes `pushToQueue` panic as well. -/
theorem reconciliation_on_empty_stack_panics :
    scenarioAfterAABB.Stack = [] ∧
      scenarioAfterAABB.LastConsumedPosition = 4 ∧
      (presentEOS scenarioAfterAABB 3).2 = Result.panic ∧
      (presentEOS scenarioAfterAABB 3).1.PDAFailedInLastEvaluation = false ∧
      (pushToQueue scenarioAfterAABB 9 "a").2 = Result.panic := by
  decide

/-- C21 (acceptance test). For every record, `is_accepted()` answers true iff
`CurrentState` is one of `AcceptingStates` and the number of stack entries different
from `Eos` is zero; `PDAService.stackLength` returns that number, so the answer is true
iff the state is accepting and `stackLength()` is 0. -/
theorem acceptance_test (p : PDAProcessor) :
    ((is_accepted p).2 = true ↔
        p.CurrentState ∈ p.AcceptingStates ∧
          p.Stack.countP (fun s => decide (s ≠ p.Eos)) = 0) ∧
      stackLength (some p) p.ID =
        (some p,
          ServiceResult.ok ((p.Stack.countP (fun s => decide (s ≠ p.Eos)) : Nat) : Int)) ∧
      ((is_accepted p).2 = true ↔
        p.CurrentState ∈ p.AcceptingStates ∧
          (stackLength (some p) p.ID).2 = ServiceResult.ok 0) := by
  have hs : stackLength (some p) p.ID =
      (some p,
        ServiceResult.ok ((p.Stack.countP (fun s => decide (s ≠ p.Eos)) : Nat) : Int)) := by
    unfold stackLength
    simp only [ne_eq, not_true_eq_false, if_false]
    rw [stackLengthLoop_eq]
  refine ⟨is_accepted_iff p, hs, ?_⟩
  rw [is_accepted_iff, hs]
  simp only [ServiceResult.ok.injEq]
  constructor
  · rintro ⟨h1, h2⟩
    exact ⟨h1, by rw [h2]; rfl⟩
  · rintro ⟨h1, h2⟩
    exact ⟨h1, by exact_mod_cast h2⟩

/-- C22 (acceptance implies no failure), as stated, fails on the code. In Scenario A
after `a@0, b@1` the engine is in the accepting state `q1` with an empty stack; `a@2`
has no transition, so the failure flag is set, and `is_accepted()` still answers true. -/
theorem accepted_while_failed :
    scenarioFailedInAccepting =
        runCalls scenarioFresh [Call.token 0 "a", Call.token 1 "b", Call.token 2 "a"] ∧
      scenarioFailedInAccepting.PDAFailedInLastEvaluation = true ∧
      scenarioFailedInAccepting.CurrentState = "q1" ∧
      scenarioFailedInAccepting.Stack = [] ∧
      (is_accepted scenarioFailedInAccepting).2 = true := by
  decide

/-- C22, amended. `is_accepted()` does not look at the failure flag: its answer is the
same whatever the flag holds. When a token presented at the frontier has no matching
row, the call sets the flag and leaves the answer of `is_accepted()` as it was, and so
does every sequence of later calls; acceptance and failure can therefore hold together. -/
theorem is_accepted_ignores_failure (p : PDAProcessor) (pos : Nat) (t : String)
    (hfailed : p.PDAFailedInLastEvaluation = false)
    (hnotPastEos : ¬ (p.EOSPresentedAtPosition ≠ -1 ∧ p.EOSPresentedAtPosition < (pos : Int)))
    (hat : (pos : Int) = p.LastConsumedPosition)
    (hnone : ∀ x ∈ p.Transitions,
      ruleMatches p.CurrentState (examinedTop p) p.Eos t x = false) :
    (∀ flag : Bool,
        (is_accepted { p with PDAFailedInLastEvaluation := flag }).2 = (is_accepted p).2) ∧
      (pushToQueue p pos t).1.PDAFailedInLastEvaluation = true ∧
      (is_accepted (pushToQueue p pos t).1).2 = (is_accepted p).2 ∧
      (∀ calls : List Call,
        (is_accepted (runCalls (pushToQueue p pos t).1 calls)).2 = (is_accepted p).2) := by
  obtain ⟨h1, h2⟩ := is_accepted_after_failure p pos t hfailed hnotPastEos hat hnone
  refine ⟨fun _ => rfl, h1, h2, ?_⟩
  intro calls
  rw [runCalls_of_failed calls _ h1, h2]

/-- Instance of C22: Scenario A after `a@0, b@1` is accepted; `a@2` fails and the engine
is still accepted, also after a further `b@3` and `presentEOS(3)`. -/
theorem is_accepted_ignores_failure_witness :
    (is_accepted scenarioAfterAB).2 = true ∧
      (pushToQueue scenarioAfterAB 2 "a").1.PDAFailedInLastEvaluation = true ∧
      (is_accepted (pushToQueue scenarioAfterAB 2 "a").1).2 = true ∧
      (is_accepted (runCalls (pushToQueue scenarioAfterAB 2 "a").1
        [Call.token 3 "b", Call.endOfStream 3])).2 = true :=
  have h := is_accepted_ignores_failure scenarioAfterAB 2 "a" (by decide) (by decide)
    (by decide) (by decide)
  ⟨by decide, h.2.1, h.2.2.1.trans (by decide),
    (h.2.2.2 [Call.token 3 "b", Call.endOfStream 3]).trans (by decide)⟩

/-- C23 (peek). For every record and every integer `k`, `peek(k)` returns a suffix of
the stack (its last entries, bottom to top) of length `min (max k 1) (len Stack)` and
leaves the stack as it is; `peek(0)` and `peek(-1)` are `peek(1)`; and for `k` at least
the stack size the whole stack is returned. -/
theorem peek_returns_top (p : PDAProcessor) (k : Int) :
    List.IsSuffix (peek p k).2 p.Stack ∧
      ((peek p k).2.length : Int) = min (max k 1) (p.Stack.length : Int) ∧
      (peek p k).1.Stack = p.Stack ∧
      peek p 0 = peek p 1 ∧
      peek p (-1) = peek p 1 ∧
      ((p.Stack.length : Int) ≤ k → (peek p k).2 = p.Stack) := by
  obtain ⟨h1, h2⟩ := peek_cases p k
  refine ⟨?_, ?_, ?_, rfl, rfl, ?_⟩
  · rw [h2]
    exact List.drop_suffix _ _
  · rw [h2, List.length_drop]
    omega
  · rw [h1]
  · intro hk
    rw [h2]
    have : min (max k 1).toNat p.Stack.length = p.Stack.length := by omega
    rw [this]
    simp

/-- Instance of C23: in Scenario A after `a@0, a@1` the stack is `[a, a]`; `peek(1)`,
`peek(0)` and `peek(-1)` return `[a]`, and `peek(2)`, `peek(5)` return the whole stack. -/
theorem peek_returns_top_witness :
    scenarioAfterAA.Stack = ["a", "a"] ∧
      (peek scenarioAfterAA 1).2 = ["a"] ∧
      peek scenarioAfterAA 0 = peek scenarioAfterAA 1 ∧
      peek scenarioAfterAA (-1) = peek scenarioAfterAA 1 ∧
      (peek scenarioAfterAA 2).2 = scenarioAfterAA.Stack ∧
      (peek scenarioAfterAA 5).2 = scenarioAfterAA.Stack :=
  ⟨by decide, by decide, (peek_returns_top scenarioAfterAA 0).2.2.2.1,
    (peek_returns_top scenarioAfterAA 0).2.2.2.2.1,
    (peek_returns_top scenarioAfterAA 2).2.2.2.2.2 (by decide),
    (peek_returns_top scenarioAfterAA 5).2.2.2.2.2 (by decide)⟩

/-- C24 (queued tokens). For every record, `queued_tokens()` returns the tokens of the
occupied slots of `PendingTokenQueue`: the entry of each position whose slot is not
empty, once, the positions taken in ascending order; the record is not modified. -/
theorem queued_tokens_lists_occupied_slots (p : PDAProcessor) :
    (queued_tokens p).2 =
        ((List.range p.PendingTokenQueue.length).filter
          (fun i => decide (p.PendingTokenQueue.getD i "" ≠ ""))).map
          (fun i => p.PendingTokenQueue.getD i "") ∧
      (queued_tokens p).1 = p := by
  refine ⟨?_, rfl⟩
  show truncateEmptyTokens p.PendingTokenQueue = _
  rw [truncateEmptyTokens_eq_filter]
  exact filter_eq_map_positions (fun t => decide (t ≠ "")) p.PendingTokenQueue

/-- C25 (reset). For every prior record, `reset` yields `CurrentState = StartState`, an
empty stack, a pending queue whose slots are all empty, `LastConsumedPosition = -1`,
`EOSPresentedAtPosition = -1`, the failure flag unset, and no entry in
`TransitionsTaken` other than the start state (exactly the one entry `StartState` when
that is not the empty string); the fields of the table are untouched; and a second
`reset` changes no field but the clock. -/
theorem reset_reinitialises (queueLength : Nat) (p : PDAProcessor) (isReset again : Bool) :
    (reset queueLength p isReset).CurrentState = p.StartState ∧
      (reset queueLength p isReset).Stack = [] ∧
      (reset queueLength p isReset).PendingTokenQueue = List.replicate queueLength "" ∧
      (∀ i, (reset queueLength p isReset).PendingTokenQueue.getD i "" = "") ∧
      (reset queueLength p isReset).LastConsumedPosition = -1 ∧
      (reset queueLength p isReset).EOSPresentedAtPosition = -1 ∧
      (reset queueLength p isReset).PDAFailedInLastEvaluation = false ∧
      (∀ s ∈ (reset queueLength p isReset).TransitionsTaken, s = p.StartState) ∧
      (p.StartState ≠ "" →
        (reset queueLength p isReset).TransitionsTaken = [p.StartState]) ∧
      ((reset queueLength p isReset).ID = p.ID ∧
        (reset queueLength p isReset).Name = p.Name ∧
        (reset queueLength p isReset).States = p.States ∧
        (reset queueLength p isReset).InputAlphabet = p.InputAlphabet ∧
        (reset queueLength p isReset).StackAlphabet = p.StackAlphabet ∧
        (reset queueLength p isReset).AcceptingStates = p.AcceptingStates ∧
        (reset queueLength p isReset).StartState = p.StartState ∧
        (reset queueLength p isReset).Transitions = p.Transitions ∧
        (reset queueLength p isReset).Eos = p.Eos) ∧
      (∀ c : Int,
        { reset queueLength (reset queueLength p isReset) again with PdaClock := c } =
          { reset queueLength p isReset with PdaClock := c }) := by
  have hq := (reset_fresh queueLength p isReset).2.1
  unfold reset addTransitionIfRequired at hq ⊢
  by_cases h : p.StartState = ""
  · simp only [h, ne_eq, not_true_eq_false, if_false] at hq ⊢
    simp [hq]
  · simp only [h, ne_eq, not_false_eq_true, if_true] at hq ⊢
    simp [hq]

/-- Instance of C25: the Scenario A engine that stored `b@3`, had the end of stream
declared at 5 and failed on `b@0` is put back by `reset`: state `q0`, empty stack and
queue, frontier and EOS position `-1`, flag unset, `TransitionsTaken = [q0]`. -/
theorem reset_reinitialises_witness :
    (runCalls scenarioFresh
        [Call.token 3 "b", Call.endOfStream 5, Call.token 0 "b"]).PDAFailedInLastEvaluation
        = true ∧
      (runCalls scenarioFresh
        [Call.token 3 "b", Call.endOfStream 5, Call.token 0 "b"]).EOSPresentedAtPosition = 5 ∧
      (runCalls scenarioFresh
        [Call.token 3 "b", Call.endOfStream 5, Call.token 0 "b"]).PendingTokenQueue.getD 3 ""
        = "b" ∧
      (reset 8 (runCalls scenarioFresh
        [Call.token 3 "b", Call.endOfStream 5, Call.token 0 "b"]) true).TransitionsTaken
        = ["q0"] ∧
      (reset 8 (runCalls scenarioFresh
        [Call.token 3 "b", Call.endOfStream 5, Call.token 0 "b"]) true).PendingTokenQueue
        = List.replicate 8 "" :=
  ⟨by decide, by decide, by decide,
    (reset_reinitialises 8 (runCalls scenarioFresh
      [Call.token 3 "b", Call.endOfStream 5, Call.token 0 "b"]) true true).2.2.2.2.2.2.2.2.1
      (by decide),
    (reset_reinitialises 8 (runCalls scenarioFresh
      [Call.token 3 "b", Call.endOfStream 5, Call.token 0 "b"]) true true).2.2.1⟩

/-- C26 (Scenario C, unsupported symbol). For every record of a session, every position
and every token that is not in `InputAlphabet`, `PDAService.presentToken` with the id of
the record returns the error "input token is not supported by PDA" and the record is
unchanged; with any id the record is unchanged and an error is returned. -/
theorem presentToken_unsupported_symbol (p : PDAProcessor) (pdaId : Int) (token : String)
    (position : Int) (hnot : token ∉ p.InputAlphabet) :
    presentToken (some p) p.ID token position =
        (some p, ServiceResult.fail false ServiceError.unsupportedToken) ∧
      (presentToken (some p) pdaId token position).1 = some p ∧
      ∃ e, (presentToken (some p) pdaId token position).2 = ServiceResult.fail false e :=
  ⟨presentToken_of_unsupported p token position hnot,
    presentToken_unsupported_frame (some p) pdaId token position (fun q hq => by
      cases hq; exact hnot)⟩

/-- Instance of C26: in the Scenario A engine that waits for position 0 with tokens
stored, the token `c` at position 0 is refused and nothing changes. -/
theorem presentToken_unsupported_symbol_witness :
    "c" ∉ scenarioStoredWithGap.InputAlphabet ∧
      presentToken (some scenarioStoredWithGap) 1 "c" 0 =
        (some scenarioStoredWithGap, ServiceResult.fail false ServiceError.unsupportedToken) :=
  ⟨by decide, (presentToken_unsupported_symbol scenarioStoredWithGap 1 "c" 0 (by decide)).1⟩

/-- C27 (table validation at construction). `validatePDADetails` fails for every table
whose `States`, `InputAlphabet`, `StackAlphabet` or `AcceptingStates` is empty or whose
`StartState` or `Eos` is the empty string, and succeeds for every table with a positive
id not used by an available PDA and a non-empty name in which all of these are
non-empty. -/
theorem validatePDADetails_checks_nonempty (availablePDAs : List PDAProcessor) (id : Int)
    (p : PDAProcessor) :
    (p.States = [] ∨ p.InputAlphabet = [] ∨ p.StackAlphabet = [] ∨ p.AcceptingStates = [] ∨
        p.StartState = "" ∨ p.Eos = "" →
      ∃ e, validatePDADetails availablePDAs id p = (false, some e)) ∧
      (0 < id → (∀ pda ∈ availablePDAs, pda.ID ≠ id) → p.Name ≠ "" →
        p.States ≠ [] → p.InputAlphabet ≠ [] → p.StackAlphabet ≠ [] →
        p.AcceptingStates ≠ [] → p.StartState ≠ "" → p.Eos ≠ "" →
        validatePDADetails availablePDAs id p = (true, none)) := by
  constructor
  · intro h
    apply validatePDADetails_fails
    intro hv
    obtain ⟨_, _, _, h4, h5, h6, h7, h8, h9⟩ := (validatePDADetails_iff _ _ _).mp hv
    rcases h with h | h | h | h | h | h
    · exact h6 h
    · exact h7 h
    · exact h8 h
    · exact h9 h
    · exact h4 h
    · exact h5 h
  · intro h1 h2 h3 h6 h7 h8 h9 h4 h5
    apply (validatePDADetails_iff _ _ _).mpr
    refine ⟨h1, ?_, h3, h4, h5, h6, h7, h8, h9⟩
    cases hu : idInUse availablePDAs id with
    | false => rfl
    | true =>
      obtain ⟨pda, hm, he⟩ := (idInUse_iff _ _).mp hu
      exact absurd he (h2 pda hm)

/-- Instance of C27: the Scenario A table validates with the unused id 1; without
states it is refused. -/
theorem validatePDADetails_checks_nonempty_witness :
    validatePDADetails [] 1 scenarioTable = (true, none) ∧
      ∃ e, validatePDADetails [] 1 { scenarioTable with States := [] } = (false, some e) :=
  ⟨(validatePDADetails_checks_nonempty [] 1 scenarioTable).2 (by decide) (by decide)
      (by decide) (by decide) (by decide) (by decide) (by decide) (by decide) (by decide),
    (validatePDADetails_checks_nonempty [] 1 { scenarioTable with States := [] }).1
      (Or.inl rfl)⟩

/-- C28 (start state must be a declared state), as stated, fails on the code. The
Scenario A table with `StartState = "q9"`, which is not among its states `q0`, `q1`,
passes `validatePDADetails`. -/
theorem undeclared_start_state_validates :
    undeclaredStartTable.States = ["q0", "q1"] ∧
      undeclaredStartTable.StartState = "q9" ∧
      undeclaredStartTable.StartState ∉ undeclaredStartTable.States ∧
      validatePDADetails [] 1 undeclaredStartTable = (true, none) := by
  decide

/-- C28, amended. The only test `validatePDADetails` makes on the start state is that it
is not the empty string: a table that validates still validates when its start state is
replaced by any non-empty string, declared or not, and no table validates with the
empty start state. -/
theorem validatePDADetails_ignores_membership (availablePDAs : List PDAProcessor) (id : Int)
    (p : PDAProcessor) (s : String) (hs : s ≠ "")
    (hvalid : validatePDADetails availablePDAs id p = (true, none)) :
    validatePDADetails availablePDAs id { p with StartState := s } = (true, none) ∧
      validatePDADetails availablePDAs id { p with StartState := "" } =
        (false, some ValidationError.startStateEmpty) := by
  obtain ⟨h1, h2, h3, _, h5, h6, h7, h8, h9⟩ := (validatePDADetails_iff _ _ _).mp hvalid
  refine ⟨(validatePDADetails_iff _ _ _).mpr ⟨h1, h2, h3, hs, h5, h6, h7, h8, h9⟩, ?_⟩
  unfold validatePDADetails
  rw [if_neg (by omega), h2]
  simp only [Bool.false_eq_true, if_false, h3, if_true]

/-- Instance of C28: the Scenario A table validates, and so does the same table with
the start state `q9`. -/
theorem validatePDADetails_ignores_membership_witness :
    validatePDADetails [] 1 scenarioTable = (true, none) ∧
      validatePDADetails [] 1 { scenarioTable with StartState := "q9" } = (true, none) :=
  ⟨by decide,
    (validatePDADetails_ignores_membership [] 1 scenarioTable "q9" (by decide)
      (by decide)).1⟩

/-- C29 (queries are side-effect-free), as stated, fails on the code. On the fresh
Scenario A engine `is_accepted()` and `peek(1)` each advance `PdaClock` by one, so the
record after the call differs from the record before. -/
theorem queries_tick_the_clock :
    (is_accepted scenarioFresh).1.PdaClock = scenarioFresh.PdaClock + 1 ∧
      (is_accepted scenarioFresh).1 ≠ scenarioFresh ∧
      (peek scenarioFresh 1).1.PdaClock = scenarioFresh.PdaClock + 1 ∧
      (peek scenarioFresh 1).1 ≠ scenarioFresh := by
  decide

/-- C29, amended. `is_accepted()` and `peek(k)` change `PdaClock`, which they increase by
one, and no other field; `queued_tokens()`, `current_state()`, `PDAService.currentState`
and `PDAService.stackLength` leave every field as it was. -/
theorem queries_change_only_the_clock (p : PDAProcessor) (k pdaId : Int) :
    (is_accepted p).1 = { p with PdaClock := p.PdaClock + 1 } ∧
      (peek p k).1 = { p with PdaClock := p.PdaClock + 1 } ∧
      (queued_tokens p).1 = p ∧
      (current_state p).1 = p ∧
      (currentState (some p) pdaId).1 = some p ∧
      (stackLength (some p) pdaId).1 = some p := by
  refine ⟨rfl, (peek_cases p k).1, rfl, rfl, ?_, ?_⟩
  · unfold currentState
    simp only
    split <;> rfl
  · unfold stackLength
    simp only
    split <;> rfl

/-- C30 (implicit stack-bottom marker), as stated, fails on the code. With the Scenario A
table the stack after `a@0` is `[a]`, its bottom element is not `$`; after
`a@0, a@1, b@2, b@3` the stack is empty, not `[$]`; and `presentEOS(4)` then takes no
transition: it only records the position. -/
theorem scenarioA_has_no_bottom_marker :
    scenarioAfterA.Stack = ["a"] ∧
      scenarioAfterAABB.Stack = [] ∧
      presentEOS scenarioAfterAABB 4 =
        ({ scenarioAfterAABB with EOSPresentedAtPosition := 4 }, Result.ok ()) := by
  decide

/-- C30, amended. The engine pushes no symbol of its own. On a freshly reset engine the
first call `pushToQueue(0, t)` consumes `t` in the record left by `put(0, "")`, whose
stack is decided by the table: it is empty when no row matches the empty token in the
start state, and otherwise holds what the first such row pushes (nothing when that row
pops). The bottom of the stack is the EOS symbol only if the table has such a row
pushing it. -/
theorem bottom_marker_comes_from_table (queueLength : Nat) (table : PDAProcessor)
    (isReset : Bool) (t : String) :
    pushToQueue (reset queueLength table isReset) 0 t =
        consumeToken (bootstrap (reset queueLength table isReset) 0) 0 t false ∧
      ((∀ x ∈ table.Transitions, ruleMatches table.StartState "" table.Eos "" x = false) →
        (bootstrap (reset queueLength table isReset) 0).Stack = []) ∧
      (∀ r, table.Transitions.find? (ruleMatches table.StartState "" table.Eos "") = some r →
        (bootstrap (reset queueLength table isReset) 0).Stack =
          if r.elementToPush = "" then [] else [r.elementToPush]) := by
  obtain ⟨_, _, _, _, _, f6, f7⟩ := reset_fields queueLength table isReset
  refine ⟨?_, ?_, ?_⟩
  · exact pushToQueue_consumable _ 0 t (reset_failed queueLength table isReset)
      (by simp [f7]) (by rw [f6]; decide) (Or.inl rfl)
  · intro hnone
    rw [bootstrap_reset, List.find?_eq_none.mpr (fun x hx => by simp [hnone x hx])]
  · intro r hr
    rw [bootstrap_reset, hr]

/-- Instance of C30. With the Scenario A table no row matches the empty token in `q0`, so
the first token is consumed on an empty stack. With the same table and the row
`(q0, epsilon, wildcard, q0, push $)` in front, the stack is `[$]` before the first
token, `[$]` again after `a@0, a@1, b@2, b@3`, and `presentEOS(3)` then takes
`(q1, epsilon, $, q1, pop)` and the engine accepts. -/
theorem bottom_marker_comes_from_table_witness :
    (bootstrap scenarioFresh 0).Stack = [] ∧
      (bootstrap bottomMarkerFresh 0).Stack = ["$"] ∧
      (runCalls bottomMarkerFresh [Call.token 0 "a", Call.token 1 "a", Call.token 2 "b",
        Call.token 3 "b"]).Stack = ["$"] ∧
      (runCalls bottomMarkerFresh [Call.token 0 "a", Call.token 1 "a", Call.token 2 "b",
        Call.token 3 "b", Call.endOfStream 3]).Stack = [] ∧
      (is_accepted (runCalls bottomMarkerFresh [Call.token 0 "a", Call.token 1 "a",
        Call.token 2 "b", Call.token 3 "b", Call.endOfStream 3])).2 = true :=
  ⟨(bottom_marker_comes_from_table 8 scenarioTable true "a").2.1 (by decide),
    (bottom_marker_comes_from_table 8 bottomMarkerTable true "a").2.2
      ⟨"q0", "", "", "q0", "$"⟩ (by decide),
    by decide, by decide, by decide⟩

/-- C31 (currentState stays inside the table), as stated, fails on the code. The
Scenario A table with `StartState = "q9"` passes `validatePDADetails`, and after `reset`
the current state is `q9`, which is not one of its states; the table whose only row is
`(q0, a, wildcard, q7, push a)` passes as well, and after `a@0` the current state is
`q7`. -/
theorem undeclared_state_reached :
    validatePDADetails [] 1 undeclaredStartTable = (true, none) ∧
      (runCalls (reset 8 undeclaredStartTable true) []).CurrentState = "q9" ∧
      "q9" ∉ undeclaredStartTable.States ∧
      validatePDADetails [] 1 undeclaredTargetTable = (true, none) ∧
      (runCalls (reset 8 undeclaredTargetTable true) [Call.token 0 "a"]).CurrentState = "q7" ∧
      "q7" ∉ undeclaredTargetTable.States := by
  decide

/-- C31, amended. In every state reached from `reset` by `pushToQueue` and `presentEOS`
calls, `CurrentState` is the start state of the table or the target (`next_state`) of
one of its rows. It is therefore a member of `States` whenever the start state and the
targets of all rows are, which `validatePDADetails` does not check. -/
theorem currentState_is_start_or_target (queueLength : Nat) (table : PDAProcessor)
    (isReset : Bool) (calls : List Call) :
    ((runCalls (reset queueLength table isReset) calls).CurrentState = table.StartState ∨
        ∃ r ∈ table.Transitions,
          r.nextState = (runCalls (reset queueLength table isReset) calls).CurrentState) ∧
      (table.StartState ∈ table.States →
        (∀ r ∈ table.Transitions, r.nextState ∈ table.States) →
        (runCalls (reset queueLength table isReset) calls).CurrentState ∈ table.States) := by
  obtain ⟨f1, f2, _⟩ := reset_fields queueLength table isReset
  have h := (runCalls_keeps _ (kept_state_from_table table) calls
    (reset queueLength table isReset) ⟨f1, Or.inl f2⟩).2
  refine ⟨h, ?_⟩
  intro hs ht
  rcases h with h | ⟨r, hr, he⟩
  · rw [h]; exact hs
  · rw [← he]; exact ht r hr

/-- Instance of C31: with the Scenario A table, whose start state and targets are all
declared, the current state after `b@3, a@0, a@1, b@2` is one of the states. -/
theorem currentState_is_start_or_target_witness :
    (runCalls scenarioFresh [Call.token 3 "b", Call.token 0 "a", Call.token 1 "a",
      Call.token 2 "b"]).CurrentState ∈ scenarioTable.States :=
  (currentState_is_start_or_target 8 scenarioTable true
    [Call.token 3 "b", Call.token 0 "a", Call.token 1 "a", Call.token 2 "b"]).2
    (by decide) (by decide)

/-- C32 (frontier monotonicity). For every record, every position and every token,
`LastConsumedPosition` after `pushToQueue` and after `presentEOS` is at least what it was
before the call, whatever the call returns; the same holds after any sequence of such
calls; and `reset` puts it back to `-1`. -/
theorem frontier_never_moves_back (p : PDAProcessor) (position : Int) (token : String)
    (calls : List Call) (queueLength : Nat) (isReset : Bool) :
    p.LastConsumedPosition ≤ (pushToQueue p position token).1.LastConsumedPosition ∧
      p.LastConsumedPosition ≤ (presentEOS p position).1.LastConsumedPosition ∧
      p.LastConsumedPosition ≤ (runCalls p calls).LastConsumedPosition ∧
      (reset queueLength p isReset).LastConsumedPosition = -1 :=
  ⟨(pushToQueue_frontier p position token).1, presentEOS_frontier p position,
    runCalls_frontier calls p, (reset_fields queueLength p isReset).2.2.2.2.2.1⟩

/-- C33 (transition log), as stated, fails on the code. With `pathTable` the first call
`pushToQueue(0, "a")` makes two transitions, the initial `put(0, "")` to `q1` and the
one of `a` to `q2` (the stack is `[$, a]` afterwards), but only `q2` is appended to
`TransitionsTaken`: the log is `[q0, q2]`, not `[q0, q1, q2]`. -/
theorem bootstrap_transition_not_logged :
    pathFresh.TransitionsTaken = ["q0"] ∧
      (put pathFresh 0 "").2 = "q1" ∧
      (put (put pathFresh 0 "").1 1 "a").2 = "q2" ∧
      (pushToQueue pathFresh 0 "a").2 = Result.ok "q2" ∧
      (pushToQueue pathFresh 0 "a").1.Stack = ["$", "a"] ∧
      (pushToQueue pathFresh 0 "a").1.TransitionsTaken = ["q0", "q2"] := by
  decide

/-- C33, amended. `TransitionsTaken` is append-only: after every `pushToQueue` and every
`presentEOS` the old log is a prefix of the new one. The initial `put(0, "")` of
`pushToQueue` adds nothing to the log, even when it takes a transition. When
`pushToQueue(pos, t)` consumes `t` and then the stored tokens `run` up to an empty slot
(no end of stream declared), the log afterwards is the old log followed by the target
of `t` and the targets of the tokens of `run`, in order. When `presentEOS` makes the
final transition, its target is appended. -/
theorem transition_log_appends (p : PDAProcessor) (pos : Nat) (t : String)
    (run : List String) (F : PDAProcessor)
    (hfailed : p.PDAFailedInLastEvaluation = false)
    (hnoEos : p.EOSPresentedAtPosition = -1)
    (hnotBehind : ¬ (pos : Int) < p.LastConsumedPosition)
    (hconsumable : (pos : Int) = 0 ∨ (pos : Int) = p.LastConsumedPosition)
    (hfirst : (put (bootstrap p pos) ((pos : Int) + 1) t).2 ≠ "")
    (hslots : ∀ x, x < run.length →
      p.PendingTokenQueue.getD (pos + 1 + x) "" = run.getD x "")
    (hne : ∀ u ∈ run, u ≠ "")
    (hall : consumeAll (pushStep p pos t) (pos + 1) run = some F)
    (hgap : p.PendingTokenQueue.getD (pos + 1 + run.length) "" = "") :
    (∀ (q : PDAProcessor) (position : Int) (token : String),
        ∃ added, (pushToQueue q position token).1.TransitionsTaken =
          q.TransitionsTaken ++ added) ∧
      (∀ (q : PDAProcessor) (position : Int),
        ∃ added, (presentEOS q position).1.TransitionsTaken = q.TransitionsTaken ++ added) ∧
      (∀ q : PDAProcessor, (put q 0 "").1.TransitionsTaken = q.TransitionsTaken) ∧
      (pushToQueue p pos t).1.TransitionsTaken =
        p.TransitionsTaken ++
          (put (bootstrap p pos) ((pos : Int) + 1) t).2 ::
            loggedTargets (pushStep p pos t) (pos + 1) run ∧
      (∀ (q : PDAProcessor) (position : Int), q.PDAFailedInLastEvaluation = false →
        position = q.LastConsumedPosition - 1 →
        (presentEOS q position).2 = Result.ok () →
        (presentEOS q position).1.TransitionsTaken =
          q.TransitionsTaken ++
            [(put { q with EOSPresentedAtPosition := position }
              (q.LastConsumedPosition + 1) "").2]) := by
  refine ⟨?_, ?_, fun q => put_TransitionsTaken q 0 "", ?_, ?_⟩
  · intro q position token
    exact pushToQueue_keeps _ (kept_log_grows q.TransitionsTaken) q position token
      ⟨[], by simp⟩
  · intro q position
    exact presentEOS_keeps _ (kept_log_grows q.TransitionsTaken) q position ⟨[], by simp⟩
  · have he : ¬ (p.EOSPresentedAtPosition ≠ -1 ∧ p.EOSPresentedAtPosition = (pos : Int)) := by
      simp [hnoEos]
    have hmain : pushToQueue p pos t =
        (setQueue F (clearSlots p.PendingTokenQueue (pos + 1) run.length),
          Result.ok (put (bootstrap p pos) ((pos : Int) + 1) t).2) := by
      rw [pushToQueue_drain p pos t run F hfailed (by simp [hnoEos]) hnotBehind hconsumable
        hfirst he hslots hne hall]
      apply drainLoop_at_gap _ _ _ _ _ (by push_cast; omega)
      rw [setQueue_PendingTokenQueue, clearSlots_getD, if_neg (by omega)]
      exact hgap
    obtain ⟨_, s2, _⟩ := pushStep_of_success p pos t hfirst he
    have hF := consumeAll_log run _ F (pos + 1) hall (by rw [s2]; exact hnoEos)
    have hP : (pushStep p pos t).TransitionsTaken =
        p.TransitionsTaken ++ [(put (bootstrap p pos) ((pos : Int) + 1) t).2] := by
      rw [pushStep_eq_bootstrap, consumeQueued_no_reconcile (bootstrap p pos) pos t hfirst
        (by rw [(bootstrap_frame p pos).2.1]; exact he)]
      simp only
      rw [addTransitionIfRequired_log _ _ hfirst, put_TransitionsTaken, bootstrap_log]
    rw [hmain]
    show F.TransitionsTaken = _
    rw [hF, hP]
    simp
  · intro q position hf hat hok
    rw [presentEOS_at_frontier q position hf hat] at hok ⊢
    have hl := reachedEOS_log { q with EOSPresentedAtPosition := position }
    rcases hr : reachedEOS { q with EOSPresentedAtPosition := position } with ⟨p2, res⟩
    rw [hr] at hok hl
    cases res with
    | ok v =>
      obtain ⟨h1, _, h3⟩ := hl v rfl
      simp only at h3 ⊢
      rw [h3, h1]
    | fail s e => simp at hok
    | panic => simp at hok

/-- Instance of C33: the `bottomMarkerTable` engine with `b@2` and `a@1` stored consumes
`a@0`, `a@1`, `b@2` in one call; the initial transition to `q0` is not logged and the
log grows from `[q0]` to `[q0, q0, q0, q1]`. -/
theorem transition_log_appends_witness :
    (runCalls bottomMarkerFresh [Call.token 2 "b", Call.token 1 "a"]).TransitionsTaken
        = ["q0"] ∧
      (put (runCalls bottomMarkerFresh [Call.token 2 "b", Call.token 1 "a"]) 0 "").2
        = "q0" ∧
      (pushToQueue (runCalls bottomMarkerFresh [Call.token 2 "b", Call.token 1 "a"])
        0 "a").1.TransitionsTaken = ["q0", "q0", "q0", "q1"] :=
  ⟨by decide, by decide,
    (transition_log_appends (runCalls bottomMarkerFresh [Call.token 2 "b", Call.token 1 "a"])
      0 "a" ["a", "b"]
      (consumeQueued (consumeQueued
        (pushStep (runCalls bottomMarkerFresh [Call.token 2 "b", Call.token 1 "a"]) 0 "a")
        1 "a").1 2 "b").1
      (by decide) (by decide) (by decide) (by decide) (by decide) (by decide) (by decide)
      (by decide) (by decide)).2.2.2.1.trans (by decide)⟩

/-- C34 (bootstrap step). Let `pushToQueue(position, t)` be made in a state that has not
failed, with `position` not past a declared end of stream and not behind the consumed
positions.

(1) If `position` is `0` and `LastConsumedPosition` is `-1`, the call is
`consumeToken(0, t)` run on the record left by `put(0, "")`: the step for `t` is
`put(1, t)` on that record. If it finds no transition the call fails there; if it finds
one (and the end of stream is not declared at 0) the call goes on with the pending-queue
loop from the record of these two steps.

(2) Otherwise no `put(0, "")` is made: a consumable token is consumed in the record as
it is, and for a position that is neither `0` nor `LastConsumedPosition` no step is
applied at all, the record changing at most in the pending queue. -/
theorem bootstrap_step_first (p : PDAProcessor) (position : Int) (t : String)
    (hfailed : p.PDAFailedInLastEvaluation = false)
    (hnotPastEos : ¬ (p.EOSPresentedAtPosition ≠ -1 ∧ p.EOSPresentedAtPosition < position))
    (hnotBehind : ¬ position < p.LastConsumedPosition) :
    (position = 0 ∧ p.LastConsumedPosition = -1 →
        pushToQueue p position t = consumeToken (put p 0 "").1 0 t false ∧
        ((put (put p 0 "").1 1 t).2 = "" →
          pushToQueue p position t =
            ({ (put (put p 0 "").1 1 t).1 with PDAFailedInLastEvaluation := true },
              Result.fail "" (PDAError.noTransition t 0))) ∧
        ((put (put p 0 "").1 1 t).2 ≠ "" →
          ¬ (p.EOSPresentedAtPosition ≠ -1 ∧ p.EOSPresentedAtPosition = 0) →
          pushToQueue p position t =
            drainLoop 0 (put (put p 0 "").1 1 t).2 p.PendingTokenQueue.length 0
              (addTransitionIfRequired (put (put p 0 "").1 1 t).1
                (put (put p 0 "").1 1 t).2))) ∧
      (¬ (position = 0 ∧ p.LastConsumedPosition = -1) →
        position = 0 ∨ position = p.LastConsumedPosition →
        pushToQueue p position t = consumeToken p position t false) ∧
      (position ≠ 0 → position ≠ p.LastConsumedPosition →
        setQueue (pushToQueue p position t).1 p.PendingTokenQueue = p) := by
  refine ⟨?_, ?_, ?_⟩
  · rintro ⟨h0, hl⟩
    subst h0
    have hb : bootstrap p 0 = (put p 0 "").1 := by
      unfold bootstrap
      rw [if_pos ⟨rfl, hl⟩]
    have hmain := pushToQueue_consumable p 0 t hfailed hnotPastEos hnotBehind (Or.inl rfl)
    rw [hb] at hmain
    have e : (0 : Int) + 1 = 1 := rfl
    refine ⟨hmain, ?_, ?_⟩
    · intro hput
      have h := consumeToken_no_transition (put p 0 "").1 0 t false (by rw [e]; exact hput)
      rw [e] at h
      rw [hmain, h]
    · intro hput he
      have he2 : ¬ ((put p 0 "").1.EOSPresentedAtPosition ≠ -1 ∧
          (put p 0 "").1.EOSPresentedAtPosition = 0) := by
        rw [put_EOSPresentedAtPosition]; exact he
      have h := consumeToken_drains (put p 0 "").1 0 t (by rw [e]; exact hput) he2
      rw [consumeQueued_no_reconcile (put p 0 "").1 0 t (by rw [e]; exact hput) he2] at h
      rw [e, put_PendingTokenQueue] at h
      rw [hmain, h]
  · intro hnb hc
    have h := pushToQueue_consumable p position t hfailed hnotPastEos hnotBehind hc
    rw [bootstrap_of_consumed p position hnb] at h
    exact h
  · intro h0 hl
    exact pushToQueue_not_consumable p position t hfailed hnotPastEos hnotBehind h0 hl

/-- Instance of C34. On the fresh `bottomMarkerTable` engine `a@0` is consumed after the
initial `put(0, "")` has pushed `$`: the stack is `[$, a]`. After that, `a@1` is consumed
with no initial step (the stack is `[$, a, a]`, not `[$, a, $, a]`). -/
theorem bootstrap_step_first_witness :
    (put bottomMarkerFresh 0 "").1.Stack = ["$"] ∧
      pushToQueue bottomMarkerFresh 0 "a" =
        consumeToken (put bottomMarkerFresh 0 "").1 0 "a" false ∧
      (pushToQueue bottomMarkerFresh 0 "a").1.Stack = ["$", "a"] ∧
      pushToQueue (pushToQueue bottomMarkerFresh 0 "a").1 1 "a" =
        consumeToken (pushToQueue bottomMarkerFresh 0 "a").1 1 "a" false ∧
      (pushToQueue (pushToQueue bottomMarkerFresh 0 "a").1 1 "a").1.Stack = ["$", "a", "a"] :=
  ⟨by decide,
    ((bootstrap_step_first bottomMarkerFresh 0 "a" (by decide) (by decide) (by decide)).1
      (by decide)).1,
    by decide,
    (bootstrap_step_first (pushToQueue bottomMarkerFresh 0 "a").1 1 "a" (by decide)
      (by decide) (by decide)).2.1 (by decide) (by decide),
    by decide⟩

/-- C35 (EOS reconciliation uses the table's own EOS symbol), evaluated on the code. With
the table `eosTable "#"`, whose EOS symbol is `#` and which has the row
`(q0, epsilon, #, q1, pop)`, the stack after `a@0` is exactly `[#]`; `presentEOS(0)` runs
the reconciliation, whose `eos()` compares the top with the literal `$`: the call fails
with the "stack is not empty" error and sets the failure flag; the stack is untouched.
The same happens in `pushToQueue` when the end of stream was declared first. With `$` in
place of `#` both calls succeed, the stack becomes empty and the state `q1`. -/
theorem reconciliation_compares_with_dollar :
    (eosTable "#").Eos = "#" ∧
      (⟨"q0", "", "#", "q1", ""⟩ : Transition) ∈ (eosTable "#").Transitions ∧
      (eosAfterA "#").Stack = ["#"] ∧
      (eosAfterA "#").CurrentState = "q0" ∧
      presentEOS (eosAfterA "#") 0 =
        ({ eosAfterA "#" with EOSPresentedAtPosition := 0, PDAFailedInLastEvaluation := true },
          Result.fail () (PDAError.stackNotEmpty 0)) ∧
      (pushToQueue (presentEOS (reset 8 (eosTable "#") true) 0).1 0 "a").2 =
        Result.fail "" (PDAError.stackNotEmpty 0) ∧
      (pushToQueue (presentEOS (reset 8 (eosTable "#") true) 0).1 0
        "a").1.PDAFailedInLastEvaluation = true ∧
      (presentEOS (eosAfterA "$") 0).2 = Result.ok () ∧
      (presentEOS (eosAfterA "$") 0).1.Stack = [] ∧
      (presentEOS (eosAfterA "$") 0).1.CurrentState = "q1" ∧
      (presentEOS (eosAfterA "$") 0).1.PDAFailedInLastEvaluation = false := by
  decide

/-- C36 (nothing is applied past EOS), evaluated on the code. With `loopTable`, `a@2` and
`b@1` are stored and `presentEOS(1)` succeeds. Then `a@0` is consumed, the loop consumes
`b@1`, makes the final transition (the stack is empty, as it is when `a@2` was never
stored) and goes on to slot 2: `a@2`, past the declared end of stream, is consumed as
well. The slot is emptied, the stack becomes `[a]`, one more entry is logged, and the
engine no longer accepts. -/
theorem token_past_eos_is_consumed :
    (presentEOS (runCalls loopFresh [Call.token 2 "a", Call.token 1 "b"]) 1).2 = Result.ok () ∧
      (runCalls loopFresh [Call.token 2 "a", Call.token 1 "b",
        Call.endOfStream 1]).EOSPresentedAtPosition = 1 ∧
      (runCalls loopFresh [Call.token 2 "a", Call.token 1 "b",
        Call.endOfStream 1]).PendingTokenQueue.getD 2 "" = "a" ∧
      (pushToQueue (runCalls loopFresh [Call.token 2 "a", Call.token 1 "b",
        Call.endOfStream 1]) 0 "a").2 = Result.ok "q0" ∧
      loopPastEos.PendingTokenQueue.getD 2 "" = "" ∧
      loopPastEos.Stack = ["a"] ∧
      loopPastEos.TransitionsTaken.length = 5 ∧
      (is_accepted loopPastEos).2 = false ∧
      (runCalls loopFresh [Call.token 1 "b", Call.endOfStream 1, Call.token 0 "a"]).Stack
        = [] ∧
      (runCalls loopFresh [Call.token 1 "b", Call.endOfStream 1,
        Call.token 0 "a"]).TransitionsTaken.length = 4 ∧
      (is_accepted (runCalls loopFresh [Call.token 1 "b", Call.endOfStream 1,
        Call.token 0 "a"])).2 = true := by
  decide

/-- C37 (buffered means not yet consumed), evaluated on the code. With `markerTable`,
`a@1` is stored and `presentEOS(0)` succeeds; then `b@0` is consumed and the final
transition is made, which moves `LastConsumedPosition` to 2 without looking at slot 1.
In the state reached, which has not failed, slot 1 is occupied although
`1 < LastConsumedPosition`, and `queued_tokens()` reports the token `a`. -/
theorem stored_token_behind_frontier :
    (pushToQueue markerFresh 1 "a").2 = Result.ok "" ∧
      (presentEOS (runCalls markerFresh [Call.token 1 "a"]) 0).2 = Result.ok () ∧
      (pushToQueue (runCalls markerFresh [Call.token 1 "a", Call.endOfStream 0]) 0 "b").2 =
        Result.ok "q0" ∧
      markerSlotBehind.PDAFailedInLastEvaluation = false ∧
      markerSlotBehind.LastConsumedPosition = 2 ∧
      markerSlotBehind.PendingTokenQueue.getD 1 "" = "a" ∧
      (queued_tokens markerSlotBehind).2 = ["a"] := by
  decide

end PDA
